import Mathlib

/-!
# Verification of the `datesy` matching engine

A shallow embedding of `datesy/matching.py`: the similarity score
(`difflib.SequenceMatcher.ratio`), the direct-match extraction, the string
normalization (`simplify_strings`), and the four matching strategies
(`match_similar` in per-entry greedy, global-greedy and interactive modes,
`match_comprehensive`, and `match_similar_with_manual_selection`), together
with theorems checking the specified properties against this embedding.

Modelling conventions:
* Python floats are modelled as `ℚ` (every similarity is a ratio of small
  naturals, so float grouping and comparisons agree with the rational ones);
* Python dicts are association lists with Python's update-in-place-else-append
  insertion semantics; Python sets of labels are lists used up to membership;
* in-place list mutation is explicit state passing, and the final contents of
  the two caller-owned pools are returned where a claim needs them;
* uncaught Python exceptions are `Except` errors (`ValueError`, `IndexError`,
  `KeyError`, `TypeError`); caught ones are handled where the code catches
  them;
* `input()` is a stream `Nat → Ans` of abstracted human answers (only
  emptiness, the literal `"break"`, and parseability as an `int` are ever
  inspected by the code); the terminal width probed by `stty size` is an
  explicit parameter.
-/

set_option maxRecDepth 10000

namespace Datesy

/-- Uncaught Python exception kinds raised by the matching code. -/
inductive PyErr where
  | valueError
  | indexError
  | keyError
  | typeError
  deriving DecidableEq, Repr

/-- A value stored in the `match` dict: the code stores either a plain string,
a list of strings (tie groups), or — through the tuple-indexing slip in
`match_similar_with_manual_selection` — a bare similarity float. -/
inductive MatchValue where
  | single (s : String)
  | multiple (l : List String)
  | num (q : ℚ)
  deriving DecidableEq, Repr

/-- An abstracted human answer read from `input()`: the code only ever checks
whether the answer is empty, is the literal `"break"`, or parses as an `int`. -/
inductive Ans where
  | empty
  | brk
  | num (n : ℤ)
  | other
  deriving DecidableEq

deriving instance DecidableEq for Except

/-- Python dict lookup on an association list. -/
def dlookup {κ α : Type} [DecidableEq κ] (k : κ) : List (κ × α) → Option α
  | [] => none
  | (k', v) :: rest => if k' = k then some v else dlookup k rest

/-- Python dict assignment: update in place if the key exists (keeping its
insertion position), otherwise append. -/
def dinsert {κ α : Type} [DecidableEq κ] (k : κ) (v : α) : List (κ × α) → List (κ × α)
  | [] => [(k, v)]
  | (k', v') :: rest => if k' = k then (k, v) :: rest else (k', v') :: dinsert k v rest

/-- The keys of a dict, in insertion order (`list(d.keys())`). -/
def dkeys {κ α : Type} : List (κ × α) → List κ := List.map Prod.fst

/-- The values of a dict, in insertion order (`list(d.values())`). -/
def dvalues {κ α : Type} : List (κ × α) → List α := List.map Prod.snd

/-- Remove the first occurrence of `x` (no-op when absent). -/
def pyErase {α : Type} [DecidableEq α] (x : α) : List α → List α
  | [] => []
  | y :: ys => if y = x then ys else y :: pyErase x ys

/-- Python `list.remove`: drop the first occurrence, `ValueError` if absent. -/
def pyRemove {α : Type} [DecidableEq α] (x : α) (l : List α) : Except PyErr (List α) :=
  if x ∈ l then .ok (pyErase x l) else .error .valueError

/-- Python `set.add` on a list modelling a set (insertion-ordered, no dups). -/
def setAdd {α : Type} [DecidableEq α] (l : List α) (x : α) : List α :=
  if x ∈ l then l else l ++ [x]

/-- Python list indexing with negative-index wrap-around and `IndexError`. -/
def pyIndex {α : Type} (l : List α) (n : ℤ) : Except PyErr α :=
  let i := if n < 0 then n + (l.length : ℤ) else n
  if i < 0 then .error .indexError
  else
    match l[i.toNat]? with
    | some x => .ok x
    | none => .error .indexError

/-! ## The similarity score: `difflib.SequenceMatcher(None, a, b).ratio()`

For the strings that occur here (well under 200 characters, no junk), the
algorithm is plain Ratcliff/Obershelp: find the longest matching block —
preferring, among equally long blocks, the one starting earliest in `a`, then
earliest in `b` — and recurse on the two remaining sides; the ratio is
`2 * (total matched) / (len(a) + len(b))`, and `1.0` when both are empty. -/

/-- Length of the common run of two character lists starting at their heads. -/
def commonRun : List Char → List Char → Nat
  | a :: as, b :: bs => if a = b then commonRun as bs + 1 else 0
  | _, _ => 0

/-- `find_longest_match` on junk-free input: among all start positions
`(i, j)`, a longest matching run, with smallest `i`, then smallest `j`,
preferred; `(0, 0, 0)` when there is no match at all. -/
def findLongestMatch (a b : List Char) : Nat × Nat × Nat :=
  ((List.range a.length).flatMap fun i =>
      (List.range b.length).map fun j => (i, j, commonRun (a.drop i) (b.drop j))).foldl
    (fun best c => if best.2.2 < c.2.2 then c else best) (0, 0, 0)

/-- Total size of all matching blocks (the `get_matching_blocks` recursion),
with explicit fuel; `a.length + b.length` fuel always suffices. -/
def matchingTotalFuel : Nat → List Char → List Char → Nat
  | 0, _, _ => 0
  | fuel + 1, a, b =>
    let t := findLongestMatch a b
    if t.2.2 = 0 then 0
    else
      matchingTotalFuel fuel (a.take t.1) (b.take t.2.1) + t.2.2 +
        matchingTotalFuel fuel (a.drop (t.1 + t.2.2)) (b.drop (t.2.1 + t.2.2))

/-- Total number of matching characters between two character lists. -/
def matchingTotal (a b : List Char) : Nat := matchingTotalFuel (a.length + b.length) a b

/-- `SequenceMatcher(None, a, b).ratio()` as a rational
(`2.0 * M / T`, and `1.0` when `T = 0`), built with `mkRat` so that it is
kernel-computable. -/
def ratio (a b : String) : ℚ :=
  if a.data.length + b.data.length = 0 then 1
  else mkRat (2 * matchingTotal a.data b.data) (a.data.length + b.data.length)

/-- Kernel-computable rational subtraction (the standard cross-multiplication
formula); proved equal to `Sub.sub` below. -/
def qsub (a b : ℚ) : ℚ := mkRat (a.num * b.den - b.num * a.den) (a.den * b.den)

theorem qsub_eq (a b : ℚ) : qsub a b = a - b := (Rat.sub_def' a b).symm

/-! ## `simplify_strings` (the Normalizer) -/

/-- The default simplifier characters of `simplify_strings` and
`match_similar`: the characters of the class `"[_, | \n ' & \" % \\ * -]"`. -/
def defaultSimplifier : List Char :=
  ['_', ',', ' ', '|', '\n', '\'', '&', '"', '%', '\\', '*', '-']

/-- `"".join(re.split(simplifier, key))`: remove every simplifier character. -/
def stripChars (cs : List Char) (s : String) : String :=
  ⟨s.data.filter fun c => ¬ cs.contains c⟩

/-- Python `str.lower` on the ASCII labels modelled here: lower-case each
character (written via `List.map` so that it evaluates by kernel reduction,
unlike `String.toLower`). -/
def pyLower (s : String) : String :=
  ⟨s.data.map Char.toLower⟩

/-- The normalization applied to one label by `simplify_strings` given the two
policy flags. -/
def pySimplifyKey (simplifier : Option (List Char)) (lowerCase : Bool) (s : String) : String :=
  match simplifier, lowerCase with
  | some cs, true => pyLower (stripChars cs s)
  | some cs, false => stripChars cs s
  | none, true => pyLower s
  | none, false => s

/-- Errors raised by `simplify_strings`: the per-key "either simplifier or
lower_case must be set" `ValueError`, and the non-uniqueness `ValueError`
whose message interpolates the `not_unique` set of original labels. -/
inductive SimpErr where
  | flagsUnset
  | collision (labels : List String)
  deriving DecidableEq

/-- One iteration of the `add_to_simplified` closure: on a key collision both
the previously stored original and the new one join the `not_unique` set. -/
def addToSimplified (f : String → String) (st : List (String × String) × List String)
    (key : String) : List (String × String) × List String :=
  match dlookup (f key) st.1 with
  | some v => (st.1, setAdd (setAdd st.2 v) key)
  | none => (dinsert (f key) key st.1, st.2)

/-- `simplify_strings` restricted to list input: returns the
`{simplified_value: input_value}` dict or raises. The `flagsUnset` error is
raised inside the loop, so an empty input never raises it. -/
def simplify_strings (toSimplify : List String) (lowerCase : Bool)
    (simplifier : Option (List Char)) : Except SimpErr (List (String × String)) :=
  if simplifier = none ∧ lowerCase = false then
    if toSimplify = [] then .ok [] else .error .flagsUnset
  else
    let st := toSimplify.foldl (addToSimplified (pySimplifyKey simplifier lowerCase)) ([], [])
    if st.2 ≠ [] then .error (.collision st.2) else .ok st.1

/-! ## Direct matches and the similarity indices -/

/-- `_find_direct_matches` and the identical inline loop of `match_similar`:
iterate over a copy of the source pool; on exact membership in the target pool
record `a ↦ a` and remove the label from both pools. Returns
`(matches, remaining sources, remaining targets)`. -/
def findDirectMatches (lfm ltbm : List String) :
    List (String × MatchValue) × List String × List String :=
  lfm.foldl
    (fun st a =>
      if a ∈ st.2.2 then
        (dinsert a (.single a) st.1, pyErase a st.2.1, pyErase a st.2.2)
      else st)
    ([], lfm, ltbm)

/-- `_check_for_unique_similarity`: store the first target at a similarity as
a scalar, and turn the entry into a growing list on repeats. (A `num` entry
never occurs in a similarity dict; the catch-all keeps the function total.) -/
def checkForUniqueSimilarity (simi : ℚ) (value : String) (d : List (ℚ × MatchValue)) :
    List (ℚ × MatchValue) :=
  match dlookup simi d with
  | some (.single s) => dinsert simi (.multiple [s, value]) d
  | some (.multiple l) => dinsert simi (.multiple (l ++ [value])) d
  | some (.num _) => d
  | none => dinsert simi (.single value) d

/-- The `most_similar[entry_a]` dict of `match_similar` (lines 460-474): for
one source label, the targets grouped by similarity, keeping only pairs with
similarity strictly above the floor. -/
def mostSimilarFor (floor : ℚ) (a : String) (ltbm : List String) : List (ℚ × MatchValue) :=
  ltbm.foldl
    (fun d b =>
      let s := ratio a b
      if floor < s then checkForUniqueSimilarity s b d else d)
    []

/-- Insert into a descending-sorted list of rationals. -/
def insertDescQ (x : ℚ) : List ℚ → List ℚ
  | [] => [x]
  | y :: ys => if y ≤ x then x :: y :: ys else y :: insertDescQ x ys

/-- `sorted(keys)[::-1]`: the (distinct) similarity keys in decreasing
order. -/
def sortedDesc (l : List ℚ) : List ℚ := l.foldr insertDescQ []

/-- `ordered_most_similar[entry_a]`. -/
def orderedMostSimilar (floor : ℚ) (a : String) (ltbm : List String) : List ℚ :=
  sortedDesc (dkeys (mostSimilarFor floor a ltbm))

/-- `_calculate_similarities_listed_by_list_for_matching_entry` for one source
label: every target (no floor) grouped by similarity, groups listed in
decreasing similarity order. -/
def simsListedForEntry (a : String) (ltbm : List String) : List (ℚ × List String) :=
  let groups : List (ℚ × List String) :=
    ltbm.foldl
      (fun d b =>
        let s := ratio a b
        match dlookup s d with
        | some l => dinsert s (l ++ [b]) d
        | none => dinsert s [b] d)
      []
  (sortedDesc (dkeys groups)).map fun s => (s, (dlookup s groups).getD [])

/-- A row of the similarity dataframe: `(similarity, entry_a, entry_b)`. -/
structure Row where
  sim : ℚ
  a : String
  b : String
  deriving DecidableEq

/-- `_calculate_similarities_listed_by_similarity` followed by the dataframe
construction: all cross pairs — filtered by the floor when one applies, as in
`match_similar`'s comprehensive branch, unfiltered in `match_comprehensive` —
grouped by similarity, groups in decreasing order, pairs within a group in
scan order (sources outer, targets inner). -/
def buildRowsInner (floorOpt : Option ℚ) (a : String)
    (d : List (ℚ × List (String × String))) (b : String) :
    List (ℚ × List (String × String)) :=
  let s := ratio a b
  let keep : Bool := match floorOpt with
    | some floor => decide (floor < s)
    | none => true
  if keep then
    match dlookup s d with
    | some ps => dinsert s (ps ++ [(a, b)]) d
    | none => dinsert s [(a, b)] d
  else d

/-- The `all_similarities` grouping dict. -/
def buildRowsGroups (floorOpt : Option ℚ) (lfm ltbm : List String) :
    List (ℚ × List (String × String)) :=
  lfm.foldl (fun d a => ltbm.foldl (buildRowsInner floorOpt a) d) []

def buildRows (floorOpt : Option ℚ) (lfm ltbm : List String) : List Row :=
  (sortedDesc (dkeys (buildRowsGroups floorOpt lfm ltbm))).flatMap fun s =>
    ((dlookup s (buildRowsGroups floorOpt lfm ltbm)).getD []).map fun p => ⟨s, p.1, p.2⟩

/-! ## The global-greedy (comprehensive) loop

Shared, up to one difference, by `match_comprehensive` (lines 265-342) and the
`enforce_comprehensive_check` branch of `match_similar` (lines 527-602): only
the former truncates the fallback `multiple_match` scan at the leftover loop
variable `index` (`if i > index: break`), selected here by `useIdx`. -/

/-- `df.entry_a[i]` on a reset `RangeIndex`: positional, `KeyError` when out
of range. -/
def rowAt (df : List Row) (i : Nat) : Except PyErr Row :=
  match df[i]? with
  | some r => .ok r
  | none => .error .keyError

/-- `all_entries`: sources and targets of the tied rows, in row order. -/
def allEntriesOf (rows : List Row) : List String :=
  rows.flatMap fun r => [r.a, r.b]

/-- `all_entries_with_index[x]`: the tied-row indexes at which `x` occurs
(the source position appended before the target position of the same row). -/
def entryIndexes (rows : List Row) (x : String) : List Nat :=
  rows.enum.flatMap fun p =>
    (if p.2.a = x then [p.1] else []) ++ (if p.2.b = x then [p.1] else [])

/-- `doubled = all.copy(); for e in set(all): doubled.remove(e)`: the list
minus the first occurrence of each distinct element (the removal set does not
depend on Python's set iteration order). -/
def removeOnceEach {α : Type} [DecidableEq α] (l : List α) : List α :=
  l.dedup.foldl (fun acc x => pyErase x acc) l

/-- The committing loop `for index in indexes:` of the tie branch. The stored
indexes are positions in the dataframe as it was when they were collected;
after the first commit re-filters and re-indexes it they are read against the
new frame (pandas would silently return a different row, or raise `KeyError`
past the end). -/
def commitIndexes (idxs : List Nat) (df : List Row) (m : List (String × MatchValue)) :
    Except PyErr (List Row × List (String × MatchValue)) :=
  match idxs with
  | [] => .ok (df, m)
  | i :: rest => do
    let r ← rowAt df i
    commitIndexes rest
      ((df.filter fun r' => r'.a ≠ r.a).filter fun r' => r'.b ≠ r.b)
      (dinsert r.a (.single r.b) m)

/-- `multiple_match` of the full-collision fallback: for each doubled label,
the targets of the rows whose source equals it, scanning the whole current
frame — truncated at the leftover `index` bound in `match_comprehensive`. -/
def multipleMatchFor (bound : Option Nat) (doubled : List String) (df : List Row) :
    List String :=
  doubled.flatMap fun e =>
    (df.enum.filter fun p =>
        (match bound with | some bd => decide (p.1 ≤ bd) | none => true) && decide (p.2.a = e)).map
      fun p => p.2.b

/-- The tie (`else`) branch of the comprehensive loop body, on a non-empty
frame `r0 :: rest`: collect the tied prefix, drop the indexes touched by a
doubled label (`list.remove` raising on a double removal), commit the
survivors, or fall back to the `multiple_match` collection. -/
def compTie (useIdx : Bool) (r0 : Row) (rest : List Row) (m : List (String × MatchValue)) :
    Except PyErr (List Row × List (String × MatchValue)) :=
  let df := r0 :: rest
  let tied := df.takeWhile fun r => r.sim = r0.sim
  let idxs0 := List.range tied.length
  let doubled := removeOnceEach (allEntriesOf tied)
  let removals := doubled.flatMap (entryIndexes tied)
  do
    let idxs ← removals.foldlM (fun acc i => pyRemove i acc) idxs0
    if idxs ≠ [] then
      commitIndexes idxs df m
    else
      let scanLeftover := if tied.length < df.length then tied.length else df.length - 1
      let bound : Option Nat :=
        if useIdx then some (removals.getLast?.getD scanLeftover) else none
      let mm := multipleMatchFor bound doubled df
      let m' := if mm ≠ [] then dinsert r0.a (.multiple mm) m else m
      .ok ((df.filter fun r' => r'.a ≠ r0.a).filter fun r' => r'.b ≠ r0.b, m')

/-- One iteration of the comprehensive `while` loop, on a non-empty frame
`r0 :: rest`: a strict unique top similarity commits row 0 (also dropping the
whole similarity level), otherwise the tie branch runs. -/
def compStep (useIdx : Bool) (r0 : Row) (rest : List Row) (m : List (String × MatchValue)) :
    Except PyErr (List Row × List (String × MatchValue)) :=
  let df := r0 :: rest
  match rest with
  | r1 :: _ =>
    if r0.sim ≠ r1.sim then
      .ok
        ((((df.filter fun r' => r'.sim ≠ r0.sim).filter fun r' => r'.a ≠ r0.a).filter
            fun r' => r'.b ≠ r0.b),
          dinsert r0.a (.single r0.b) m)
    else compTie useIdx r0 rest m
  | [] => compTie useIdx r0 rest m

/-- The comprehensive `while len(df) != 0 and len(df) != old_length:` loop;
`df.length + 1` fuel always suffices since every iteration shrinks the frame
(or raises). -/
def compLoop (useIdx : Bool) :
    Nat → Nat → List Row → List (String × MatchValue) →
      Except PyErr (List (String × MatchValue))
  | 0, _, _, m => .ok m
  | fuel + 1, oldLen, df, m =>
    match df with
    | [] => .ok m
    | r0 :: rest =>
      if (r0 :: rest).length = oldLen then .ok m
      else
        (compStep useIdx r0 rest m).bind fun p =>
          compLoop useIdx fuel (r0 :: rest).length p.1 p.2

/-! ## The per-entry greedy loop of `match_similar` (lines 479-505) -/

/-- The mutable state of `match_similar`: the `match` dict and the two
caller-owned pools being consumed in place. -/
structure GreedySt where
  m : List (String × MatchValue)
  fl : List String
  tl : List String
  deriving DecidableEq

/-- The `auto_match_all` non-comprehensive loop: for each source label take
the targets at its own highest similarity (an empty candidate dict raises the
caught `IndexError` and the label is skipped), record them and remove the
label and every taken target from the pools (`list.remove` raising an uncaught
`ValueError` when a target was already consumed by an earlier label). `ms` is
the candidate dict built before the loop against the then-current target
pool. -/
def greedyLoop (ms : String → List (ℚ × MatchValue)) :
    List String → GreedySt → Except PyErr GreedySt
  | [], st => .ok st
  | a :: todo, st =>
    match (sortedDesc (dkeys (ms a))).head? with
    | none => greedyLoop ms todo st
    | some s => do
      let v ← match dlookup s (ms a) with
        | some v => Except.ok v
        | none => Except.error PyErr.keyError
      let fl' ← pyRemove a st.fl
      let tl' ← match v with
        | .multiple l => l.foldlM (fun acc b => pyRemove b acc) st.tl
        | .single b => pyRemove b st.tl
        | .num _ => Except.error PyErr.valueError
      greedyLoop ms todo ⟨dinsert a v st.m, fl', tl'⟩

/-! ## The interactive branch of `match_similar` (lines 607-765) -/

/-- Python `len(x)` for the string-or-list values sized when laying out the
candidate table (`len` of a float raises, but a `num` never occurs there). -/
def pyLen : MatchValue → Nat
  | .single s => s.length
  | .multiple l => l.length
  | .num _ => 0

/-- Python `len(str(x))` for those values: a string prints as itself, a list
as `['a', 'b']` (the ASCII labels used here repr as themselves plus quotes). -/
def strLenOfVal : MatchValue → Nat
  | .single s => s.length
  | .multiple l => 2 + (l.map fun s => s.length + 2).sum + 2 * (l.length - 1)
  | .num _ => 0

/-- Python `max(candidates, key=len)`: the first element of maximal length. -/
def maxByLen (l : List MatchValue) : MatchValue :=
  match l with
  | [] => .single ""
  | x :: xs => xs.foldl (fun best c => if pyLen best < pyLen c then c else best) x

/-- `largest_string` for one source label: the printed length of the longest
candidate value or the label itself. -/
def largestString (msA : List (ℚ × MatchValue)) (a : String) : Nat :=
  strLenOfVal (maxByLen (dvalues msA ++ [.single a]))

/-- `number_to_show`, derived from the terminal width `ww`. -/
def numberToShow (ww : Nat) (msA : List (ℚ × MatchValue)) (a : String) (nOrdered : Nat) : Nat :=
  let largest := largestString msA a
  let maxShow0 := ww / (largest + 3)
  let maxShow := if ww / 13 < maxShow0 then ww / 13 else maxShow0
  if maxShow < nOrdered then maxShow else nOrdered

/-- The state of the interactive loop: the `match` dict, the `no_match` list,
and how many `input()` answers have been consumed. -/
structure InterSt where
  m : List (String × MatchValue)
  nm : List String
  cnt : Nat

/-- The sub-prompt generator loop (lines 725-759): at the `n`-th generator
step `number_to_show` has been bumped once per previous non-empty answer, so
the candidate index probed by the print is `nts0 + 2 * n` (an `IndexError`
there is caught and abandons the label) while an empty answer accepts the
candidate at the current `number_to_show`, i.e. `nts0 + n`. `left` counts the
generator steps remaining out of `ordered.length`. -/
def interactiveSub (msA : List (ℚ × MatchValue)) (ordered : List ℚ) (a : String)
    (ans : Nat → Ans) (nts0 : Nat) :
    Nat → Nat → List (String × MatchValue) → Except PyErr (List (String × MatchValue) × Nat)
  | 0, cnt, m => .ok (m, cnt)
  | left + 1, cnt, m =>
    let n := ordered.length - (left + 1)
    if ordered.length ≤ nts0 + 2 * n then .ok (m, cnt)
    else
      match ans cnt with
      | .empty =>
        match ordered[nts0 + n]? with
        | some s =>
          match dlookup s msA with
          | some v => .ok (dinsert a v m, cnt + 1)
          | none => .error .keyError
        | none => .ok (m, cnt + 1)
      | _ => interactiveSub msA ordered a ans nts0 left (cnt + 1) m

/-- The auto-accept stage for one interactive source label (lines 616-640):
accept the top group outright on a lone high-scoring candidate or a large gap
between the top two similarities. -/
def interactiveAuto (minDist : ℚ) (msA : List (ℚ × MatchValue)) (ordered : List ℚ)
    (a : String) (m : List (String × MatchValue)) :
    Except PyErr (List (String × MatchValue)) :=
  let o0 := ordered.head?.getD 0
  let o1 := (ordered.drop 1).head?.getD 0
  let auto : Bool :=
    (ordered.length = 1 && decide (qsub 1 minDist < o0)) ||
      (decide (1 < ordered.length) && decide (minDist < qsub o0 o1))
  if auto then
    match dlookup o0 msA with
    | some v => .ok (dinsert a v m)
    | none => .error .keyError
  else .ok m

/-- The prompt stage (lines 642-759): an empty answer takes the top group, an
integer answer indexes the similarity ranking (uncaught `IndexError` on a bad
index), anything else walks the sub-prompt sequence. -/
def interactivePrompt (msA : List (ℚ × MatchValue)) (ordered : List ℚ) (a : String)
    (ans : Nat → Ans) (ww : Nat) (cnt : Nat) (m1 : List (String × MatchValue)) :
    Except PyErr (List (String × MatchValue) × Nat) :=
  let o0 := ordered.head?.getD 0
  let nts := numberToShow ww msA a ordered.length
  match ans cnt with
  | .empty =>
    match dlookup o0 msA with
    | some v => .ok (dinsert a v m1, cnt + 1)
    | none => .error .keyError
  | .num n =>
    (pyIndex ordered n).bind fun s =>
      match dlookup s msA with
      | some v => .ok (dinsert a v m1, cnt + 1)
      | none => .error .keyError
  | _ => interactiveSub msA ordered a ans nts ordered.length (cnt + 1) m1

/-- One source label of the interactive loop: skip on an empty candidate
dict, try auto-accept, prompt if still unmatched, and record the label in
`no_match` when it ends the step unmatched. -/
def interactiveEntry (floor minDist : ℚ) (ww : Nat) (tl1 : List String) (ans : Nat → Ans)
    (st : InterSt) (a : String) : Except PyErr InterSt :=
  let msA := mostSimilarFor floor a tl1
  if msA = [] then
    .ok ⟨st.m, if (dlookup a st.m).isSome then st.nm else st.nm ++ [a], st.cnt⟩
  else
    (interactiveAuto minDist msA (sortedDesc (dkeys msA)) a st.m).bind fun m1 =>
      ((if (dlookup a m1).isSome then Except.ok (m1, st.cnt)
        else interactivePrompt msA (sortedDesc (dkeys msA)) a ans ww st.cnt m1).bind
        fun p => .ok ⟨p.1, if (dlookup a p.1).isSome then st.nm else st.nm ++ [a], p.2⟩)

/-! ## `match_similar` -/

/-- `{value.lower(): value for value in l}` (later entries overwrite). -/
def buildLowerDict (l : List String) : List (String × String) :=
  l.foldl (fun d v => dinsert (pyLower v) v d) []

/-- One entry of the final back-translation through the simplification dicts
(lines 767-775): looking up a list value as a dict key is a `TypeError`, a
float a `KeyError`. -/
def translateMatchEntry (dfm dto : List (String × String))
    (acc : List (String × MatchValue)) (kv : String × MatchValue) :
    Except PyErr (List (String × MatchValue)) := do
  let k2 ← match dlookup kv.1 dfm with
    | some x => Except.ok x
    | none => Except.error PyErr.keyError
  let v2 ← match kv.2 with
    | .single s =>
      match dlookup s dto with
      | some x => Except.ok (MatchValue.single x)
      | none => Except.error PyErr.keyError
    | .multiple _ => Except.error PyErr.typeError
    | .num _ => Except.error PyErr.keyError
  Except.ok (dinsert k2 v2 acc)

def translateMatch (dfm dto : List (String × String)) (m : List (String × MatchValue)) :
    Except PyErr (List (String × MatchValue)) :=
  m.foldlM (translateMatchEntry dfm dto) []

/-- `{dict_for_matching[key] for key in no_match}`. -/
def translateNoMatch (dfm : List (String × String)) (nm : List String) :
    Except PyErr (List String) :=
  nm.foldlM
    (fun acc k =>
      match dlookup k dfm with
      | some x => Except.ok (setAdd acc x)
      | none => Except.error PyErr.keyError)
    []

/-- The common return path of `match_similar`. -/
def finTranslate (simp : Bool) (dfm dto : List (String × String))
    (m : List (String × MatchValue)) (nm fl tl : List String) :
    Except PyErr (List (String × MatchValue) × List String × List String × List String) :=
  if simp then do
    let m' ← translateMatch dfm dto m
    let nm' ← translateNoMatch dfm nm
    Except.ok (m', nm', fl, tl)
  else Except.ok (m, nm, fl, tl)

/-- `match_similar`, with `simplify_with` restricted to off (`false`) or the
`"capital"` lower-casing policy (`true`) and `single_match_only = True`.
Returns `(match, no_match, final contents of list_for_matching, final
contents of list_to_be_matched_to)` — the last two being what the caller's
list objects hold after the in-place mutation. -/
def match_similar (lfm0 ltbm0 : List String) (simplifyLower : Bool)
    (autoMatchAll : Bool) (enforceComp : Bool) (minDist floor : ℚ)
    (ans : Nat → Ans) (ww : Nat) :
    Except PyErr (List (String × MatchValue) × List String × List String × List String) := do
  if ¬ lfm0.Nodup then throw .valueError
  if ¬ lfm0.Nodup then throw .valueError
  if ¬ ltbm0.Nodup then throw .valueError
  let dfm := if simplifyLower then buildLowerDict lfm0 else []
  let dto := if simplifyLower then buildLowerDict ltbm0 else []
  let lfm := if simplifyLower then lfm0.map pyLower else lfm0
  let ltbm := if simplifyLower then ltbm0.map pyLower else ltbm0
  let dm := findDirectMatches lfm ltbm
  let m0 := dm.1
  let fl1 := dm.2.1
  let tl1 := dm.2.2
  let msF : String → List (ℚ × MatchValue) := fun a => mostSimilarFor floor a tl1
  if autoMatchAll then
    if ¬ enforceComp then
      let st ← greedyLoop msF fl1 ⟨m0, fl1, tl1⟩
      let nm := st.fl.filter fun a => (dlookup a st.m).isNone
      finTranslate simplifyLower dfm dto st.m nm st.fl st.tl
    else
      let rows := buildRows (some floor) fl1 tl1
      let m ← compLoop false (rows.length + 1) 0 rows m0
      let nm := fl1.filter fun a => (dlookup a m).isNone
      finTranslate simplifyLower dfm dto m nm fl1 tl1
  else
    let stI ← fl1.foldlM (interactiveEntry floor minDist ww tl1 ans) ⟨m0, [], 0⟩
    finTranslate simplifyLower dfm dto stI.m stI.nm fl1 tl1

/-! ## `match_comprehensive` -/

/-- The `if simplified:` preamble shared by `match_comprehensive` and
`match_similar_with_manual_selection`: simplify a pool, re-bind the working
list to the dict keys, re-check uniqueness. A `simplify_strings` error is an
uncaught `ValueError`. -/
def simplifyPool (cs : List Char) (pool : List String) :
    Except PyErr (List (String × String) × List String) := do
  let d ← match simplify_strings pool true (some cs) with
    | .ok d => Except.ok d
    | .error _ => Except.error PyErr.valueError
  let keys := dkeys d
  if ¬ keys.Nodup then throw .valueError
  Except.ok (d, keys)

/-- `match_comprehensive`: uniqueness checks, optional simplification, direct
matches, the unfloored global similarity frame, the comprehensive loop (with
the `if i > index: break` bound in its fallback scan), and the
`no_match`/back-translation epilogue. Returns `(match, no_match)`. -/
def match_comprehensive (lfm0 ltbm0 : List String) (simplified : Option (List Char)) :
    Except PyErr (List (String × MatchValue) × List String) := do
  if ¬ lfm0.Nodup then throw .valueError
  if ¬ ltbm0.Nodup then throw .valueError
  let (dfm, lfm) ← match simplified with
    | some cs => simplifyPool cs lfm0
    | none => Except.ok ([], lfm0)
  let (dto, ltbm) ← match simplified with
    | some cs => simplifyPool cs ltbm0
    | none => Except.ok ([], ltbm0)
  let dm := findDirectMatches lfm ltbm
  let m0 := dm.1
  let fl1 := dm.2.1
  let tl1 := dm.2.2
  let rows := buildRows none fl1 tl1
  let m ← compLoop true (rows.length + 1) 0 rows m0
  let nm := fl1.filter fun a => (dlookup a m).isNone
  if simplified.isSome then do
    let m' ← translateMatch dfm dto m
    let nm' ← translateNoMatch dfm nm
    Except.ok (m', nm')
  else Except.ok (m, nm)

/-! ## `match_similar_with_manual_selection` -/

/-- `calculate_longest_string() + len(entry_a)`: the length of the longest
candidate target plus the length of the source label. -/
def manualLongest (decreasing : List (ℚ × String)) (a : String) : Nat :=
  (match decreasing.map (fun p => p.2) with
    | [] => 0
    | x :: xs => (xs.foldl (fun best c => if best.length < c.length then c else best) x).length)
    + a.length

/-- `get_print_setting`'s `number_to_show`. -/
def manualNumberToShow (ww : Nat) (decreasing : List (ℚ × String)) (a : String) : Nat :=
  let longest := manualLongest decreasing a
  let maxShow0 := ww / (longest + 3)
  let maxShow := if ww / 13 < maxShow0 then ww / 13 else maxShow0
  if maxShow < decreasing.length then maxShow else decreasing.length

/-- `further_print_statements` (lines 895-927): walk the ranked candidates;
the probe of candidate `n + number_to_show` raising `IndexError` is caught and
abandons the label; an empty answer accepts the candidate at the fixed
`number_to_show`; `"break"` stops; anything else advances. -/
def manualSub (decreasing : List (ℚ × String)) (a : String) (ans : Nat → Ans) (nts : Nat) :
    Nat → Nat → List (String × MatchValue) → Except PyErr (List (String × MatchValue) × Nat)
  | 0, cnt, m => .ok (m, cnt)
  | left + 1, cnt, m =>
    let n := decreasing.length - (left + 1)
    if decreasing.length ≤ n + nts then .ok (m, cnt)
    else
      match ans cnt with
      | .empty =>
        match decreasing[nts]? with
        | some p => .ok (dinsert a (.single p.2) m, cnt + 1)
        | none => .ok (m, cnt + 1)
      | .brk => .ok (m, cnt + 1)
      | _ => manualSub decreasing a ans nts left (cnt + 1) m

/-- One source label of `match_similar_with_manual_selection` (lines 956-998):
a lone similarity group gets the sentinel `1` prepended to the ranking
(`similarities_of_entry_a.insert(0, 1)`); a singleton top group with a
sufficient gap is auto-matched by popping it from that label's own candidate
group; otherwise prompt — empty accepts the top candidate, `"break"` skips,
an integer indexes the head *pair* (the float similarity at index 0!), and
anything else walks the sub-prompt sequence. -/
def manualEntry (minDist : ℚ) (ww : Nat) (tl1 : List String) (ans : Nat → Ans)
    (st : InterSt) (a : String) : Except PyErr InterSt := do
  let sims := simsListedForEntry a tl1
  let keys0 := dkeys sims
  let keys := if keys0.length = 1 then (1 : ℚ) :: keys0 else keys0
  let s0 ← match keys[0]? with
    | some x => Except.ok x
    | none => Except.error PyErr.indexError
  let s1 ← match keys[1]? with
    | some x => Except.ok x
    | none => Except.error PyErr.indexError
  let interactivePath ←
    if ¬ (minDist < qsub s0 s1) then
      Except.ok true
    else
      match dlookup s0 sims with
      | some g => Except.ok (decide (g.length ≠ 1))
      | none => Except.error PyErr.keyError
  if interactivePath then
    let decreasing := sims.flatMap fun p => p.2.map fun b => (p.1, b)
    let nts := manualNumberToShow ww decreasing a
    match ans st.cnt with
    | .empty =>
      match decreasing[0]? with
      | some p => Except.ok ⟨dinsert a (.single p.2) st.m, st.nm, st.cnt + 1⟩
      | none => Except.error PyErr.indexError
    | .brk => Except.ok ⟨st.m, st.nm, st.cnt + 1⟩
    | .num n => do
      let d0 ← match decreasing[0]? with
        | some p => Except.ok p
        | none => Except.error PyErr.indexError
      let i : ℤ := if n < 0 then n + 2 else n
      let v ←
        if i = 0 then Except.ok (MatchValue.num d0.1)
        else if i = 1 then Except.ok (MatchValue.single d0.2)
        else Except.error PyErr.indexError
      Except.ok ⟨dinsert a v st.m, st.nm, st.cnt + 1⟩
    | .other => do
      let (m', cnt') ← manualSub decreasing a ans nts decreasing.length (st.cnt + 1) st.m
      Except.ok ⟨m', st.nm, cnt'⟩
  else do
    let g ← match dlookup s0 sims with
      | some g => Except.ok g
      | none => Except.error PyErr.keyError
    let b ← match g.getLast? with
      | some b => Except.ok b
      | none => Except.error PyErr.indexError
    let m' := dinsert a (.single b) st.m
    Except.ok ⟨m', if (dlookup a m').isSome then st.nm else setAdd st.nm a, st.cnt⟩

/-- `match_similar_with_manual_selection`: uniqueness checks, optional
simplification, direct matches, the per-entry loop above, then
`no_match = set(list_for_matching) - set(match)` and the back-translation.
Returns `(match, no_match)`. -/
def match_similar_with_manual_selection (lfm0 ltbm0 : List String)
    (simplified : Option (List Char)) (minDist : ℚ) (ww : Nat) (ans : Nat → Ans) :
    Except PyErr (List (String × MatchValue) × List String) := do
  if ¬ lfm0.Nodup then throw .valueError
  if ¬ ltbm0.Nodup then throw .valueError
  let (dfm, lfm) ← match simplified with
    | some cs => simplifyPool cs lfm0
    | none => Except.ok ([], lfm0)
  let (dto, ltbm) ← match simplified with
    | some cs => simplifyPool cs ltbm0
    | none => Except.ok ([], ltbm0)
  let dm := findDirectMatches lfm ltbm
  let m0 := dm.1
  let fl1 := dm.2.1
  let tl1 := dm.2.2
  let stI ← fl1.foldlM (manualEntry minDist ww tl1 ans) ⟨m0, [], 0⟩
  let nm := fl1.filter fun a => (dlookup a stI.m).isNone
  if simplified.isSome then do
    let m' ← translateMatch dfm dto stI.m
    let nm' ← translateNoMatch dfm nm
    Except.ok (m', nm')
  else Except.ok (stI.m, nm)

/-! ## Properties of the similarity score -/

theorem commonRun_le_left (a b : List Char) : commonRun a b ≤ a.length := by
  induction a generalizing b with
  | nil => simp [commonRun]
  | cons x xs ih =>
    cases b with
    | nil => simp [commonRun]
    | cons y ys =>
      simp only [commonRun, List.length_cons]
      split
      · exact Nat.succ_le_succ (ih ys)
      · exact Nat.zero_le _

theorem commonRun_le_right (a b : List Char) : commonRun a b ≤ b.length := by
  induction a generalizing b with
  | nil => simp [commonRun]
  | cons x xs ih =>
    cases b with
    | nil => simp [commonRun]
    | cons y ys =>
      simp only [commonRun, List.length_cons]
      split
      · exact Nat.succ_le_succ (ih ys)
      · exact Nat.zero_le _

theorem commonRun_self (a : List Char) : commonRun a a = a.length := by
  induction a with
  | nil => simp [commonRun]
  | cons x xs ih => simp [commonRun, ih]

/-- The take-the-larger fold stays in the initial value or the scanned list. -/
theorem pickFoldl_mem (init : ℕ × ℕ × ℕ) (l : List (ℕ × ℕ × ℕ)) :
    l.foldl (fun best c => if best.2.2 < c.2.2 then c else best) init ∈ init :: l := by
  induction l generalizing init with
  | nil => simp
  | cons x xs ih =>
    simp only [List.foldl_cons]
    rcases List.mem_cons.mp (ih (if init.2.2 < x.2.2 then x else init)) with h | h
    · rw [h]
      split
      · exact List.mem_cons_of_mem _ (List.mem_cons_self _ _)
      · exact List.mem_cons_self _ _
    · exact List.mem_cons_of_mem _ (List.mem_cons_of_mem _ h)

/-- The initial value's key never decreases along the fold. -/
theorem pickFoldl_init_le (init : ℕ × ℕ × ℕ) (l : List (ℕ × ℕ × ℕ)) :
    init.2.2 ≤ (l.foldl (fun best c => if best.2.2 < c.2.2 then c else best) init).2.2 := by
  induction l generalizing init with
  | nil => simp
  | cons x xs ih =>
    simp only [List.foldl_cons]
    refine le_trans ?_ (ih (if init.2.2 < x.2.2 then x else init))
    split
    · omega
    · exact le_refl _

/-- Every scanned element's key is dominated by the fold's result. -/
theorem pickFoldl_ge (init : ℕ × ℕ × ℕ) (l : List (ℕ × ℕ × ℕ)) :
    ∀ c ∈ l, c.2.2 ≤ (l.foldl (fun best c => if best.2.2 < c.2.2 then c else best) init).2.2 := by
  induction l generalizing init with
  | nil => simp
  | cons x xs ih =>
    intro c hc
    simp only [List.foldl_cons]
    rcases List.mem_cons.mp hc with h | h
    · subst h
      refine le_trans ?_ (pickFoldl_init_le (if init.2.2 < c.2.2 then c else init) xs)
      split
      · exact le_refl _
      · omega
    · exact ih _ c h

theorem pickFoldl_stay (x : ℕ × ℕ × ℕ) (xs : List (ℕ × ℕ × ℕ))
    (h : ∀ c ∈ xs, c.2.2 ≤ x.2.2) :
    xs.foldl (fun best c => if best.2.2 < c.2.2 then c else best) x = x := by
  induction xs with
  | nil => rfl
  | cons c cs ih =>
    simp only [List.foldl_cons]
    have hc : ¬ x.2.2 < c.2.2 := not_lt.mpr (h c (List.mem_cons_self _ _))
    simp only [hc, if_false]
    exact ih fun d hd => h d (List.mem_cons_of_mem _ hd)

/-- What `findLongestMatch` can return: nothing, or a genuine run. -/
theorem findLongestMatch_spec (a b : List Char) :
    findLongestMatch a b = (0, 0, 0) ∨
      ∃ i j, i < a.length ∧ j < b.length ∧
        findLongestMatch a b = (i, j, commonRun (a.drop i) (b.drop j)) := by
  have h := pickFoldl_mem (0, 0, 0)
    ((List.range a.length).flatMap fun i =>
      (List.range b.length).map fun j => (i, j, commonRun (a.drop i) (b.drop j)))
  rcases List.mem_cons.mp h with h | h
  · exact Or.inl h
  · right
    rcases List.mem_flatMap.mp h with ⟨i, hi, hmem⟩
    rcases List.mem_map.mp hmem with ⟨j, hj, heq⟩
    exact ⟨i, j, List.mem_range.mp hi, List.mem_range.mp hj, heq.symm⟩

theorem matchingTotalFuel_le (fuel : ℕ) :
    ∀ a b : List Char, matchingTotalFuel fuel a b ≤ min a.length b.length := by
  induction fuel with
  | zero => intro a b; simp [matchingTotalFuel]
  | succ fuel ih =>
    intro a b
    rw [matchingTotalFuel]
    rcases findLongestMatch_spec a b with h | ⟨i, j, hi, hj, h⟩
    · simp [h]
    · rw [h]
      simp only
      by_cases hk : commonRun (a.drop i) (b.drop j) = 0
      · simp [hk]
      · rw [if_neg hk]
        have h1 := ih (a.take i) (b.take j)
        have h2 := ih (a.drop (i + commonRun (a.drop i) (b.drop j)))
          (b.drop (j + commonRun (a.drop i) (b.drop j)))
        have hca : commonRun (a.drop i) (b.drop j) ≤ a.length - i := by
          simpa using commonRun_le_left (a.drop i) (b.drop j)
        have hcb : commonRun (a.drop i) (b.drop j) ≤ b.length - j := by
          simpa using commonRun_le_right (a.drop i) (b.drop j)
        simp only [List.length_take, List.length_drop] at h1 h2
        omega

theorem matchingTotalFuel_nil_left (fuel : ℕ) (b : List Char) :
    matchingTotalFuel fuel [] b = 0 := by
  have := matchingTotalFuel_le fuel [] b
  simpa using this

theorem matchingTotalFuel_nil_right (fuel : ℕ) (a : List Char) :
    matchingTotalFuel fuel a [] = 0 := by
  have := matchingTotalFuel_le fuel a []
  simpa using this

theorem flm_self (a : List Char) (ha : a ≠ []) :
    findLongestMatch a a = (0, 0, a.length) := by
  have hlen : 0 < a.length := List.length_pos.mpr ha
  have hself : ((0 : ℕ), (0 : ℕ), commonRun a a) ∈
      ((List.range a.length).flatMap fun i =>
        (List.range a.length).map fun j => (i, j, commonRun (a.drop i) (a.drop j))) := by
    refine List.mem_flatMap.mpr ⟨0, List.mem_range.mpr hlen, ?_⟩
    refine List.mem_map.mpr ⟨0, List.mem_range.mpr hlen, ?_⟩
    simp
  have hge := pickFoldl_ge (0, 0, 0) _ _ hself
  rw [commonRun_self] at hge
  rcases findLongestMatch_spec a a with h | ⟨i, j, hi, hj, h⟩
  · rw [findLongestMatch] at h
    rw [h] at hge
    have hge0 : a.length ≤ 0 := hge
    omega
  · have hub : commonRun (a.drop i) (a.drop j) ≤ a.length - i :=
      by simpa using commonRun_le_left (a.drop i) (a.drop j)
    rw [findLongestMatch] at h
    rw [h] at hge
    have hge1 : a.length ≤ commonRun (a.drop i) (a.drop j) := hge
    have hi0 : i = 0 := by omega
    have hub' : commonRun (a.drop i) (a.drop j) ≤ a.length - j :=
      by simpa using commonRun_le_right (a.drop i) (a.drop j)
    have hj0 : j = 0 := by omega
    subst hi0; subst hj0
    rw [findLongestMatch, h]
    simp [commonRun_self]

theorem matchingTotal_le (a b : List Char) :
    matchingTotal a b ≤ min a.length b.length := matchingTotalFuel_le _ a b

theorem ratio_cast (a b : String) (h : ¬ a.data.length + b.data.length = 0) :
    ratio a b = (2 * matchingTotal a.data b.data : ℚ) / ((a.data.length : ℚ) + b.data.length) := by
  rw [ratio, if_neg h, Rat.mkRat_eq_divInt, Rat.divInt_eq_div]
  push_cast
  ring

theorem ratio_nonneg (a b : String) : 0 ≤ ratio a b := by
  by_cases h : a.data.length + b.data.length = 0
  · rw [ratio, if_pos h]
    norm_num
  · rw [ratio_cast a b h]
    positivity

theorem ratio_le_one (a b : String) : ratio a b ≤ 1 := by
  by_cases h : a.data.length + b.data.length = 0
  · rw [ratio, if_pos h]
  · have hpos : (0 : ℚ) < (a.data.length : ℚ) + b.data.length := by
      have : 0 < a.data.length + b.data.length := Nat.pos_of_ne_zero h
      exact_mod_cast this
    rw [ratio_cast a b h, div_le_one hpos]
    have hle := matchingTotal_le a.data b.data
    have : 2 * matchingTotal a.data b.data ≤ a.data.length + b.data.length := by omega
    exact_mod_cast this

theorem commonRun_take_eq (a b : List Char) :
    a.take (commonRun a b) = b.take (commonRun a b) := by
  induction a generalizing b with
  | nil => simp [commonRun]
  | cons x xs ih =>
    cases b with
    | nil => simp [commonRun]
    | cons y ys =>
      by_cases hxy : x = y
      · subst hxy
        simp only [commonRun, eq_self_iff_true, if_true, List.take_succ_cons]
        rw [ih ys]
      · simp [commonRun, hxy]

/-- A full-length matching total forces the two lists to be equal. -/
theorem matchingTotalFuel_full (fuel : ℕ) :
    ∀ a b : List Char, matchingTotalFuel fuel a b = a.length → a.length = b.length →
      a = b := by
  induction fuel with
  | zero =>
    intro a b h hlen
    rw [matchingTotalFuel] at h
    cases a with
    | nil => cases b with
      | nil => rfl
      | cons _ _ => simp at hlen
    | cons _ _ => simp at h
  | succ fuel ih =>
    intro a b h hlen
    rw [matchingTotalFuel] at h
    rcases findLongestMatch_spec a b with hf | ⟨i, j, hi, hj, hf⟩
    · rw [hf] at h
      simp only [if_pos rfl] at h
      cases a with
      | nil => cases b with
        | nil => rfl
        | cons _ _ => simp at hlen
      | cons _ _ => simp at h
    · rw [hf] at h
      simp only at h
      by_cases hk : commonRun (a.drop i) (b.drop j) = 0
      · rw [if_pos hk] at h
        cases a with
        | nil => cases b with
          | nil => rfl
          | cons _ _ => simp at hlen
        | cons _ _ => simp at h
      · rw [if_neg hk] at h
        set k := commonRun (a.drop i) (b.drop j) with hkdef
        have hm1 := matchingTotalFuel_le fuel (a.take i) (b.take j)
        have hm2 := matchingTotalFuel_le fuel (a.drop (i + k)) (b.drop (j + k))
        have hca : k ≤ a.length - i := by simpa using commonRun_le_left (a.drop i) (b.drop j)
        have hcb : k ≤ b.length - j := by simpa using commonRun_le_right (a.drop i) (b.drop j)
        simp only [List.length_take, List.length_drop] at hm1 hm2
        have heq1 : matchingTotalFuel fuel (a.take i) (b.take j) = i := by omega
        have heq2 : matchingTotalFuel fuel (a.drop (i + k)) (b.drop (j + k)) =
            a.length - (i + k) := by omega
        have hij : i = j := by omega
        have htake : a.take i = b.take j := by
          apply ih
          · rw [heq1, List.length_take]
            omega
          · simp only [List.length_take]
            omega
        have hdrop : a.drop (i + k) = b.drop (j + k) := by
          apply ih
          · rw [heq2, List.length_drop]
          · simp only [List.length_drop]
            omega
        have hmid : (a.drop i).take k = (b.drop j).take k := by
          rw [hkdef]
          exact commonRun_take_eq (a.drop i) (b.drop j)
        have hdda : (a.drop i).drop k = a.drop (i + k) := by
          rw [List.drop_drop, Nat.add_comm]
        have hddb : (b.drop j).drop k = b.drop (j + k) := by
          rw [List.drop_drop, Nat.add_comm]
        have hsplit_a : a = a.take i ++ ((a.drop i).take k ++ a.drop (i + k)) := by
          rw [← hdda, List.take_append_drop, List.take_append_drop]
        have hsplit_b : b = b.take j ++ ((b.drop j).take k ++ b.drop (j + k)) := by
          rw [← hddb, List.take_append_drop, List.take_append_drop]
        rw [hsplit_a, hsplit_b, htake, hmid, hdrop]

theorem matchingTotal_self (a : List Char) : matchingTotal a a = a.length := by
  cases ha : a with
  | nil => simp [matchingTotal, matchingTotalFuel]
  | cons x xs =>
    rw [← ha]
    have hne : a ≠ [] := by simp [ha]
    have hpos : 0 < a.length := List.length_pos.mpr hne
    obtain ⟨f, hf⟩ : ∃ f, a.length + a.length = f + 1 := ⟨a.length + a.length - 1, by omega⟩
    rw [matchingTotal, hf, matchingTotalFuel, flm_self a hne]
    simp only
    rw [if_neg (by omega : ¬ a.length = 0)]
    simp [matchingTotalFuel_nil_left, List.drop_length]

theorem ratio_eq_one_iff (a b : String) : ratio a b = 1 ↔ a = b := by
  constructor
  · intro h
    by_cases hT : a.data.length + b.data.length = 0
    · have ha : a.data = [] := List.length_eq_zero.mp (by omega)
      have hb : b.data = [] := List.length_eq_zero.mp (by omega)
      cases a with | _ da => cases b with | _ db =>
        simp only at ha hb
        rw [ha, hb]
    · have hpos : (0 : ℚ) < (a.data.length : ℚ) + b.data.length := by
        have : 0 < a.data.length + b.data.length := Nat.pos_of_ne_zero hT
        exact_mod_cast this
      rw [ratio_cast a b hT, div_eq_one_iff_eq (ne_of_gt hpos)] at h
      have hnat : 2 * matchingTotal a.data b.data = a.data.length + b.data.length := by
        exact_mod_cast h
      have hle := matchingTotal_le a.data b.data
      have hla : matchingTotal a.data b.data = a.data.length := by omega
      have hlen : a.data.length = b.data.length := by omega
      have hdata : a.data = b.data :=
        matchingTotalFuel_full (a.data.length + b.data.length) a.data b.data hla hlen
      cases a with | _ da => cases b with | _ db =>
        simp only at hdata
        rw [hdata]
  · intro h
    subst h
    by_cases hT : a.data.length + a.data.length = 0
    · rw [ratio, if_pos hT]
    · rw [ratio_cast a a hT, matchingTotal_self]
      have hpos : (0 : ℚ) < (a.data.length : ℚ) + a.data.length := by
        have : 0 < a.data.length + a.data.length := Nat.pos_of_ne_zero hT
        exact_mod_cast this
      rw [div_eq_one_iff_eq (ne_of_gt hpos)]
      ring

/-- C6 (counterexample): the similarity score of `SequenceMatcher` is *not*
symmetric — on `"abcdxef"` vs `"cdyefab"` the greedy leftmost-block
tie-breaking matches only `"ab"` (score `2/7`) in one direction but `"cd"`
and `"ef"` (score `4/7`) in the other, so `score(a,b) = score(b,a)` fails. -/
theorem ratio_not_symmetric :
    ratio "abcdxef" "cdyefab" = mkRat 2 7 ∧ ratio "cdyefab" "abcdxef" = mkRat 4 7 ∧
      ratio "abcdxef" "cdyefab" ≠ ratio "cdyefab" "abcdxef" := by
  refine ⟨by decide, by decide, by decide⟩

/-- C6 (amended): the similarity score used by every matching strategy always
lies in `[0, 1]` and equals `1.0` exactly when the two strings are identical;
it is *not* symmetric in general (see the counterexample). -/
theorem ratio_range_and_one_iff (a b : String) :
    0 ≤ ratio a b ∧ ratio a b ≤ 1 ∧ (ratio a b = 1 ↔ a = b) :=
  ⟨ratio_nonneg a b, ratio_le_one a b, ratio_eq_one_iff a b⟩

/-! ## Dictionary and list lemmas -/

theorem dlookup_dinsert_self {κ α : Type} [DecidableEq κ] (k : κ) (v : α)
    (d : List (κ × α)) : dlookup k (dinsert k v d) = some v := by
  induction d with
  | nil => simp [dinsert, dlookup]
  | cons kv rest ih =>
    rw [dinsert]
    by_cases h : kv.1 = k
    · simp [h, dlookup]
    · simp only [h, if_false]
      rw [dlookup, if_neg h]
      exact ih

theorem dlookup_dinsert_ne {κ α : Type} [DecidableEq κ] {k k' : κ} (h : k' ≠ k)
    (v : α) (d : List (κ × α)) : dlookup k (dinsert k' v d) = dlookup k d := by
  induction d with
  | nil => simp [dinsert, dlookup, h]
  | cons kv rest ih =>
    rw [dinsert]
    by_cases hk : kv.1 = k'
    · subst hk
      simp [dlookup, h]
    · simp only [hk, if_false]
      rw [dlookup, dlookup]
      by_cases hkk : kv.1 = k
      · simp [hkk]
      · simp only [hkk, if_false]
        exact ih

theorem dlookup_dinsert_isSome {κ α : Type} [DecidableEq κ] {k : κ} (k' : κ) (v : α)
    (d : List (κ × α)) (h : (dlookup k d).isSome) :
    (dlookup k (dinsert k' v d)).isSome := by
  by_cases hk : k' = k
  · subst hk
    rw [dlookup_dinsert_self]
    rfl
  · rw [dlookup_dinsert_ne hk]
    exact h

theorem dinsert_dinsert_same {κ α : Type} [DecidableEq κ] (k : κ) (v w : α)
    (d : List (κ × α)) : dinsert k v (dinsert k w d) = dinsert k v d := by
  induction d with
  | nil => simp [dinsert]
  | cons kv rest ih =>
    obtain ⟨k1, v1⟩ := kv
    by_cases hk : k1 = k
    · subst hk
      simp [dinsert]
    · simp [dinsert, hk, ih]

theorem mem_of_mem_pyErase {α : Type} [DecidableEq α] {a x : α} {l : List α}
    (h : a ∈ pyErase x l) : a ∈ l := by
  induction l with
  | nil => simpa [pyErase] using h
  | cons y ys ih =>
    rw [pyErase] at h
    by_cases hy : y = x
    · simp only [hy, if_pos rfl] at h
      exact List.mem_cons_of_mem _ h
    · simp only [hy, if_false, List.mem_cons] at h
      rcases h with h | h
      · exact h ▸ List.mem_cons_self _ _
      · exact List.mem_cons_of_mem _ (ih h)

theorem mem_pyErase_of_ne {α : Type} [DecidableEq α] {a x : α} {l : List α}
    (hne : a ≠ x) (h : a ∈ l) : a ∈ pyErase x l := by
  induction l with
  | nil => simpa using h
  | cons y ys ih =>
    rw [pyErase]
    rcases List.mem_cons.mp h with h | h
    · subst h
      rw [if_neg hne]
      exact List.mem_cons_self _ _
    · by_cases hy : y = x
      · rw [if_pos hy]
        exact h
      · rw [if_neg hy]
        exact List.mem_cons_of_mem _ (ih h)

theorem not_mem_pyErase {α : Type} [DecidableEq α] {x : α} {l : List α}
    (hnd : l.Nodup) : x ∉ pyErase x l := by
  induction l with
  | nil => simp [pyErase]
  | cons y ys ih =>
    rw [pyErase]
    rcases List.nodup_cons.mp hnd with ⟨hy, hys⟩
    by_cases h : y = x
    · subst h
      rw [if_pos rfl]
      exact hy
    · rw [if_neg h]
      intro hmem
      rcases List.mem_cons.mp hmem with hm | hm
      · exact h hm.symm
      · exact ih hys hm

theorem nodup_pyErase {α : Type} [DecidableEq α] {x : α} {l : List α}
    (hnd : l.Nodup) : (pyErase x l).Nodup := by
  induction l with
  | nil => simpa [pyErase] using hnd
  | cons y ys ih =>
    rw [pyErase]
    rcases List.nodup_cons.mp hnd with ⟨hy, hys⟩
    by_cases h : y = x
    · rw [if_pos h]
      exact hys
    · rw [if_neg h]
      exact List.nodup_cons.mpr ⟨fun hm => hy (mem_of_mem_pyErase hm), ih hys⟩

/-! ## Unfolding the strategy entry points -/

theorem match_similar_greedy_eq (lfm0 ltbm0 : List String) (minDist floor : ℚ)
    (ans : Nat → Ans) (ww : Nat) (h1 : lfm0.Nodup) (h2 : ltbm0.Nodup) :
    match_similar lfm0 ltbm0 false true false minDist floor ans ww =
      (greedyLoop (fun a => mostSimilarFor floor a (findDirectMatches lfm0 ltbm0).2.2)
          (findDirectMatches lfm0 ltbm0).2.1
          ⟨(findDirectMatches lfm0 ltbm0).1, (findDirectMatches lfm0 ltbm0).2.1,
            (findDirectMatches lfm0 ltbm0).2.2⟩).bind
        fun st =>
          Except.ok (st.m, st.fl.filter fun a => (dlookup a st.m).isNone, st.fl, st.tl) := by
  rw [match_similar]
  simp only [h1, h2, not_true, if_false, ite_false, ite_true, Bool.false_eq_true,
    not_false_eq_true, reduceIte]
  cases hres : greedyLoop (fun a => mostSimilarFor floor a (findDirectMatches lfm0 ltbm0).2.2)
      (findDirectMatches lfm0 ltbm0).2.1
      ⟨(findDirectMatches lfm0 ltbm0).1, (findDirectMatches lfm0 ltbm0).2.1,
        (findDirectMatches lfm0 ltbm0).2.2⟩ with
  | error e => rfl
  | ok st => rfl

/-! ## Claim C1: every source label ends in exactly one of `match` / `no_match` -/

/-- Along the direct-match fold, a label that is matched or still pooled stays
matched-or-pooled. -/
theorem findDirectFold_cover (todo : List String)
    (st : List (String × MatchValue) × List String × List String) (a : String)
    (h : (dlookup a st.1).isSome ∨ a ∈ st.2.1) :
    (dlookup a (todo.foldl
        (fun st a =>
          if a ∈ st.2.2 then
            (dinsert a (.single a) st.1, pyErase a st.2.1, pyErase a st.2.2)
          else st)
        st).1).isSome ∨
      a ∈ (todo.foldl
        (fun st a =>
          if a ∈ st.2.2 then
            (dinsert a (.single a) st.1, pyErase a st.2.1, pyErase a st.2.2)
          else st)
        st).2.1 := by
  induction todo generalizing st with
  | nil => exact h
  | cons b rest ih =>
    simp only [List.foldl_cons]
    apply ih
    by_cases hb : b ∈ st.2.2
    · rw [if_pos hb]
      rcases h with h | h
      · exact Or.inl (dlookup_dinsert_isSome b _ _ h)
      · by_cases hab : a = b
        · subst hab
          exact Or.inl (by rw [dlookup_dinsert_self]; rfl)
        · exact Or.inr (mem_pyErase_of_ne hab h)
    · rw [if_neg hb]
      exact h

theorem findDirectMatches_cover (lfm ltbm : List String) (a : String) (h : a ∈ lfm) :
    (dlookup a (findDirectMatches lfm ltbm).1).isSome ∨
      a ∈ (findDirectMatches lfm ltbm).2.1 :=
  findDirectFold_cover lfm ([], lfm, ltbm) a (Or.inr h)

@[simp] theorem except_bind_ok {ε α β : Type} (x : α) (f : α → Except ε β) :
    (Except.ok x >>= f : Except ε β) = f x := rfl

@[simp] theorem except_bind_error {ε α β : Type} (e : ε) (f : α → Except ε β) :
    (Except.error e >>= f : Except ε β) = Except.error e := rfl

@[simp] theorem except_Bind_ok {ε α β : Type} (x : α) (f : α → Except ε β) :
    Except.bind (Except.ok x) f = f x := rfl

@[simp] theorem except_Bind_error {ε α β : Type} (e : ε) (f : α → Except ε β) :
    (Except.bind (Except.error e) f : Except ε β) = Except.error e := rfl

@[simp] theorem except_throw {ε α : Type} (e : ε) :
    (throw e : Except ε α) = Except.error e := rfl

@[simp] theorem except_error_ne_ok {ε α : Type} (e : ε) (x : α) :
    (Except.error e = Except.ok x) ↔ False := by
  constructor
  · intro h
    cases h
  · intro h
    cases h

@[simp] theorem except_ok_inj {ε α : Type} (x y : α) :
    (Except.ok x = (Except.ok y : Except ε α)) ↔ x = y := by
  constructor
  · intro h
    cases h
    rfl
  · intro h
    rw [h]

theorem pyRemove_ok {α : Type} [DecidableEq α] {x : α} {l l' : List α}
    (h : pyRemove x l = .ok l') : l' = pyErase x l ∧ x ∈ l := by
  rw [pyRemove] at h
  by_cases hmem : x ∈ l
  · rw [if_pos hmem] at h
    simp only [except_ok_inj] at h
    exact ⟨h.symm, hmem⟩
  · rw [if_neg hmem] at h
    cases h

/-- Along the greedy loop, a label that is matched or still pooled stays
matched-or-pooled. -/
theorem greedyLoop_cover (ms : String → List (ℚ × MatchValue)) (todo : List String)
    (st st' : GreedySt) (hok : greedyLoop ms todo st = .ok st') (a : String)
    (h : (dlookup a st.m).isSome ∨ a ∈ st.fl) :
    (dlookup a st'.m).isSome ∨ a ∈ st'.fl := by
  induction todo generalizing st with
  | nil =>
    rw [greedyLoop] at hok
    cases hok
    exact h
  | cons b rest ih =>
    rw [greedyLoop] at hok
    split at hok
    · exact ih st hok h
    · rename_i s hhead
      split at hok
      case h_2 => simp at hok
      case h_1 v hv =>
        simp only [except_bind_ok, except_Bind_ok] at hok
        cases hfl : pyRemove b st.fl with
        | error e =>
          rw [hfl] at hok
          simp at hok
        | ok fl' =>
          rw [hfl] at hok
          simp only [except_bind_ok, except_Bind_ok] at hok
          have hfl' : fl' = pyErase b st.fl := (pyRemove_ok hfl).1
          have hnext : ∀ tl', greedyLoop ms rest ⟨dinsert b v st.m, fl', tl'⟩ = .ok st' →
              (dlookup a st'.m).isSome ∨ a ∈ st'.fl := by
            intro tl' hrun
            apply ih _ hrun
            rcases h with h | h
            · exact Or.inl (dlookup_dinsert_isSome b _ _ h)
            · by_cases hab : a = b
              · subst hab
                exact Or.inl (by rw [dlookup_dinsert_self]; rfl)
              · rw [hfl']
                exact Or.inr (mem_pyErase_of_ne hab h)
          split at hok
          · rename_i l
            cases hrem : l.foldlM (fun acc b => pyRemove b acc) st.tl with
            | error e =>
              rw [hrem] at hok
              simp at hok
            | ok tl' =>
              rw [hrem] at hok
              simp only [except_bind_ok, except_Bind_ok] at hok
              exact hnext tl' hok
          · rename_i c
            cases hrem : pyRemove c st.tl with
            | error e =>
              rw [hrem] at hok
              simp at hok
            | ok tl' =>
              rw [hrem] at hok
              simp only [except_bind_ok, except_Bind_ok] at hok
              exact hnext tl' hok
          · simp at hok

theorem commitIndexes_mono (idxs : List Nat) (df : List Row)
    (m : List (String × MatchValue)) (df' : List Row) (m' : List (String × MatchValue))
    (hok : commitIndexes idxs df m = .ok (df', m')) (a : String)
    (h : (dlookup a m).isSome) : (dlookup a m').isSome := by
  induction idxs generalizing df m with
  | nil =>
    rw [commitIndexes] at hok
    simp only [except_ok_inj, Prod.mk.injEq] at hok
    rw [← hok.2]
    exact h
  | cons i rest ih =>
    rw [commitIndexes] at hok
    cases hrow : rowAt df i with
    | error e =>
      rw [hrow] at hok
      simp at hok
    | ok r =>
      rw [hrow] at hok
      simp only [except_bind_ok, except_Bind_ok] at hok
      exact ih _ _ hok (dlookup_dinsert_isSome _ _ _ h)

theorem compTie_mono (useIdx : Bool) (r0 : Row) (rest : List Row)
    (m : List (String × MatchValue)) (df' : List Row) (m' : List (String × MatchValue))
    (hok : compTie useIdx r0 rest m = .ok (df', m')) (a : String)
    (h : (dlookup a m).isSome) : (dlookup a m').isSome := by
  rw [compTie] at hok
  cases hrem : ((removeOnceEach (allEntriesOf ((r0 :: rest).takeWhile fun r => r.sim = r0.sim))).flatMap
      (entryIndexes ((r0 :: rest).takeWhile fun r => r.sim = r0.sim))).foldlM
      (fun acc i => pyRemove i acc)
      (List.range ((r0 :: rest).takeWhile fun r => r.sim = r0.sim).length) with
  | error e =>
    rw [hrem] at hok
    simp at hok
  | ok idxs =>
    rw [hrem] at hok
    simp only [except_bind_ok, except_Bind_ok] at hok
    split at hok
    · exact commitIndexes_mono _ _ _ _ _ hok a h
    · simp only [except_ok_inj, Prod.mk.injEq] at hok
      rw [← hok.2]
      repeat' split
      all_goals first
        | exact dlookup_dinsert_isSome _ _ _ h
        | exact h

theorem compStep_mono (useIdx : Bool) (r0 : Row) (rest : List Row)
    (m : List (String × MatchValue)) (df' : List Row) (m' : List (String × MatchValue))
    (hok : compStep useIdx r0 rest m = .ok (df', m')) (a : String)
    (h : (dlookup a m).isSome) : (dlookup a m').isSome := by
  rw [compStep.eq_def] at hok
  split at hok
  · split at hok
    · simp only [except_ok_inj, Prod.mk.injEq] at hok
      rw [← hok.2]
      exact dlookup_dinsert_isSome _ _ _ h
    · exact compTie_mono _ _ _ _ _ _ hok a h
  · exact compTie_mono _ _ _ _ _ _ hok a h

theorem compLoop_mono (useIdx : Bool) (fuel : Nat) :
    ∀ (oldLen : Nat) (df : List Row) (m m' : List (String × MatchValue)),
      compLoop useIdx fuel oldLen df m = .ok m' →
        ∀ a : String, (dlookup a m).isSome → (dlookup a m').isSome := by
  induction fuel with
  | zero =>
    intro oldLen df m m' hok a h
    replace hok : (Except.ok m : Except PyErr _) = Except.ok m' := hok
    simp only [except_ok_inj] at hok
    rw [← hok]
    exact h
  | succ fuel ih =>
    intro oldLen df m m' hok a h
    cases df with
    | nil =>
      replace hok : (Except.ok m : Except PyErr _) = Except.ok m' := hok
      simp only [except_ok_inj] at hok
      rw [← hok]
      exact h
    | cons r0 rest =>
      replace hok :
          (if (r0 :: rest).length = oldLen then (Except.ok m : Except PyErr _)
            else
              (compStep useIdx r0 rest m).bind fun p =>
                compLoop useIdx fuel (r0 :: rest).length p.1 p.2) = Except.ok m' := hok
      split at hok
      · simp only [except_ok_inj] at hok
        rw [← hok]
        exact h
      · cases hstep : compStep useIdx r0 rest m with
        | error e =>
          rw [hstep] at hok
          simp [Except.bind] at hok
        | ok p =>
          rw [hstep] at hok
          replace hok : compLoop useIdx fuel (r0 :: rest).length p.1 p.2 = Except.ok m' := hok
          exact ih _ _ _ _ hok a
            (compStep_mono useIdx r0 rest m p.1 p.2 (by rw [hstep]) a h)

/-- The sub-prompt loop only ever binds the label it serves. -/
theorem interactiveSub_shape (msA : List (ℚ × MatchValue)) (ordered : List ℚ) (a : String)
    (ans : Nat → Ans) (nts0 : Nat) (left cnt : Nat) (m : List (String × MatchValue))
    (m' : List (String × MatchValue)) (cnt' : Nat)
    (hok : interactiveSub msA ordered a ans nts0 left cnt m = .ok (m', cnt')) :
    m' = m ∨ ∃ v, m' = dinsert a v m := by
  induction left generalizing cnt m with
  | zero =>
    rw [interactiveSub] at hok
    simp only [except_ok_inj, Prod.mk.injEq] at hok
    exact Or.inl hok.1.symm
  | succ left ih =>
    rw [interactiveSub] at hok
    split at hok
    · simp only [except_ok_inj, Prod.mk.injEq] at hok
      exact Or.inl hok.1.symm
    · split at hok
      · split at hok
        · split at hok
          · simp only [except_ok_inj, Prod.mk.injEq] at hok
            exact Or.inr ⟨_, hok.1.symm⟩
          · exact absurd hok (by simp)
        · simp only [except_ok_inj, Prod.mk.injEq] at hok
          exact Or.inl hok.1.symm
      · exact ih _ _ hok

theorem interactiveAuto_shape (minDist : ℚ) (msA : List (ℚ × MatchValue))
    (ordered : List ℚ) (a : String) (m m1 : List (String × MatchValue))
    (hok : interactiveAuto minDist msA ordered a m = .ok m1) :
    m1 = m ∨ ∃ v, m1 = dinsert a v m := by
  rw [interactiveAuto] at hok
  split at hok
  · split at hok
    · simp only [except_ok_inj] at hok
      exact Or.inr ⟨_, hok.symm⟩
    · exact absurd hok (by simp)
  · simp only [except_ok_inj] at hok
    exact Or.inl hok.symm

theorem interactivePrompt_shape (msA : List (ℚ × MatchValue)) (ordered : List ℚ)
    (a : String) (ans : Nat → Ans) (ww cnt : Nat) (m1 m2 : List (String × MatchValue))
    (cnt2 : Nat) (hok : interactivePrompt msA ordered a ans ww cnt m1 = .ok (m2, cnt2)) :
    m2 = m1 ∨ ∃ v, m2 = dinsert a v m1 := by
  rw [interactivePrompt] at hok
  split at hok
  · split at hok
    · simp only [except_ok_inj, Prod.mk.injEq] at hok
      exact Or.inr ⟨_, hok.1.symm⟩
    · exact absurd hok (by simp)
  · cases hidx : pyIndex ordered _ with
    | error e =>
      rw [hidx] at hok
      simp at hok
    | ok s =>
      rw [hidx] at hok
      simp only [except_bind_ok, except_Bind_ok] at hok
      split at hok
      · simp only [except_ok_inj, Prod.mk.injEq] at hok
        exact Or.inr ⟨_, hok.1.symm⟩
      · exact absurd hok (by simp)
  · exact interactiveSub_shape _ _ _ _ _ _ _ _ _ _ hok

/-- One interactive source label only binds itself in `match`, and lands in
`no_match` exactly when it ends the step unmatched. -/
theorem interactiveEntry_shape (floor minDist : ℚ) (ww : Nat) (tl1 : List String)
    (ans : Nat → Ans) (st : InterSt) (a : String) (st' : InterSt)
    (hok : interactiveEntry floor minDist ww tl1 ans st a = .ok st') :
    (st'.m = st.m ∨ ∃ v, st'.m = dinsert a v st.m) ∧
      (if (dlookup a st'.m).isSome then st'.nm = st.nm else st'.nm = st.nm ++ [a]) := by
  rw [interactiveEntry] at hok
  split at hok
  · simp only [except_ok_inj] at hok
    rw [← hok]
    refine ⟨Or.inl rfl, ?_⟩
    split
    · rename_i hs
      first
        | rfl
        | simp [hs]
    · rename_i hs
      first
        | rfl
        | simp [hs]
  · cases hauto : interactiveAuto minDist (mostSimilarFor floor a tl1)
        (sortedDesc (dkeys (mostSimilarFor floor a tl1))) a st.m with
    | error e =>
      rw [hauto] at hok
      simp at hok
    | ok m1 =>
      rw [hauto] at hok
      simp only [except_bind_ok, except_Bind_ok] at hok
      have hm1 := interactiveAuto_shape _ _ _ _ _ _ hauto
      have hfinish : ∀ m2 cnt2,
          (Except.ok (m2, cnt2) : Except PyErr (List (String × MatchValue) × Nat)).bind
              (fun p => Except.ok
                (⟨p.1, if (dlookup a p.1).isSome then st.nm else st.nm ++ [a], p.2⟩ : InterSt)) =
              .ok st' →
          (m2 = m1 ∨ ∃ v, m2 = dinsert a v m1) →
          (st'.m = st.m ∨ ∃ v, st'.m = dinsert a v st.m) ∧
            (if (dlookup a st'.m).isSome then st'.nm = st.nm else st'.nm = st.nm ++ [a]) := by
        intro m2 cnt2 hrun hshape
        simp only [except_bind_ok, except_Bind_ok, except_ok_inj] at hrun
        rw [← hrun]
        simp only
        constructor
        · rcases hshape with h2 | ⟨v, h2⟩
          · rw [h2]
            exact hm1
          · rcases hm1 with h1 | ⟨w, h1⟩
            · rw [h2, h1]
              exact Or.inr ⟨v, rfl⟩
            · rw [h2, h1]
              refine Or.inr ⟨v, ?_⟩
              exact dinsert_dinsert_same a v w st.m
        · split
          · rename_i hs
            first
              | rfl
              | simp [hs]
          · rename_i hs
            first
              | rfl
              | simp [hs]
      split at hok
      · exact hfinish m1 st.cnt hok (Or.inl rfl)
      · cases hpr : interactivePrompt (mostSimilarFor floor a tl1)
            (sortedDesc (dkeys (mostSimilarFor floor a tl1))) a ans ww st.cnt m1 with
        | error e =>
          rw [hpr] at hok
          simp at hok
        | ok p =>
          rw [hpr] at hok
          exact hfinish p.1 p.2 hok (interactivePrompt_shape _ _ _ _ _ _ _ _ _ hpr)

/-- The interactive loop leaves unprocessed labels alone and gives every
processed label the matched-xor-no_match property. -/
theorem interactiveFold_props (floor minDist : ℚ) (ww : Nat) (tl1 : List String)
    (ans : Nat → Ans) (todo : List String) :
    ∀ st st' : InterSt, todo.Nodup →
      todo.foldlM (interactiveEntry floor minDist ww tl1 ans) st = .ok st' →
      (∀ b, b ∉ todo → dlookup b st'.m = dlookup b st.m) ∧
        (∀ b, b ∉ todo → (b ∈ st'.nm ↔ b ∈ st.nm)) ∧
        (∀ b ∈ todo, b ∉ st.nm → ((dlookup b st'.m).isSome ↔ b ∉ st'.nm)) := by
  induction todo with
  | nil =>
    intro st st' _ hok
    replace hok : (Except.ok st : Except PyErr InterSt) = .ok st' := hok
    simp only [except_ok_inj] at hok
    subst hok
    exact ⟨fun b _ => rfl, fun b _ => Iff.rfl, fun b hb => absurd hb (by simp)⟩
  | cons a rest ih =>
    intro st st' hnd hok
    replace hok : (interactiveEntry floor minDist ww tl1 ans st a).bind
        (fun st1 => rest.foldlM (interactiveEntry floor minDist ww tl1 ans) st1) = .ok st' := hok
    rcases List.nodup_cons.mp hnd with ⟨hanotin, hndrest⟩
    cases hentry : interactiveEntry floor minDist ww tl1 ans st a with
    | error e =>
      rw [hentry] at hok
      simp at hok
    | ok st1 =>
      rw [hentry] at hok
      simp only [except_Bind_ok] at hok
      obtain ⟨hm1, hnm1⟩ := interactiveEntry_shape floor minDist ww tl1 ans st a st1 hentry
      obtain ⟨P1, P2, P3⟩ := ih st1 st' hndrest hok
      have hm_pres : ∀ b, b ≠ a → dlookup b st1.m = dlookup b st.m := by
        intro b hb
        rcases hm1 with h | ⟨v, h⟩
        · rw [h]
        · rw [h, dlookup_dinsert_ne (fun hc => hb hc.symm)]
      have hnm_pres : ∀ b, b ≠ a → (b ∈ st1.nm ↔ b ∈ st.nm) := by
        intro b hb
        by_cases hs : (dlookup a st1.m).isSome
        · rw [if_pos hs] at hnm1
          rw [hnm1]
        · rw [if_neg hs] at hnm1
          rw [hnm1]
          simp [hb]
      refine ⟨?_, ?_, ?_⟩
      · intro b hb
        have hbr : b ∉ rest := fun hc => hb (List.mem_cons_of_mem _ hc)
        have hba : b ≠ a := fun hc => hb (hc ▸ List.mem_cons_self _ _)
        rw [P1 b hbr, hm_pres b hba]
      · intro b hb
        have hbr : b ∉ rest := fun hc => hb (List.mem_cons_of_mem _ hc)
        have hba : b ≠ a := fun hc => hb (hc ▸ List.mem_cons_self _ _)
        rw [P2 b hbr]
        exact hnm_pres b hba
      · intro b hb hbnm
        rcases List.mem_cons.mp hb with hba | hbr
        · subst hba
          rw [P1 b hanotin, P2 b hanotin]
          by_cases hs : (dlookup b st1.m).isSome
          · rw [if_pos hs] at hnm1
            rw [hnm1]
            simp [hs, hbnm]
          · rw [if_neg hs] at hnm1
            rw [hnm1]
            simp only [hs]
            constructor
            · intro hc
              cases hc
            · intro hc
              exact absurd (List.mem_append.mpr (Or.inr (by simp))) hc
        · have hbnm1 : b ∉ st1.nm := by
            have hba : b ≠ a := fun hc => hanotin (hc ▸ hbr)
            rw [hnm_pres b hba]
            exact hbnm
          exact P3 b hbr hbnm1

/-- The manual-selection sub-prompt only ever binds the label it serves. -/
theorem manualSub_shape (decreasing : List (ℚ × String)) (a : String) (ans : Nat → Ans)
    (nts : Nat) (left cnt : Nat) (m m' : List (String × MatchValue)) (cnt' : Nat)
    (hok : manualSub decreasing a ans nts left cnt m = .ok (m', cnt')) :
    m' = m ∨ ∃ v, m' = dinsert a v m := by
  induction left generalizing cnt m with
  | zero =>
    rw [manualSub] at hok
    simp only [except_ok_inj, Prod.mk.injEq] at hok
    exact Or.inl hok.1.symm
  | succ left ih =>
    rw [manualSub] at hok
    split at hok
    · simp only [except_ok_inj, Prod.mk.injEq] at hok
      exact Or.inl hok.1.symm
    · split at hok
      · split at hok
        · simp only [except_ok_inj, Prod.mk.injEq] at hok
          exact Or.inr ⟨_, hok.1.symm⟩
        · simp only [except_ok_inj, Prod.mk.injEq] at hok
          exact Or.inl hok.1.symm
      · simp only [except_ok_inj, Prod.mk.injEq] at hok
        exact Or.inl hok.1.symm
      · exact ih _ _ hok

/-- Reading off the sub-prompt continuation. -/
theorem manualSub_bind_shape (D : List (ℚ × String)) (a : String) (ans : Nat → Ans)
    (nts L C : Nat) (m : List (String × MatchValue)) (nm : List String) (st' : InterSt)
    (hok : ((manualSub D a ans nts L C m).bind fun p =>
        Except.ok (⟨p.1, nm, p.2⟩ : InterSt)) = .ok st') :
    st'.m = m ∨ ∃ v, st'.m = dinsert a v m := by
  cases hsub : manualSub D a ans nts L C m with
  | error e =>
    rw [hsub] at hok
    simp at hok
  | ok p =>
    rw [hsub] at hok
    simp only [except_Bind_ok, except_ok_inj] at hok
    rw [← hok]
    exact manualSub_shape _ _ _ _ _ _ _ _ _ hsub

/-- One manual-selection source label only binds itself in `match`. -/
theorem manualEntry_m_shape (minDist : ℚ) (ww : Nat) (tl1 : List String) (ans : Nat → Ans)
    (st : InterSt) (a : String) (st' : InterSt)
    (hok : manualEntry minDist ww tl1 ans st a = .ok st') :
    st'.m = st.m ∨ ∃ v, st'.m = dinsert a v st.m := by
  rw [manualEntry] at hok
  iterate 8
    (all_goals try simp only [except_bind_error, except_Bind_error, except_bind_ok,
        except_Bind_ok, except_error_ne_ok, except_ok_inj, ite_true, ite_false] at hok
     all_goals try split at hok)
  all_goals repeat' split at hok
  all_goals try simp only [except_bind_error, except_Bind_error, except_bind_ok,
    except_Bind_ok, except_error_ne_ok, except_ok_inj, ite_true, ite_false] at hok
  all_goals try exact hok.elim
  all_goals try (rw [← hok]; first | exact Or.inl rfl | exact Or.inr ⟨_, rfl⟩)
  all_goals exact manualSub_bind_shape _ _ _ _ _ _ _ _ _ hok

theorem match_similar_comp_eq (lfm0 ltbm0 : List String) (minDist floor : ℚ)
    (ans : Nat → Ans) (ww : Nat) (h1 : lfm0.Nodup) (h2 : ltbm0.Nodup) :
    match_similar lfm0 ltbm0 false true true minDist floor ans ww =
      (compLoop false (buildRows (some floor) (findDirectMatches lfm0 ltbm0).2.1
            (findDirectMatches lfm0 ltbm0).2.2).length.succ 0
          (buildRows (some floor) (findDirectMatches lfm0 ltbm0).2.1
            (findDirectMatches lfm0 ltbm0).2.2)
          (findDirectMatches lfm0 ltbm0).1).bind
        fun m =>
          Except.ok (m, (findDirectMatches lfm0 ltbm0).2.1.filter
              (fun a => (dlookup a m).isNone),
            (findDirectMatches lfm0 ltbm0).2.1, (findDirectMatches lfm0 ltbm0).2.2) := by
  rw [match_similar]
  simp only [h1, h2, not_true, if_false, ite_false, ite_true, Bool.false_eq_true,
    not_false_eq_true, reduceIte]
  cases hres : compLoop false (buildRows (some floor) (findDirectMatches lfm0 ltbm0).2.1
        (findDirectMatches lfm0 ltbm0).2.2).length.succ 0
      (buildRows (some floor) (findDirectMatches lfm0 ltbm0).2.1
        (findDirectMatches lfm0 ltbm0).2.2)
      (findDirectMatches lfm0 ltbm0).1 with
  | error e => rfl
  | ok m => rfl

theorem match_similar_interactive_eq (lfm0 ltbm0 : List String) (minDist floor : ℚ)
    (ans : Nat → Ans) (ww : Nat) (h1 : lfm0.Nodup) (h2 : ltbm0.Nodup) :
    match_similar lfm0 ltbm0 false false false minDist floor ans ww =
      ((findDirectMatches lfm0 ltbm0).2.1.foldlM
          (interactiveEntry floor minDist ww (findDirectMatches lfm0 ltbm0).2.2 ans)
          ⟨(findDirectMatches lfm0 ltbm0).1, [], 0⟩).bind
        fun stI =>
          Except.ok (stI.m, stI.nm, (findDirectMatches lfm0 ltbm0).2.1,
            (findDirectMatches lfm0 ltbm0).2.2) := by
  rw [match_similar]
  simp only [h1, h2, not_true, if_false, ite_false, ite_true, Bool.false_eq_true,
    not_false_eq_true, reduceIte]
  cases hres : (findDirectMatches lfm0 ltbm0).2.1.foldlM
      (interactiveEntry floor minDist ww (findDirectMatches lfm0 ltbm0).2.2 ans)
      (⟨(findDirectMatches lfm0 ltbm0).1, [], 0⟩ : InterSt) with
  | error e => rfl
  | ok st => rfl

theorem match_comprehensive_none_eq (lfm0 ltbm0 : List String)
    (h1 : lfm0.Nodup) (h2 : ltbm0.Nodup) :
    match_comprehensive lfm0 ltbm0 none =
      (compLoop true (buildRows none (findDirectMatches lfm0 ltbm0).2.1
            (findDirectMatches lfm0 ltbm0).2.2).length.succ 0
          (buildRows none (findDirectMatches lfm0 ltbm0).2.1
            (findDirectMatches lfm0 ltbm0).2.2)
          (findDirectMatches lfm0 ltbm0).1).bind
        fun m =>
          Except.ok (m, (findDirectMatches lfm0 ltbm0).2.1.filter
            fun a => (dlookup a m).isNone) := by
  rw [match_comprehensive]
  simp only [h1, h2, not_true, if_false, ite_false, ite_true, Bool.false_eq_true,
    not_false_eq_true, reduceIte]
  rfl

theorem manual_selection_none_eq (lfm0 ltbm0 : List String) (minDist : ℚ) (ww : Nat)
    (ans : Nat → Ans) (h1 : lfm0.Nodup) (h2 : ltbm0.Nodup) :
    match_similar_with_manual_selection lfm0 ltbm0 none minDist ww ans =
      ((findDirectMatches lfm0 ltbm0).2.1.foldlM
          (manualEntry minDist ww (findDirectMatches lfm0 ltbm0).2.2 ans)
          ⟨(findDirectMatches lfm0 ltbm0).1, [], 0⟩).bind
        fun stI =>
          Except.ok (stI.m, (findDirectMatches lfm0 ltbm0).2.1.filter
            fun a => (dlookup a stI.m).isNone) := by
  rw [match_similar_with_manual_selection]
  simp only [h1, h2, not_true, if_false, ite_false, ite_true, Bool.false_eq_true,
    not_false_eq_true, reduceIte]
  rfl

theorem match_similar_ok_nodup (lfm0 ltbm0 : List String) (s am ec : Bool)
    (minDist floor : ℚ) (ans : Nat → Ans) (ww : Nat)
    (r : List (String × MatchValue) × List String × List String × List String)
    (hok : match_similar lfm0 ltbm0 s am ec minDist floor ans ww = .ok r) :
    lfm0.Nodup ∧ ltbm0.Nodup := by
  by_cases h1 : lfm0.Nodup
  · by_cases h2 : ltbm0.Nodup
    · exact ⟨h1, h2⟩
    · rw [match_similar] at hok
      simp [h1, h2] at hok
  · rw [match_similar] at hok
    simp [h1] at hok

theorem match_comprehensive_ok_nodup (lfm0 ltbm0 : List String)
    (simplified : Option (List Char)) (r : List (String × MatchValue) × List String)
    (hok : match_comprehensive lfm0 ltbm0 simplified = .ok r) :
    lfm0.Nodup ∧ ltbm0.Nodup := by
  by_cases h1 : lfm0.Nodup
  · by_cases h2 : ltbm0.Nodup
    · exact ⟨h1, h2⟩
    · rw [match_comprehensive] at hok
      simp [h1, h2] at hok
  · rw [match_comprehensive] at hok
    simp [h1] at hok

theorem manual_selection_ok_nodup (lfm0 ltbm0 : List String)
    (simplified : Option (List Char)) (minDist : ℚ) (ww : Nat) (ans : Nat → Ans)
    (r : List (String × MatchValue) × List String)
    (hok : match_similar_with_manual_selection lfm0 ltbm0 simplified minDist ww ans = .ok r) :
    lfm0.Nodup ∧ ltbm0.Nodup := by
  by_cases h1 : lfm0.Nodup
  · by_cases h2 : ltbm0.Nodup
    · exact ⟨h1, h2⟩
    · rw [match_similar_with_manual_selection] at hok
      simp [h1, h2] at hok
  · rw [match_similar_with_manual_selection] at hok
    simp [h1] at hok

/-- C1: for every pair of input label collections and every strategy
(per-entry greedy, global greedy, interactive, interactive manual-selection),
each label of `list_for_matching` appears, on (normal) return, in exactly one
of the returned match mapping (as a key) and the returned `no_match` set −
never in both and never in neither. -/
theorem every_label_matched_xor_unmatched (lfm ltbm : List String)
    (minDist floor : ℚ) (ans : Nat → Ans) (ww : Nat) (a : String) (ha : a ∈ lfm) :
    (∀ m nm flF tlF, match_similar lfm ltbm false true false minDist floor ans ww =
        .ok (m, nm, flF, tlF) → ((dlookup a m).isSome ↔ a ∉ nm)) ∧
    (∀ m nm flF tlF, match_similar lfm ltbm false true true minDist floor ans ww =
        .ok (m, nm, flF, tlF) → ((dlookup a m).isSome ↔ a ∉ nm)) ∧
    (∀ m nm flF tlF, match_similar lfm ltbm false false false minDist floor ans ww =
        .ok (m, nm, flF, tlF) → ((dlookup a m).isSome ↔ a ∉ nm)) ∧
    (∀ m nm, match_similar_with_manual_selection lfm ltbm none minDist ww ans =
        .ok (m, nm) → ((dlookup a m).isSome ↔ a ∉ nm)) := by
  refine ⟨?_, ?_, ?_, ?_⟩
  · -- per-entry greedy
    intro m nm flF tlF hok
    obtain ⟨h1, h2⟩ := match_similar_ok_nodup _ _ _ _ _ _ _ _ _ _ hok
    rw [match_similar_greedy_eq lfm ltbm minDist floor ans ww h1 h2] at hok
    cases hrun : greedyLoop (fun a => mostSimilarFor floor a (findDirectMatches lfm ltbm).2.2)
        (findDirectMatches lfm ltbm).2.1
        ⟨(findDirectMatches lfm ltbm).1, (findDirectMatches lfm ltbm).2.1,
          (findDirectMatches lfm ltbm).2.2⟩ with
    | error e =>
      rw [hrun] at hok
      simp at hok
    | ok st =>
      rw [hrun] at hok
      simp only [except_Bind_ok, except_bind_ok, except_ok_inj, Prod.mk.injEq] at hok
      obtain ⟨hm, hnm, _, _⟩ := hok
      subst hm
      subst hnm
      have hcover := greedyLoop_cover _ _ _ _ hrun a (findDirectMatches_cover lfm ltbm a ha)
      constructor
      · intro hs hmem
        rcases List.mem_filter.mp hmem with ⟨_, hnone⟩
        simp only [Option.isNone_iff_eq_none] at hnone
        rw [hnone] at hs
        cases hs
      · intro hnotin
        rcases hcover with hs | hfl
        · exact hs
        · by_cases hs : (dlookup a st.m).isSome
          · exact hs
          · exact absurd (List.mem_filter.mpr ⟨hfl, by simp [Option.isNone_iff_eq_none,
              Option.not_isSome_iff_eq_none.mp hs]⟩) hnotin
  · -- global greedy inside match_similar
    intro m nm flF tlF hok
    obtain ⟨h1, h2⟩ := match_similar_ok_nodup _ _ _ _ _ _ _ _ _ _ hok
    rw [match_similar_comp_eq lfm ltbm minDist floor ans ww h1 h2] at hok
    cases hrun : compLoop false (buildRows (some floor) (findDirectMatches lfm ltbm).2.1
          (findDirectMatches lfm ltbm).2.2).length.succ 0
        (buildRows (some floor) (findDirectMatches lfm ltbm).2.1
          (findDirectMatches lfm ltbm).2.2)
        (findDirectMatches lfm ltbm).1 with
    | error e =>
      rw [hrun] at hok
      simp at hok
    | ok mres =>
      rw [hrun] at hok
      simp only [except_Bind_ok, except_bind_ok, except_ok_inj, Prod.mk.injEq] at hok
      obtain ⟨hm, hnm, _, _⟩ := hok
      subst hm
      subst hnm
      have hcover : (dlookup a mres).isSome ∨ a ∈ (findDirectMatches lfm ltbm).2.1 := by
        rcases findDirectMatches_cover lfm ltbm a ha with hs | hfl
        · exact Or.inl (compLoop_mono _ _ _ _ _ _ hrun a hs)
        · exact Or.inr hfl
      constructor
      · intro hs hmem
        rcases List.mem_filter.mp hmem with ⟨_, hnone⟩
        simp only [Option.isNone_iff_eq_none] at hnone
        rw [hnone] at hs
        cases hs
      · intro hnotin
        rcases hcover with hs | hfl
        · exact hs
        · by_cases hs : (dlookup a mres).isSome
          · exact hs
          · exact absurd (List.mem_filter.mpr ⟨hfl, by simp [Option.isNone_iff_eq_none,
              Option.not_isSome_iff_eq_none.mp hs]⟩) hnotin
  · -- interactive
    intro m nm flF tlF hok
    obtain ⟨h1, h2⟩ := match_similar_ok_nodup _ _ _ _ _ _ _ _ _ _ hok
    rw [match_similar_interactive_eq lfm ltbm minDist floor ans ww h1 h2] at hok
    cases hrun : (findDirectMatches lfm ltbm).2.1.foldlM
        (interactiveEntry floor minDist ww (findDirectMatches lfm ltbm).2.2 ans)
        (⟨(findDirectMatches lfm ltbm).1, [], 0⟩ : InterSt) with
    | error e =>
      rw [hrun] at hok
      simp at hok
    | ok stI =>
      rw [hrun] at hok
      simp only [except_Bind_ok, except_bind_ok, except_ok_inj, Prod.mk.injEq] at hok
      obtain ⟨hm, hnm, _, _⟩ := hok
      subst hm
      subst hnm
      have hnodup1 : (findDirectMatches lfm ltbm).2.1.Nodup := by
        have : ∀ (todo : List String) (st : List (String × MatchValue) × List String × List String),
            st.2.1.Nodup → (todo.foldl
              (fun st a =>
                if a ∈ st.2.2 then
                  (dinsert a (.single a) st.1, pyErase a st.2.1, pyErase a st.2.2)
                else st) st).2.1.Nodup := by
          intro todo
          induction todo with
          | nil => intro st h; exact h
          | cons b rest ih =>
            intro st h
            simp only [List.foldl_cons]
            apply ih
            by_cases hb : b ∈ st.2.2
            · rw [if_pos hb]
              exact nodup_pyErase h
            · rw [if_neg hb]
              exact h
        exact this lfm ([], lfm, ltbm) h1
      obtain ⟨P1, P2, P3⟩ := interactiveFold_props floor minDist ww
        (findDirectMatches lfm ltbm).2.2 ans (findDirectMatches lfm ltbm).2.1 _ _ hnodup1 hrun
      rcases findDirectMatches_cover lfm ltbm a ha with hs | hfl
      · by_cases hin : a ∈ (findDirectMatches lfm ltbm).2.1
        · exact P3 a hin (by simp)
        · rw [P1 a hin, P2 a hin]
          simp [hs]
      · exact P3 a hfl (by simp)
  · -- manual selection
    intro m nm hok
    obtain ⟨h1, h2⟩ := manual_selection_ok_nodup _ _ _ _ _ _ _ hok
    rw [manual_selection_none_eq lfm ltbm minDist ww ans h1 h2] at hok
    cases hrun : (findDirectMatches lfm ltbm).2.1.foldlM
        (manualEntry minDist ww (findDirectMatches lfm ltbm).2.2 ans)
        (⟨(findDirectMatches lfm ltbm).1, [], 0⟩ : InterSt) with
    | error e =>
      rw [hrun] at hok
      simp at hok
    | ok stI =>
      rw [hrun] at hok
      simp only [except_Bind_ok, except_bind_ok, except_ok_inj, Prod.mk.injEq] at hok
      obtain ⟨hm, hnm⟩ := hok
      subst hm
      subst hnm
      have hmono : ∀ (todo : List String) (st st' : InterSt),
          todo.foldlM (manualEntry minDist ww (findDirectMatches lfm ltbm).2.2 ans) st =
            .ok st' → (dlookup a st.m).isSome → (dlookup a st'.m).isSome := by
        intro todo
        induction todo with
        | nil =>
          intro st st' hr hs
          replace hr : (Except.ok st : Except PyErr InterSt) = .ok st' := hr
          simp only [except_ok_inj] at hr
          rw [← hr]
          exact hs
        | cons b rest ih =>
          intro st st' hr hs
          replace hr : (manualEntry minDist ww (findDirectMatches lfm ltbm).2.2 ans st b).bind
              (fun st1 => rest.foldlM (manualEntry minDist ww
                (findDirectMatches lfm ltbm).2.2 ans) st1) = .ok st' := hr
          cases hentry : manualEntry minDist ww (findDirectMatches lfm ltbm).2.2 ans st b with
          | error e =>
            rw [hentry] at hr
            simp at hr
          | ok st1 =>
            rw [hentry] at hr
            simp only [except_Bind_ok] at hr
            rcases manualEntry_m_shape _ _ _ _ _ _ _ hentry with hsh | ⟨v, hsh⟩
            · exact ih st1 st' hr (hsh ▸ hs)
            · exact ih st1 st' hr (hsh ▸ dlookup_dinsert_isSome b v st.m hs)
      rcases findDirectMatches_cover lfm ltbm a ha with hs | hfl
      · have hs' := hmono _ _ _ hrun hs
        constructor
        · intro _ hmem
          rcases List.mem_filter.mp hmem with ⟨_, hnone⟩
          simp only [Option.isNone_iff_eq_none] at hnone
          rw [hnone] at hs'
          cases hs'
        · intro _
          exact hs'
      · constructor
        · intro hs hmem
          rcases List.mem_filter.mp hmem with ⟨_, hnone⟩
          simp only [Option.isNone_iff_eq_none] at hnone
          rw [hnone] at hs
          cases hs
        · intro hnotin
          by_cases hs : (dlookup a stI.m).isSome
          · exact hs
          · exact absurd (List.mem_filter.mpr ⟨hfl, by simp [Option.isNone_iff_eq_none,
              Option.not_isSome_iff_eq_none.mp hs]⟩) hnotin

/-- C1 witness: the four strategies on `["Apple"]` vs `["Apple", "Apply"]`. -/
theorem every_label_matched_xor_unmatched_witness :
    ("Apple" ∈ ["Apple"]) ∧
      ((dlookup "Apple" [("Apple", MatchValue.single "Apple")]).isSome ↔
        "Apple" ∉ ([] : List String)) := by
  refine ⟨by decide, ?_⟩
  exact (every_label_matched_xor_unmatched ["Apple"] ["Apple", "Apply"] (mkRat 1 10)
    (mkRat 3 5) (fun _ => Ans.other) 200 "Apple" (by decide)).1
    [("Apple", MatchValue.single "Apple")] [] [] ["Apply"] (by decide)

/-! ## Claim C2: exact equality is always a direct match that is never overridden -/

/-- Through the direct-match fold, a source label still present in the target
pool when its turn comes — or already directly bound — ends bound to itself. -/
theorem findDirectFold_binding (todo : List String)
    (st : List (String × MatchValue) × List String × List String) (a : String)
    (hcase : (a ∈ todo ∧ a ∈ st.2.2) ∨ dlookup a st.1 = some (.single a)) :
    dlookup a ((todo.foldl
      (fun st a =>
        if a ∈ st.2.2 then
          (dinsert a (.single a) st.1, pyErase a st.2.1, pyErase a st.2.2)
        else st) st)).1 = some (.single a) := by
  induction todo generalizing st with
  | nil =>
    rcases hcase with ⟨hmem, _⟩ | hbound
    · cases hmem
    · exact hbound
  | cons b rest ih =>
    simp only [List.foldl_cons]
    apply ih
    by_cases hb : b ∈ st.2.2
    · rw [if_pos hb]
      rcases hcase with ⟨hmem, htl⟩ | hbound
      · by_cases hab : a = b
        · subst hab
          exact Or.inr (dlookup_dinsert_self a _ _)
        · rcases List.mem_cons.mp hmem with h | h
          · exact absurd h hab
          · exact Or.inl ⟨h, mem_pyErase_of_ne hab htl⟩
      · by_cases hab : b = a
        · subst hab
          exact Or.inr (dlookup_dinsert_self _ _ _)
        · exact Or.inr (by rw [dlookup_dinsert_ne hab]; exact hbound)
    · rw [if_neg hb]
      rcases hcase with ⟨hmem, htl⟩ | hbound
      · rcases List.mem_cons.mp hmem with h | h
        · subst h
          exact absurd htl hb
        · exact Or.inl ⟨h, htl⟩
      · exact Or.inr hbound

/-- Through the direct-match fold, a directly matched label is consumed from
the (duplicate-free) source pool. -/
theorem findDirectFold_notin_fl (todo : List String)
    (st : List (String × MatchValue) × List String × List String) (a : String)
    (hnd : st.2.1.Nodup)
    (hcase : (a ∈ todo ∧ a ∈ st.2.2) ∨ a ∉ st.2.1) :
    a ∉ ((todo.foldl
      (fun st a =>
        if a ∈ st.2.2 then
          (dinsert a (.single a) st.1, pyErase a st.2.1, pyErase a st.2.2)
        else st) st)).2.1 := by
  induction todo generalizing st with
  | nil =>
    rcases hcase with ⟨hmem, _⟩ | hout
    · cases hmem
    · exact hout
  | cons b rest ih =>
    simp only [List.foldl_cons]
    by_cases hb : b ∈ st.2.2
    · rw [if_pos hb]
      apply ih _ (nodup_pyErase hnd)
      rcases hcase with ⟨hmem, htl⟩ | hout
      · by_cases hab : a = b
        · subst hab
          exact Or.inr (not_mem_pyErase hnd)
        · rcases List.mem_cons.mp hmem with h | h
          · exact absurd h hab
          · exact Or.inl ⟨h, mem_pyErase_of_ne hab htl⟩
      · exact Or.inr fun hc => hout (mem_of_mem_pyErase hc)
    · rw [if_neg hb]
      apply ih _ hnd
      rcases hcase with ⟨hmem, htl⟩ | hout
      · rcases List.mem_cons.mp hmem with h | h
        · subst h
          exact absurd htl hb
        · exact Or.inl ⟨h, htl⟩
      · exact Or.inr hout

theorem findDirectMatches_binding (lfm ltbm : List String) (a : String)
    (ha : a ∈ lfm) (hb : a ∈ ltbm) :
    dlookup a (findDirectMatches lfm ltbm).1 = some (.single a) :=
  findDirectFold_binding lfm ([], lfm, ltbm) a (Or.inl ⟨ha, hb⟩)

theorem findDirectMatches_notin_fl (lfm ltbm : List String) (a : String)
    (hnd : lfm.Nodup) (ha : a ∈ lfm) (hb : a ∈ ltbm) :
    a ∉ (findDirectMatches lfm ltbm).2.1 :=
  findDirectFold_notin_fl lfm ([], lfm, ltbm) a hnd (Or.inl ⟨ha, hb⟩)

/-- The greedy loop never rebinds a label outside its work list. -/
theorem greedyLoop_preserve (ms : String → List (ℚ × MatchValue)) (todo : List String)
    (st st' : GreedySt) (hok : greedyLoop ms todo st = .ok st') (a : String)
    (hout : a ∉ todo) : dlookup a st'.m = dlookup a st.m := by
  induction todo generalizing st with
  | nil =>
    rw [greedyLoop] at hok
    cases hok
    rfl
  | cons b rest ih =>
    have hab : a ≠ b := fun hc => hout (hc ▸ List.mem_cons_self _ _)
    have hrest : a ∉ rest := fun hc => hout (List.mem_cons_of_mem _ hc)
    rw [greedyLoop] at hok
    split at hok
    · exact ih st hok hrest
    · rename_i s hhead
      split at hok
      case h_2 => simp at hok
      case h_1 v hv =>
        simp only [except_bind_ok, except_Bind_ok] at hok
        cases hfl : pyRemove b st.fl with
        | error e =>
          rw [hfl] at hok
          simp at hok
        | ok fl' =>
          rw [hfl] at hok
          simp only [except_bind_ok, except_Bind_ok] at hok
          have hfin : ∀ tl', greedyLoop ms rest ⟨dinsert b v st.m, fl', tl'⟩ = .ok st' →
              dlookup a st'.m = dlookup a st.m := by
            intro tl' hrun
            rw [ih _ hrun hrest]
            exact dlookup_dinsert_ne (fun hc => hab hc.symm) v st.m
          split at hok
          · rename_i l
            cases hrem : l.foldlM (fun acc b => pyRemove b acc) st.tl with
            | error e =>
              rw [hrem] at hok
              simp at hok
            | ok tl' =>
              rw [hrem] at hok
              simp only [except_bind_ok, except_Bind_ok] at hok
              exact hfin tl' hok
          · rename_i c
            cases hrem : pyRemove c st.tl with
            | error e =>
              rw [hrem] at hok
              simp at hok
            | ok tl' =>
              rw [hrem] at hok
              simp only [except_bind_ok, except_Bind_ok] at hok
              exact hfin tl' hok
          · simp at hok

/-- `dlookup` hits are entries of the association list. -/
theorem dlookup_mem {κ α : Type} [DecidableEq κ] {k : κ} {v : α} {d : List (κ × α)}
    (h : dlookup k d = some v) : (k, v) ∈ d := by
  induction d with
  | nil => cases h
  | cons kv rest ih =>
    rw [dlookup] at h
    by_cases hk : kv.1 = k
    · rw [if_pos hk] at h
      simp only [Option.some.injEq] at h
      have hkv : kv = (k, v) := by
        obtain ⟨k1, v1⟩ := kv
        simp only at hk h
        rw [hk, h]
      rw [← hkv]
      exact List.mem_cons_self _ _
    · rw [if_neg hk] at h
      exact List.mem_cons_of_mem _ (ih h)

/-- Membership in `dinsert` comes from the new pair or the old dict. -/
theorem dinsert_mem_inv {κ α : Type} [DecidableEq κ] {kv : κ × α} {k : κ} {v : α}
    {d : List (κ × α)} (h : kv ∈ dinsert k v d) : kv = (k, v) ∨ kv ∈ d := by
  induction d with
  | nil =>
    rw [dinsert] at h
    exact Or.inl (List.mem_singleton.mp h)
  | cons hd rest ih =>
    obtain ⟨k1, v1⟩ := hd
    rw [dinsert] at h
    by_cases hk : k1 = k
    · rw [if_pos hk] at h
      rcases List.mem_cons.mp h with h | h
      · exact Or.inl h
      · exact Or.inr (List.mem_cons_of_mem _ h)
    · rw [if_neg hk] at h
      rcases List.mem_cons.mp h with h | h
      · exact Or.inr (h ▸ List.mem_cons_self _ _)
      · rcases ih h with h | h
        · exact Or.inl h
        · exact Or.inr (List.mem_cons_of_mem _ h)

/-- `buildRowsInner` preserves the invariant that every recorded pair has its
source label in `S`. -/
theorem buildRowsInner_sources (floorOpt : Option ℚ) (x : String) (S : List String)
    (hx : x ∈ S) (d : List (ℚ × List (String × String))) (b : String)
    (hd : ∀ kv ∈ d, ∀ p ∈ kv.2, p.1 ∈ S) :
    ∀ kv ∈ buildRowsInner floorOpt x d b, ∀ p ∈ kv.2, p.1 ∈ S := by
  intro kv hkv p hp
  rw [buildRowsInner.eq_def] at hkv
  simp only at hkv
  split at hkv
  · split at hkv
    · rename_i ps hps
      rcases dinsert_mem_inv hkv with h | h
      · rw [h] at hp
        rcases List.mem_append.mp hp with hp | hp
        · exact hd _ (dlookup_mem hps) p hp
        · simp only [List.mem_singleton] at hp
          rw [hp]
          exact hx
      · exact hd kv h p hp
    · rcases dinsert_mem_inv hkv with h | h
      · rw [h] at hp
        simp only [List.mem_singleton] at hp
        rw [hp]
        exact hx
      · exact hd kv h p hp
  · exact hd kv hkv p hp

/-- The inner fold over targets preserves the source invariant. -/
theorem buildRowsInnerFold_sources (floorOpt : Option ℚ) (x : String) (S : List String)
    (hx : x ∈ S) (btodo : List String) (d : List (ℚ × List (String × String)))
    (hd : ∀ kv ∈ d, ∀ p ∈ kv.2, p.1 ∈ S) :
    ∀ kv ∈ btodo.foldl (buildRowsInner floorOpt x) d, ∀ p ∈ kv.2, p.1 ∈ S := by
  induction btodo generalizing d with
  | nil => exact hd
  | cons b brest bih =>
    simp only [List.foldl_cons]
    exact bih _ (buildRowsInner_sources floorOpt x S hx d b hd)

/-- Every pair recorded in the similarity grouping dict has its source label in
the source pool. -/
theorem buildRowsGroups_sources (floorOpt : Option ℚ) (lfm ltbm : List String) :
    ∀ kv ∈ buildRowsGroups floorOpt lfm ltbm, ∀ p ∈ kv.2, p.1 ∈ lfm := by
  rw [buildRowsGroups]
  have main : ∀ (todo : List String) (d : List (ℚ × List (String × String))),
      (∀ y ∈ todo, y ∈ lfm) → (∀ kv ∈ d, ∀ p ∈ kv.2, p.1 ∈ lfm) →
      ∀ kv ∈ todo.foldl (fun d a => ltbm.foldl (buildRowsInner floorOpt a) d) d,
        ∀ p ∈ kv.2, p.1 ∈ lfm := by
    intro todo
    induction todo with
    | nil => intro d _ hd; exact hd
    | cons x rest ih =>
      intro d htodo hd
      simp only [List.foldl_cons]
      exact ih _ (fun y hy => htodo y (List.mem_cons_of_mem _ hy))
        (buildRowsInnerFold_sources floorOpt x lfm (htodo x (List.mem_cons_self _ _)) ltbm d hd)
  exact main lfm [] (fun y hy => hy) (fun kv hkv => absurd hkv (List.not_mem_nil kv))

/-- Every row of the similarity frame has its source in the source pool. -/
theorem buildRows_a_mem (floorOpt : Option ℚ) (lfm ltbm : List String) :
    ∀ r ∈ buildRows floorOpt lfm ltbm, r.a ∈ lfm := by
  intro r hr
  rw [buildRows] at hr
  rcases List.mem_flatMap.mp hr with ⟨s, _, hmem⟩
  rcases List.mem_map.mp hmem with ⟨p, hp, heq⟩
  rw [← heq]
  cases hlk : dlookup s (buildRowsGroups floorOpt lfm ltbm) with
  | none =>
    rw [hlk] at hp
    simp at hp
  | some ps =>
    rw [hlk] at hp
    simp only [Option.getD_some] at hp
    exact buildRowsGroups_sources floorOpt lfm ltbm _ (dlookup_mem hlk) p hp

/-- Through the direct-match fold, a directly matched label is consumed from
the (duplicate-free) target pool. -/
theorem findDirectFold_notin_tl (todo : List String)
    (st : List (String × MatchValue) × List String × List String) (a : String)
    (hnd : st.2.2.Nodup)
    (hcase : (a ∈ todo ∧ a ∈ st.2.2) ∨ a ∉ st.2.2) :
    a ∉ ((todo.foldl
      (fun st a =>
        if a ∈ st.2.2 then
          (dinsert a (.single a) st.1, pyErase a st.2.1, pyErase a st.2.2)
        else st) st)).2.2 := by
  induction todo generalizing st with
  | nil =>
    rcases hcase with ⟨hmem, _⟩ | hout
    · cases hmem
    · exact hout
  | cons b rest ih =>
    simp only [List.foldl_cons]
    by_cases hb : b ∈ st.2.2
    · rw [if_pos hb]
      apply ih _ (nodup_pyErase hnd)
      rcases hcase with ⟨hmem, htl⟩ | hout
      · by_cases hab : a = b
        · subst hab
          exact Or.inr (not_mem_pyErase hnd)
        · rcases List.mem_cons.mp hmem with h | h
          · exact absurd h hab
          · exact Or.inl ⟨h, mem_pyErase_of_ne hab htl⟩
      · exact Or.inr fun hc => hout (mem_of_mem_pyErase hc)
    · rw [if_neg hb]
      apply ih _ hnd
      rcases hcase with ⟨hmem, htl⟩ | hout
      · rcases List.mem_cons.mp hmem with h | h
        · subst h
          exact absurd htl hb
        · exact Or.inl ⟨h, htl⟩
      · exact Or.inr hout

theorem findDirectMatches_notin_tl (lfm ltbm : List String) (a : String)
    (hnd : ltbm.Nodup) (ha : a ∈ lfm) (hb : a ∈ ltbm) :
    a ∉ (findDirectMatches lfm ltbm).2.2 :=
  findDirectFold_notin_tl lfm ([], lfm, ltbm) a hnd (Or.inl ⟨ha, hb⟩)

/-- A row fetched by index is a row of the frame. -/
theorem rowAt_mem {df : List Row} {i : Nat} {r : Row} (h : rowAt df i = .ok r) :
    r ∈ df := by
  rw [rowAt] at h
  cases hidx : df[i]? with
  | none =>
    rw [hidx] at h
    cases h
  | some r2 =>
    rw [hidx] at h
    simp only [except_ok_inj] at h
    rw [← h]
    exact List.getElem?_mem hidx

/-- The committing loop of the tie branch neither touches a source label
absent from the frame nor reintroduces it into the frame. -/
theorem commitIndexes_preserve (a : String) (idxs : List Nat) (df : List Row)
    (m : List (String × MatchValue)) (df2 : List Row) (m2 : List (String × MatchValue))
    (hok : commitIndexes idxs df m = .ok (df2, m2)) (hinv : ∀ r ∈ df, r.a ≠ a) :
    (∀ r ∈ df2, r.a ≠ a) ∧ dlookup a m2 = dlookup a m := by
  induction idxs generalizing df m with
  | nil =>
    rw [commitIndexes] at hok
    simp only [except_ok_inj, Prod.mk.injEq] at hok
    rw [← hok.1, ← hok.2]
    exact ⟨hinv, rfl⟩
  | cons i rest ih =>
    rw [commitIndexes] at hok
    cases hrow : rowAt df i with
    | error e =>
      rw [hrow] at hok
      simp at hok
    | ok r =>
      rw [hrow] at hok
      simp only [except_bind_ok, except_Bind_ok] at hok
      obtain ⟨hdf2, hm2⟩ := ih _ _ hok
        (fun r2 hr2 => hinv r2 (List.mem_of_mem_filter (List.mem_of_mem_filter hr2)))
      refine ⟨hdf2, ?_⟩
      rw [hm2, dlookup_dinsert_ne (hinv r (rowAt_mem hrow))]

/-- The tie branch neither touches a source label absent from the frame nor
reintroduces it into the frame. -/
theorem compTie_preserve (a : String) (useIdx : Bool) (r0 : Row) (rest : List Row)
    (m : List (String × MatchValue)) (df2 : List Row) (m2 : List (String × MatchValue))
    (hok : compTie useIdx r0 rest m = .ok (df2, m2)) (hinv : ∀ r ∈ r0 :: rest, r.a ≠ a) :
    (∀ r ∈ df2, r.a ≠ a) ∧ dlookup a m2 = dlookup a m := by
  rw [compTie] at hok
  cases hrem : ((removeOnceEach (allEntriesOf ((r0 :: rest).takeWhile fun r => r.sim = r0.sim))).flatMap
      (entryIndexes ((r0 :: rest).takeWhile fun r => r.sim = r0.sim))).foldlM
      (fun acc i => pyRemove i acc)
      (List.range ((r0 :: rest).takeWhile fun r => r.sim = r0.sim).length) with
  | error e =>
    rw [hrem] at hok
    simp at hok
  | ok idxs =>
    rw [hrem] at hok
    simp only [except_bind_ok, except_Bind_ok] at hok
    split at hok
    · exact commitIndexes_preserve a _ _ _ _ _ hok hinv
    · simp only [except_ok_inj, Prod.mk.injEq] at hok
      obtain ⟨hdf, hm⟩ := hok
      constructor
      · intro r hr
        rw [← hdf] at hr
        exact hinv r (List.mem_of_mem_filter (List.mem_of_mem_filter hr))
      · rw [← hm]
        repeat' split
        all_goals first
          | exact dlookup_dinsert_ne (hinv r0 (List.mem_cons_self _ _)) _ _
          | rfl

/-- One comprehensive iteration neither touches a source label absent from the
frame nor reintroduces it into the frame. -/
theorem compStep_preserve (a : String) (useIdx : Bool) (r0 : Row) (rest : List Row)
    (m : List (String × MatchValue)) (df2 : List Row) (m2 : List (String × MatchValue))
    (hok : compStep useIdx r0 rest m = .ok (df2, m2)) (hinv : ∀ r ∈ r0 :: rest, r.a ≠ a) :
    (∀ r ∈ df2, r.a ≠ a) ∧ dlookup a m2 = dlookup a m := by
  rw [compStep.eq_def] at hok
  split at hok
  · split at hok
    · simp only [except_ok_inj, Prod.mk.injEq] at hok
      obtain ⟨hdf, hm⟩ := hok
      constructor
      · intro r hr
        rw [← hdf] at hr
        exact hinv r
          (List.mem_of_mem_filter (List.mem_of_mem_filter (List.mem_of_mem_filter hr)))
      · rw [← hm]
        exact dlookup_dinsert_ne (hinv r0 (List.mem_cons_self _ _)) _ _
    · exact compTie_preserve a _ _ _ _ _ _ hok hinv
  · exact compTie_preserve a _ _ _ _ _ _ hok hinv

/-- The comprehensive loop never binds a source label that has no row in the
similarity frame. -/
theorem compLoop_preserve (a : String) (useIdx : Bool) (fuel : Nat) :
    ∀ (oldLen : Nat) (df : List Row) (m m2 : List (String × MatchValue)),
      (∀ r ∈ df, r.a ≠ a) → compLoop useIdx fuel oldLen df m = .ok m2 →
      dlookup a m2 = dlookup a m := by
  induction fuel with
  | zero =>
    intro oldLen df m m2 _ hok
    replace hok : (Except.ok m : Except PyErr _) = Except.ok m2 := hok
    simp only [except_ok_inj] at hok
    rw [← hok]
  | succ fuel ih =>
    intro oldLen df m m2 hinv hok
    cases df with
    | nil =>
      replace hok : (Except.ok m : Except PyErr _) = Except.ok m2 := hok
      simp only [except_ok_inj] at hok
      rw [← hok]
    | cons r0 rest =>
      replace hok :
          (if (r0 :: rest).length = oldLen then (Except.ok m : Except PyErr _)
            else
              (compStep useIdx r0 rest m).bind fun p =>
                compLoop useIdx fuel (r0 :: rest).length p.1 p.2) = Except.ok m2 := hok
      split at hok
      · simp only [except_ok_inj] at hok
        rw [← hok]
      · cases hstep : compStep useIdx r0 rest m with
        | error e =>
          rw [hstep] at hok
          simp [Except.bind] at hok
        | ok p =>
          rw [hstep] at hok
          replace hok : compLoop useIdx fuel (r0 :: rest).length p.1 p.2 = Except.ok m2 := hok
          obtain ⟨hinv2, hm⟩ := compStep_preserve a useIdx r0 rest m p.1 p.2 (by rw [hstep]) hinv
          rw [ih _ _ _ _ hinv2 hok, hm]

/-- The interactive loop never rebinds a label outside its work list. -/
theorem interactiveFold_preserve (floor minDist : ℚ) (ww : Nat) (tl1 : List String)
    (ans : Nat → Ans) (todo : List String) :
    ∀ st st2 : InterSt,
      todo.foldlM (interactiveEntry floor minDist ww tl1 ans) st = .ok st2 →
      ∀ b, b ∉ todo → dlookup b st2.m = dlookup b st.m := by
  induction todo with
  | nil =>
    intro st st2 hok b _
    replace hok : (Except.ok st : Except PyErr InterSt) = .ok st2 := hok
    simp only [except_ok_inj] at hok
    rw [← hok]
  | cons x rest ih =>
    intro st st2 hok b hb
    replace hok : (interactiveEntry floor minDist ww tl1 ans st x).bind
        (fun st1 => rest.foldlM (interactiveEntry floor minDist ww tl1 ans) st1) = .ok st2 := hok
    cases hentry : interactiveEntry floor minDist ww tl1 ans st x with
    | error e =>
      rw [hentry] at hok
      simp at hok
    | ok st1 =>
      rw [hentry] at hok
      simp only [except_Bind_ok] at hok
      have hbx : b ≠ x := fun hc => hb (hc ▸ List.mem_cons_self _ _)
      rw [ih st1 st2 hok b (fun hc => hb (List.mem_cons_of_mem _ hc))]
      rcases (interactiveEntry_shape floor minDist ww tl1 ans st x st1 hentry).1 with h | ⟨v, h⟩
      · rw [h]
      · rw [h, dlookup_dinsert_ne (fun hc => hbx hc.symm)]

/-- The manual-selection loop never rebinds a label outside its work list. -/
theorem manualFold_preserve (minDist : ℚ) (ww : Nat) (tl1 : List String)
    (ans : Nat → Ans) (todo : List String) :
    ∀ st st2 : InterSt,
      todo.foldlM (manualEntry minDist ww tl1 ans) st = .ok st2 →
      ∀ b, b ∉ todo → dlookup b st2.m = dlookup b st.m := by
  induction todo with
  | nil =>
    intro st st2 hok b _
    replace hok : (Except.ok st : Except PyErr InterSt) = .ok st2 := hok
    simp only [except_ok_inj] at hok
    rw [← hok]
  | cons x rest ih =>
    intro st st2 hok b hb
    replace hok : (manualEntry minDist ww tl1 ans st x).bind
        (fun st1 => rest.foldlM (manualEntry minDist ww tl1 ans) st1) = .ok st2 := hok
    cases hentry : manualEntry minDist ww tl1 ans st x with
    | error e =>
      rw [hentry] at hok
      simp at hok
    | ok st1 =>
      rw [hentry] at hok
      simp only [except_Bind_ok] at hok
      have hbx : b ≠ x := fun hc => hb (hc ▸ List.mem_cons_self _ _)
      rw [ih st1 st2 hok b (fun hc => hb (List.mem_cons_of_mem _ hc))]
      rcases manualEntry_m_shape minDist ww tl1 ans st x st1 hentry with h | ⟨v, h⟩
      · rw [h]
      · rw [h, dlookup_dinsert_ne (fun hc => hbx hc.symm)]

/-- C2: a source label that is exactly string-equal to some target label is
bound to that identical target by the direct-match phase, both are removed
from the working pools before any similarity-based matching, and every
strategy (per-entry greedy, global greedy, interactive, manual selection,
`match_comprehensive`) returns it still bound to that identical target. -/
theorem exact_match_is_direct_and_never_overridden (lfm ltbm : List String)
    (minDist floor : ℚ) (ans : Nat → Ans) (ww : Nat) (a : String)
    (h1 : lfm.Nodup) (h2 : ltbm.Nodup) (ha : a ∈ lfm) (hb : a ∈ ltbm) :
    dlookup a (findDirectMatches lfm ltbm).1 = some (.single a) ∧
    a ∉ (findDirectMatches lfm ltbm).2.1 ∧
    a ∉ (findDirectMatches lfm ltbm).2.2 ∧
    (∀ m nm flF tlF, match_similar lfm ltbm false true false minDist floor ans ww =
        .ok (m, nm, flF, tlF) → dlookup a m = some (.single a)) ∧
    (∀ m nm flF tlF, match_similar lfm ltbm false true true minDist floor ans ww =
        .ok (m, nm, flF, tlF) → dlookup a m = some (.single a)) ∧
    (∀ m nm flF tlF, match_similar lfm ltbm false false false minDist floor ans ww =
        .ok (m, nm, flF, tlF) → dlookup a m = some (.single a)) ∧
    (∀ m nm, match_similar_with_manual_selection lfm ltbm none minDist ww ans =
        .ok (m, nm) → dlookup a m = some (.single a)) ∧
    (∀ m nm, match_comprehensive lfm ltbm none = .ok (m, nm) →
        dlookup a m = some (.single a)) := by
  have hdirect := findDirectMatches_binding lfm ltbm a ha hb
  have hfl := findDirectMatches_notin_fl lfm ltbm a h1 ha hb
  have htl := findDirectMatches_notin_tl lfm ltbm a h2 ha hb
  refine ⟨hdirect, hfl, htl, ?_, ?_, ?_, ?_, ?_⟩
  · -- per-entry greedy
    intro m nm flF tlF hok
    rw [match_similar_greedy_eq lfm ltbm minDist floor ans ww h1 h2] at hok
    cases hrun : greedyLoop (fun a => mostSimilarFor floor a (findDirectMatches lfm ltbm).2.2)
        (findDirectMatches lfm ltbm).2.1
        ⟨(findDirectMatches lfm ltbm).1, (findDirectMatches lfm ltbm).2.1,
          (findDirectMatches lfm ltbm).2.2⟩ with
    | error e =>
      rw [hrun] at hok
      simp at hok
    | ok st =>
      rw [hrun] at hok
      simp only [except_Bind_ok, except_bind_ok, except_ok_inj, Prod.mk.injEq] at hok
      rw [← hok.1, greedyLoop_preserve _ _ _ _ hrun a hfl]
      exact hdirect
  · -- global greedy inside match_similar
    intro m nm flF tlF hok
    rw [match_similar_comp_eq lfm ltbm minDist floor ans ww h1 h2] at hok
    cases hrun : compLoop false (buildRows (some floor) (findDirectMatches lfm ltbm).2.1
          (findDirectMatches lfm ltbm).2.2).length.succ 0
        (buildRows (some floor) (findDirectMatches lfm ltbm).2.1
          (findDirectMatches lfm ltbm).2.2)
        (findDirectMatches lfm ltbm).1 with
    | error e =>
      rw [hrun] at hok
      simp at hok
    | ok mres =>
      rw [hrun] at hok
      simp only [except_Bind_ok, except_bind_ok, except_ok_inj, Prod.mk.injEq] at hok
      rw [← hok.1, compLoop_preserve a false _ _ _ _ _
        (fun r hr heq => hfl (heq ▸ buildRows_a_mem _ _ _ r hr)) hrun]
      exact hdirect
  · -- interactive
    intro m nm flF tlF hok
    rw [match_similar_interactive_eq lfm ltbm minDist floor ans ww h1 h2] at hok
    cases hrun : (findDirectMatches lfm ltbm).2.1.foldlM
        (interactiveEntry floor minDist ww (findDirectMatches lfm ltbm).2.2 ans)
        (⟨(findDirectMatches lfm ltbm).1, [], 0⟩ : InterSt) with
    | error e =>
      rw [hrun] at hok
      simp at hok
    | ok stI =>
      rw [hrun] at hok
      simp only [except_Bind_ok, except_bind_ok, except_ok_inj, Prod.mk.injEq] at hok
      rw [← hok.1, interactiveFold_preserve _ _ _ _ _ _ _ _ hrun a hfl]
      exact hdirect
  · -- manual selection
    intro m nm hok
    rw [manual_selection_none_eq lfm ltbm minDist ww ans h1 h2] at hok
    cases hrun : (findDirectMatches lfm ltbm).2.1.foldlM
        (manualEntry minDist ww (findDirectMatches lfm ltbm).2.2 ans)
        (⟨(findDirectMatches lfm ltbm).1, [], 0⟩ : InterSt) with
    | error e =>
      rw [hrun] at hok
      simp at hok
    | ok stI =>
      rw [hrun] at hok
      simp only [except_Bind_ok, except_bind_ok, except_ok_inj, Prod.mk.injEq] at hok
      rw [← hok.1, manualFold_preserve _ _ _ _ _ _ _ hrun a hfl]
      exact hdirect
  · -- match_comprehensive
    intro m nm hok
    rw [match_comprehensive_none_eq lfm ltbm h1 h2] at hok
    cases hrun : compLoop true (buildRows none (findDirectMatches lfm ltbm).2.1
          (findDirectMatches lfm ltbm).2.2).length.succ 0
        (buildRows none (findDirectMatches lfm ltbm).2.1
          (findDirectMatches lfm ltbm).2.2)
        (findDirectMatches lfm ltbm).1 with
    | error e =>
      rw [hrun] at hok
      simp at hok
    | ok mres =>
      rw [hrun] at hok
      simp only [except_Bind_ok, except_bind_ok, except_ok_inj, Prod.mk.injEq] at hok
      rw [← hok.1, compLoop_preserve a true _ _ _ _ _
        (fun r hr heq => hfl (heq ▸ buildRows_a_mem _ _ _ r hr)) hrun]
      exact hdirect

/-- C2 witness: `["Apple"]` vs `["Apple", "Apply"]`. -/
theorem exact_match_is_direct_and_never_overridden_witness :
    (["Apple"] : List String).Nodup ∧ (["Apple", "Apply"] : List String).Nodup ∧
      ("Apple" ∈ ["Apple"]) ∧ ("Apple" ∈ ["Apple", "Apply"]) ∧
      dlookup "Apple" (findDirectMatches ["Apple"] ["Apple", "Apply"]).1 =
        some (.single "Apple") := by
  refine ⟨by decide, by decide, by decide, by decide, ?_⟩
  exact (exact_match_is_direct_and_never_overridden ["Apple"] ["Apple", "Apply"]
    (mkRat 1 10) (mkRat 3 5) (fun _ => Ans.other) 200 "Apple"
    (by decide) (by decide) (by decide) (by decide)).1

/-! ## Claim C3: the similarity floor -/

/-- The target labels recorded in a match value. -/
def valTargets : MatchValue → List String
  | .single b => [b]
  | .multiple l => l
  | .num _ => []

/-- `_check_for_unique_similarity` preserves any pointwise property of the
recorded targets. -/
theorem checkForUniqueSimilarity_targets (P : String → Prop) (simi : ℚ) (value : String)
    (d : List (ℚ × MatchValue)) (hv : P value)
    (hd : ∀ kv ∈ d, ∀ b ∈ valTargets kv.2, P b) :
    ∀ kv ∈ checkForUniqueSimilarity simi value d, ∀ b ∈ valTargets kv.2, P b := by
  intro kv hkv b hb
  rw [checkForUniqueSimilarity] at hkv
  split at hkv
  · rename_i s hs
    rcases dinsert_mem_inv hkv with h | h
    · rw [h] at hb
      replace hb : b ∈ [s, value] := hb
      rcases List.mem_cons.mp hb with hb | hb
      · subst hb
        exact hd _ (dlookup_mem hs) b (List.mem_singleton.mpr rfl)
      · simp only [List.mem_singleton] at hb
        subst hb
        exact hv
    · exact hd kv h b hb
  · rename_i l hl
    rcases dinsert_mem_inv hkv with h | h
    · rw [h] at hb
      replace hb : b ∈ l ++ [value] := hb
      rcases List.mem_append.mp hb with hb | hb
      · exact hd _ (dlookup_mem hl) b hb
      · simp only [List.mem_singleton] at hb
        subst hb
        exact hv
    · exact hd kv h b hb
  · exact hd kv hkv b hb
  · rcases dinsert_mem_inv hkv with h | h
    · rw [h] at hb
      replace hb : b ∈ [value] := hb
      simp only [List.mem_singleton] at hb
      subst hb
      exact hv
    · exact hd kv h b hb

/-- Every target recorded in the floored candidate dict scores strictly above
the floor. -/
theorem mostSimilarForFold_targets (floor : ℚ) (a : String) (todo : List String) :
    ∀ d : List (ℚ × MatchValue),
      (∀ kv ∈ d, ∀ b ∈ valTargets kv.2, floor < ratio a b) →
      ∀ kv ∈ todo.foldl
        (fun d b =>
          let s := ratio a b
          if floor < s then checkForUniqueSimilarity s b d else d) d,
        ∀ b ∈ valTargets kv.2, floor < ratio a b := by
  induction todo with
  | nil => intro d hd; exact hd
  | cons x rest ih =>
    intro d hd
    simp only [List.foldl_cons]
    refine ih _ ?_
    show ∀ kv ∈ (if floor < ratio a x then checkForUniqueSimilarity (ratio a x) x d else d),
      ∀ b ∈ valTargets kv.2, floor < ratio a b
    by_cases hc : floor < ratio a x
    · rw [if_pos hc]
      exact checkForUniqueSimilarity_targets _ _ _ _ hc hd
    · rw [if_neg hc]
      exact hd

theorem mostSimilarFor_targets (floor : ℚ) (a : String) (ltbm : List String) :
    ∀ kv ∈ mostSimilarFor floor a ltbm, ∀ b ∈ valTargets kv.2, floor < ratio a b :=
  mostSimilarForFold_targets floor a ltbm [] (fun kv hkv => absurd hkv (List.not_mem_nil kv))

/-- Every entry of the direct-match dict binds a label to itself. -/
theorem findDirectFold_entries (todo : List String)
    (st : List (String × MatchValue) × List String × List String)
    (hst : ∀ kv ∈ st.1, kv.2 = .single kv.1) :
    ∀ kv ∈ ((todo.foldl
      (fun st a =>
        if a ∈ st.2.2 then
          (dinsert a (.single a) st.1, pyErase a st.2.1, pyErase a st.2.2)
        else st) st)).1, kv.2 = .single kv.1 := by
  induction todo generalizing st with
  | nil => exact hst
  | cons b rest ih =>
    simp only [List.foldl_cons]
    apply ih
    by_cases hb : b ∈ st.2.2
    · rw [if_pos hb]
      intro kv hkv
      rcases dinsert_mem_inv hkv with h | h
      · rw [h]
      · exact hst kv h
    · rw [if_neg hb]
      exact hst

theorem findDirectMatches_entries (lfm ltbm : List String) :
    ∀ kv ∈ (findDirectMatches lfm ltbm).1, kv.2 = .single kv.1 :=
  findDirectFold_entries lfm ([], lfm, ltbm) (fun kv hkv => absurd hkv (List.not_mem_nil kv))

/-- The per-entry greedy loop only records targets scoring above the floor. -/
theorem greedyLoop_minv (floor : ℚ) (tl1 : List String) (todo : List String) :
    ∀ st st2 : GreedySt,
      greedyLoop (fun x => mostSimilarFor floor x tl1) todo st = .ok st2 →
      (∀ kv ∈ st.m, ∀ b ∈ valTargets kv.2, floor < ratio kv.1 b) →
      ∀ kv ∈ st2.m, ∀ b ∈ valTargets kv.2, floor < ratio kv.1 b := by
  induction todo with
  | nil =>
    intro st st2 hok hm
    rw [greedyLoop] at hok
    simp only [except_ok_inj] at hok
    rw [← hok]
    exact hm
  | cons a rest ih =>
    intro st st2 hok hm
    rw [greedyLoop] at hok
    split at hok
    · exact ih st st2 hok hm
    · rename_i s hhead
      split at hok
      case h_2 => simp at hok
      case h_1 v hv =>
        simp only [except_bind_ok, except_Bind_ok] at hok
        cases hfl : pyRemove a st.fl with
        | error e =>
          rw [hfl] at hok
          simp at hok
        | ok fl2 =>
          rw [hfl] at hok
          simp only [except_bind_ok, except_Bind_ok] at hok
          have hminv : ∀ kv ∈ dinsert a v st.m, ∀ b ∈ valTargets kv.2,
              floor < ratio kv.1 b := by
            intro kv hkv b hb
            rcases dinsert_mem_inv hkv with h | h
            · rw [h] at hb ⊢
              exact mostSimilarFor_targets floor a tl1 (s, v) (dlookup_mem hv) b hb
            · exact hm kv h b hb
          split at hok
          · rename_i l
            cases hrem : l.foldlM (fun acc b => pyRemove b acc) st.tl with
            | error e =>
              rw [hrem] at hok
              simp at hok
            | ok tl2 =>
              rw [hrem] at hok
              simp only [except_bind_ok, except_Bind_ok] at hok
              exact ih _ _ hok hminv
          · rename_i c
            cases hrem : pyRemove c st.tl with
            | error e =>
              rw [hrem] at hok
              simp at hok
            | ok tl2 =>
              rw [hrem] at hok
              simp only [except_bind_ok, except_Bind_ok] at hok
              exact ih _ _ hok hminv
          · simp at hok

/-- The sub-prompt loop only records values taken from the candidate dict. -/
theorem interactiveSub_from (msA : List (ℚ × MatchValue)) (ordered : List ℚ) (a : String)
    (ans : Nat → Ans) (nts0 : Nat) (left cnt : Nat) (m m2 : List (String × MatchValue))
    (cnt2 : Nat) (hok : interactiveSub msA ordered a ans nts0 left cnt m = .ok (m2, cnt2)) :
    m2 = m ∨ ∃ v, m2 = dinsert a v m ∧ ∃ s, dlookup s msA = some v := by
  induction left generalizing cnt m with
  | zero =>
    rw [interactiveSub] at hok
    simp only [except_ok_inj, Prod.mk.injEq] at hok
    exact Or.inl hok.1.symm
  | succ left ih =>
    rw [interactiveSub] at hok
    split at hok
    · simp only [except_ok_inj, Prod.mk.injEq] at hok
      exact Or.inl hok.1.symm
    · split at hok
      · split at hok
        · split at hok
          · rename_i v hv
            simp only [except_ok_inj, Prod.mk.injEq] at hok
            exact Or.inr ⟨v, hok.1.symm, _, hv⟩
          · exact absurd hok (by simp)
        · simp only [except_ok_inj, Prod.mk.injEq] at hok
          exact Or.inl hok.1.symm
      · exact ih _ _ hok

/-- The auto-accept stage only records values taken from the candidate dict. -/
theorem interactiveAuto_from (minDist : ℚ) (msA : List (ℚ × MatchValue))
    (ordered : List ℚ) (a : String) (m m1 : List (String × MatchValue))
    (hok : interactiveAuto minDist msA ordered a m = .ok m1) :
    m1 = m ∨ ∃ v, m1 = dinsert a v m ∧ ∃ s, dlookup s msA = some v := by
  rw [interactiveAuto] at hok
  split at hok
  · split at hok
    · rename_i v hv
      simp only [except_ok_inj] at hok
      exact Or.inr ⟨v, hok.symm, _, hv⟩
    · exact absurd hok (by simp)
  · simp only [except_ok_inj] at hok
    exact Or.inl hok.symm

/-- The prompt stage only records values taken from the candidate dict. -/
theorem interactivePrompt_from (msA : List (ℚ × MatchValue)) (ordered : List ℚ)
    (a : String) (ans : Nat → Ans) (ww cnt : Nat) (m1 m2 : List (String × MatchValue))
    (cnt2 : Nat) (hok : interactivePrompt msA ordered a ans ww cnt m1 = .ok (m2, cnt2)) :
    m2 = m1 ∨ ∃ v, m2 = dinsert a v m1 ∧ ∃ s, dlookup s msA = some v := by
  rw [interactivePrompt] at hok
  split at hok
  · split at hok
    · rename_i v hv
      simp only [except_ok_inj, Prod.mk.injEq] at hok
      exact Or.inr ⟨v, hok.1.symm, _, hv⟩
    · exact absurd hok (by simp)
  · cases hidx : pyIndex ordered _ with
    | error e =>
      rw [hidx] at hok
      simp at hok
    | ok s =>
      rw [hidx] at hok
      simp only [except_bind_ok, except_Bind_ok] at hok
      split at hok
      · rename_i v hv
        simp only [except_ok_inj, Prod.mk.injEq] at hok
        exact Or.inr ⟨v, hok.1.symm, _, hv⟩
      · exact absurd hok (by simp)
  · exact interactiveSub_from _ _ _ _ _ _ _ _ _ _ hok

/-- One interactive source label only records values from its own floored
candidate dict. -/
theorem interactiveEntry_from (floor minDist : ℚ) (ww : Nat) (tl1 : List String)
    (ans : Nat → Ans) (st : InterSt) (a : String) (st2 : InterSt)
    (hok : interactiveEntry floor minDist ww tl1 ans st a = .ok st2) :
    st2.m = st.m ∨ ∃ v, st2.m = dinsert a v st.m ∧
      ∃ s, dlookup s (mostSimilarFor floor a tl1) = some v := by
  rw [interactiveEntry] at hok
  split at hok
  · simp only [except_ok_inj] at hok
    rw [← hok]
    exact Or.inl rfl
  · cases hauto : interactiveAuto minDist (mostSimilarFor floor a tl1)
        (sortedDesc (dkeys (mostSimilarFor floor a tl1))) a st.m with
    | error e =>
      rw [hauto] at hok
      simp at hok
    | ok m1 =>
      rw [hauto] at hok
      simp only [except_bind_ok, except_Bind_ok] at hok
      have hm1 := interactiveAuto_from _ _ _ _ _ _ hauto
      have hfinish : ∀ m2 cnt2,
          (Except.ok (m2, cnt2) : Except PyErr (List (String × MatchValue) × Nat)).bind
              (fun p => Except.ok
                (⟨p.1, if (dlookup a p.1).isSome then st.nm else st.nm ++ [a], p.2⟩ : InterSt)) =
              .ok st2 →
          (m2 = m1 ∨ ∃ v, m2 = dinsert a v m1 ∧
            ∃ s, dlookup s (mostSimilarFor floor a tl1) = some v) →
          (st2.m = st.m ∨ ∃ v, st2.m = dinsert a v st.m ∧
            ∃ s, dlookup s (mostSimilarFor floor a tl1) = some v) := by
        intro m2 cnt2 hrun hshape
        simp only [except_bind_ok, except_Bind_ok, except_ok_inj] at hrun
        rw [← hrun]
        simp only
        rcases hshape with h2 | ⟨v, h2, s, hs⟩
        · rw [h2]
          exact hm1
        · rcases hm1 with h1 | ⟨w, h1, s1, hs1⟩
          · rw [h2, h1]
            exact Or.inr ⟨v, rfl, s, hs⟩
          · rw [h2, h1]
            exact Or.inr ⟨v, dinsert_dinsert_same a v w st.m, s, hs⟩
      split at hok
      · exact hfinish m1 st.cnt hok (Or.inl rfl)
      · cases hpr : interactivePrompt (mostSimilarFor floor a tl1)
            (sortedDesc (dkeys (mostSimilarFor floor a tl1))) a ans ww st.cnt m1 with
        | error e =>
          rw [hpr] at hok
          simp at hok
        | ok p =>
          rw [hpr] at hok
          exact hfinish p.1 p.2 hok (interactivePrompt_from _ _ _ _ _ _ _ _ _ hpr)

/-- The interactive loop only records targets scoring above the floor. -/
theorem interactiveFold_minv (floor minDist : ℚ) (ww : Nat) (tl1 : List String)
    (ans : Nat → Ans) (todo : List String) :
    ∀ st st2 : InterSt,
      todo.foldlM (interactiveEntry floor minDist ww tl1 ans) st = .ok st2 →
      (∀ kv ∈ st.m, ∀ b ∈ valTargets kv.2, floor < ratio kv.1 b) →
      ∀ kv ∈ st2.m, ∀ b ∈ valTargets kv.2, floor < ratio kv.1 b := by
  induction todo with
  | nil =>
    intro st st2 hok hm
    replace hok : (Except.ok st : Except PyErr InterSt) = .ok st2 := hok
    simp only [except_ok_inj] at hok
    rw [← hok]
    exact hm
  | cons x rest ih =>
    intro st st2 hok hm
    replace hok : (interactiveEntry floor minDist ww tl1 ans st x).bind
        (fun st1 => rest.foldlM (interactiveEntry floor minDist ww tl1 ans) st1) = .ok st2 := hok
    cases hentry : interactiveEntry floor minDist ww tl1 ans st x with
    | error e =>
      rw [hentry] at hok
      simp at hok
    | ok st1 =>
      rw [hentry] at hok
      simp only [except_Bind_ok] at hok
      refine ih st1 st2 hok ?_
      rcases interactiveEntry_from floor minDist ww tl1 ans st x st1 hentry with h | ⟨v, h, s, hs⟩
      · rw [h]
        exact hm
      · rw [h]
        intro kv hkv b hb
        rcases dinsert_mem_inv hkv with hkv2 | hkv2
        · rw [hkv2] at hb ⊢
          exact mostSimilarFor_targets floor x tl1 (s, v) (dlookup_mem hs) b hb
        · exact hm kv hkv2 b hb

/-- C3 counterexample: `match_comprehensive` applies no similarity floor — on
`["ab"]` vs `["xy"]` it commits a pair of similarity 0, below the 0.6 default
limit, instead of sending the label to `no_match`. -/
theorem comprehensive_commits_below_floor :
    match_comprehensive ["ab"] ["xy"] none =
      .ok ([("ab", MatchValue.single "xy")], []) ∧
    ratio "ab" "xy" = 0 ∧ ¬ mkRat 3 5 < ratio "ab" "xy" :=
  ⟨by decide, by decide, by decide⟩

/-- C3 (amended): in the strategies that build their candidate index through
the floored `most_similar` dict — `match_similar` in per-entry greedy mode and
in interactive mode — every target recorded for any source label (scalar or
list member) scores strictly above `similarity_limit_for_manual_checking`,
provided the floor is below 1 so that direct matches also clear it. The
global-greedy frames (`match_comprehensive`) and the manual-selection ranking
are built without the floor. -/
theorem below_floor_never_matched_similar_modes (lfm ltbm : List String)
    (minDist floor : ℚ) (ans : Nat → Ans) (ww : Nat) (hfloor : floor < 1) :
    (∀ m nm flF tlF, match_similar lfm ltbm false true false minDist floor ans ww =
        .ok (m, nm, flF, tlF) → ∀ kv ∈ m, ∀ b ∈ valTargets kv.2, floor < ratio kv.1 b) ∧
    (∀ m nm flF tlF, match_similar lfm ltbm false false false minDist floor ans ww =
        .ok (m, nm, flF, tlF) → ∀ kv ∈ m, ∀ b ∈ valTargets kv.2, floor < ratio kv.1 b) := by
  have hm0 : ∀ kv ∈ (findDirectMatches lfm ltbm).1, ∀ b ∈ valTargets kv.2,
      floor < ratio kv.1 b := by
    intro kv hkv b hb
    rw [findDirectMatches_entries lfm ltbm kv hkv] at hb
    replace hb : b ∈ [kv.1] := hb
    simp only [List.mem_singleton] at hb
    subst hb
    have h1 : ratio kv.1 kv.1 = 1 := (ratio_eq_one_iff kv.1 kv.1).mpr rfl
    rw [h1]
    exact hfloor
  constructor
  · intro m nm flF tlF hok
    obtain ⟨h1, h2⟩ := match_similar_ok_nodup _ _ _ _ _ _ _ _ _ _ hok
    rw [match_similar_greedy_eq lfm ltbm minDist floor ans ww h1 h2] at hok
    cases hrun : greedyLoop (fun a => mostSimilarFor floor a (findDirectMatches lfm ltbm).2.2)
        (findDirectMatches lfm ltbm).2.1
        ⟨(findDirectMatches lfm ltbm).1, (findDirectMatches lfm ltbm).2.1,
          (findDirectMatches lfm ltbm).2.2⟩ with
    | error e =>
      rw [hrun] at hok
      simp at hok
    | ok st =>
      rw [hrun] at hok
      simp only [except_Bind_ok, except_bind_ok, except_ok_inj, Prod.mk.injEq] at hok
      rw [← hok.1]
      exact greedyLoop_minv floor (findDirectMatches lfm ltbm).2.2
        (findDirectMatches lfm ltbm).2.1 _ _ hrun hm0
  · intro m nm flF tlF hok
    obtain ⟨h1, h2⟩ := match_similar_ok_nodup _ _ _ _ _ _ _ _ _ _ hok
    rw [match_similar_interactive_eq lfm ltbm minDist floor ans ww h1 h2] at hok
    cases hrun : (findDirectMatches lfm ltbm).2.1.foldlM
        (interactiveEntry floor minDist ww (findDirectMatches lfm ltbm).2.2 ans)
        (⟨(findDirectMatches lfm ltbm).1, [], 0⟩ : InterSt) with
    | error e =>
      rw [hrun] at hok
      simp at hok
    | ok stI =>
      rw [hrun] at hok
      simp only [except_Bind_ok, except_bind_ok, except_ok_inj, Prod.mk.injEq] at hok
      rw [← hok.1]
      exact interactiveFold_minv floor minDist ww (findDirectMatches lfm ltbm).2.2 ans
        (findDirectMatches lfm ltbm).2.1 _ _ hrun hm0

/-- C3 witness: the greedy run on `["Apple"]` vs `["Apple", "Apply"]` with
floor 3/5 < 1. -/
theorem below_floor_never_matched_witness :
    (mkRat 3 5 < 1) ∧ mkRat 3 5 < ratio "Apple" "Apple" := by
  refine ⟨by decide, ?_⟩
  exact (below_floor_never_matched_similar_modes ["Apple"] ["Apple", "Apply"]
      (mkRat 1 10) (mkRat 3 5) (fun _ => Ans.other) 200 (by decide)).1
    [("Apple", MatchValue.single "Apple")] [] [] ["Apply"] (by decide)
    ("Apple", MatchValue.single "Apple") (by decide) "Apple" (by decide)

/-! ## Claim C4: the per-entry greedy tie records all tied targets -/

/-- A successful batch removal from a duplicate-free list removes every listed
element and only shrinks the list. -/
theorem foldlM_pyRemove_all {α : Type} [DecidableEq α] (l : List α) :
    ∀ tl tl2 : List α, tl.Nodup →
      l.foldlM (fun acc b => pyRemove b acc) tl = .ok tl2 →
      tl2.Nodup ∧ (∀ b ∈ l, b ∉ tl2) ∧ ∀ x ∈ tl2, x ∈ tl := by
  induction l with
  | nil =>
    intro tl tl2 hnd hok
    replace hok : (Except.ok tl : Except PyErr (List α)) = .ok tl2 := hok
    simp only [except_ok_inj] at hok
    rw [← hok]
    exact ⟨hnd, fun b hb => absurd hb (List.not_mem_nil b), fun x hx => hx⟩
  | cons b rest ih =>
    intro tl tl2 hnd hok
    replace hok : (pyRemove b tl).bind
        (fun acc => rest.foldlM (fun acc c => pyRemove c acc) acc) = .ok tl2 := hok
    cases hrm : pyRemove b tl with
    | error e =>
      rw [hrm] at hok
      simp at hok
    | ok tl1 =>
      rw [hrm] at hok
      simp only [except_Bind_ok] at hok
      obtain ⟨heq, _⟩ := pyRemove_ok hrm
      subst heq
      obtain ⟨hnd2, hall, hsub⟩ := ih _ _ (nodup_pyErase hnd) hok
      refine ⟨hnd2, ?_, fun x hx => mem_of_mem_pyErase (hsub x hx)⟩
      intro c hc
      rcases List.mem_cons.mp hc with hc | hc
      · subst hc
        exact fun hmem => not_mem_pyErase hnd (hsub c hmem)
      · exact hall c hc

/-- A successful batch removal only shrinks the list. -/
theorem foldlM_pyRemove_subset {α : Type} [DecidableEq α] (l : List α) :
    ∀ tl tl2 : List α, l.foldlM (fun acc b => pyRemove b acc) tl = .ok tl2 →
      ∀ x ∈ tl2, x ∈ tl := by
  induction l with
  | nil =>
    intro tl tl2 hok
    replace hok : (Except.ok tl : Except PyErr (List α)) = .ok tl2 := hok
    simp only [except_ok_inj] at hok
    rw [← hok]
    exact fun x hx => hx
  | cons b rest ih =>
    intro tl tl2 hok
    replace hok : (pyRemove b tl).bind
        (fun acc => rest.foldlM (fun acc c => pyRemove c acc) acc) = .ok tl2 := hok
    cases hrm : pyRemove b tl with
    | error e =>
      rw [hrm] at hok
      simp at hok
    | ok tl1 =>
      rw [hrm] at hok
      simp only [except_Bind_ok] at hok
      intro x hx
      have hx1 := ih _ _ hok x hx
      rw [(pyRemove_ok hrm).1] at hx1
      exact mem_of_mem_pyErase hx1

/-- The greedy loop only consumes from the target pool. -/
theorem greedyLoop_tl_subset (ms : String → List (ℚ × MatchValue)) (todo : List String) :
    ∀ st st2 : GreedySt, greedyLoop ms todo st = .ok st2 →
      ∀ x ∈ st2.tl, x ∈ st.tl := by
  induction todo with
  | nil =>
    intro st st2 hok
    rw [greedyLoop] at hok
    simp only [except_ok_inj] at hok
    rw [← hok]
    exact fun x hx => hx
  | cons a rest ih =>
    intro st st2 hok
    rw [greedyLoop] at hok
    split at hok
    · exact ih st st2 hok
    · rename_i s hhead
      split at hok
      case h_2 => simp at hok
      case h_1 v hv =>
        simp only [except_bind_ok, except_Bind_ok] at hok
        cases hfl : pyRemove a st.fl with
        | error e =>
          rw [hfl] at hok
          simp at hok
        | ok fl2 =>
          rw [hfl] at hok
          simp only [except_bind_ok, except_Bind_ok] at hok
          split at hok
          · rename_i l
            cases hrem : l.foldlM (fun acc b => pyRemove b acc) st.tl with
            | error e =>
              rw [hrem] at hok
              simp at hok
            | ok tl2 =>
              rw [hrem] at hok
              simp only [except_bind_ok, except_Bind_ok] at hok
              exact fun x hx => foldlM_pyRemove_subset l st.tl tl2 hrem x (ih _ _ hok x hx)
          · rename_i c
            cases hrem : pyRemove c st.tl with
            | error e =>
              rw [hrem] at hok
              simp at hok
            | ok tl2 =>
              rw [hrem] at hok
              simp only [except_bind_ok, except_Bind_ok] at hok
              intro x hx
              have hx1 := ih _ _ hok x hx
              rw [(pyRemove_ok hrem).1] at hx1
              exact mem_of_mem_pyErase hx1
          · simp at hok

/-- The direct-match fold keeps both pools duplicate-free. -/
theorem findDirectFold_pools_nodup (todo : List String)
    (st : List (String × MatchValue) × List String × List String)
    (h1 : st.2.1.Nodup) (h2 : st.2.2.Nodup) :
    ((todo.foldl
      (fun st a =>
        if a ∈ st.2.2 then
          (dinsert a (.single a) st.1, pyErase a st.2.1, pyErase a st.2.2)
        else st) st)).2.1.Nodup ∧
    ((todo.foldl
      (fun st a =>
        if a ∈ st.2.2 then
          (dinsert a (.single a) st.1, pyErase a st.2.1, pyErase a st.2.2)
        else st) st)).2.2.Nodup := by
  induction todo generalizing st with
  | nil => exact ⟨h1, h2⟩
  | cons b rest ih =>
    simp only [List.foldl_cons]
    by_cases hb : b ∈ st.2.2
    · rw [if_pos hb]
      exact ih _ (nodup_pyErase h1) (nodup_pyErase h2)
    · rw [if_neg hb]
      exact ih _ h1 h2

theorem findDirectMatches_pools_nodup (lfm ltbm : List String)
    (h1 : lfm.Nodup) (h2 : ltbm.Nodup) :
    (findDirectMatches lfm ltbm).2.1.Nodup ∧ (findDirectMatches lfm ltbm).2.2.Nodup :=
  findDirectFold_pools_nodup lfm ([], lfm, ltbm) h1 h2

/-- When a processed source label's top score-group is a tie, the greedy loop
records the whole tied list for it and consumes every tied target. -/
theorem greedyLoop_tie (ms : String → List (ℚ × MatchValue)) (todo : List String) :
    ∀ st st2 : GreedySt, greedyLoop ms todo st = .ok st2 → todo.Nodup → st.tl.Nodup →
      ∀ a ∈ todo, ∀ s l,
        (sortedDesc (dkeys (ms a))).head? = some s →
        dlookup s (ms a) = some (.multiple l) →
        dlookup a st2.m = some (.multiple l) ∧ ∀ b ∈ l, b ∉ st2.tl := by
  induction todo with
  | nil =>
    intro st st2 _ _ _ a ha
    exact absurd ha (List.not_mem_nil a)
  | cons x rest ih =>
    intro st st2 hok hnd hndtl a ha s l hhead hvl
    rcases List.nodup_cons.mp hnd with ⟨hxnotin, hndrest⟩
    rw [greedyLoop] at hok
    rcases List.mem_cons.mp ha with hax | har
    · subst hax
      split at hok
      · rename_i hnone
        rw [hhead] at hnone
        cases hnone
      · rename_i s2 hs2
        rw [hhead] at hs2
        injection hs2 with hs2
        subst hs2
        split at hok
        case h_2 => simp at hok
        case h_1 v hv =>
          rw [hvl] at hv
          injection hv with hv
          subst hv
          simp only [except_bind_ok, except_Bind_ok] at hok
          cases hfl : pyRemove a st.fl with
          | error e =>
            rw [hfl] at hok
            simp at hok
          | ok fl2 =>
            rw [hfl] at hok
            simp only [except_bind_ok, except_Bind_ok] at hok
            replace hok : (l.foldlM (fun acc b => pyRemove b acc) st.tl).bind
                (fun tl2 => greedyLoop ms rest
                  ⟨dinsert a (.multiple l) st.m, fl2, tl2⟩) = .ok st2 := hok
            cases hrem : l.foldlM (fun acc b => pyRemove b acc) st.tl with
            | error e =>
              rw [hrem] at hok
              simp at hok
            | ok tl2 =>
              rw [hrem] at hok
              simp only [except_Bind_ok] at hok
              obtain ⟨hnd2, hall, _⟩ := foldlM_pyRemove_all l st.tl tl2 hndtl hrem
              constructor
              · rw [greedyLoop_preserve ms rest _ _ hok a hxnotin]
                exact dlookup_dinsert_self a _ _
              · intro b hb hbin
                exact hall b hb (greedyLoop_tl_subset ms rest _ _ hok b hbin)
    · split at hok
      · exact ih st st2 hok hndrest hndtl a har s l hhead hvl
      · rename_i s2 hs2
        split at hok
        case h_2 => simp at hok
        case h_1 v hv =>
          simp only [except_bind_ok, except_Bind_ok] at hok
          cases hfl : pyRemove x st.fl with
          | error e =>
            rw [hfl] at hok
            simp at hok
          | ok fl2 =>
            rw [hfl] at hok
            simp only [except_bind_ok, except_Bind_ok] at hok
            split at hok
            · rename_i l2
              cases hrem : l2.foldlM (fun acc b => pyRemove b acc) st.tl with
              | error e =>
                rw [hrem] at hok
                simp at hok
              | ok tl2 =>
                rw [hrem] at hok
                simp only [except_bind_ok, except_Bind_ok] at hok
                exact ih _ _ hok hndrest (foldlM_pyRemove_all l2 st.tl tl2 hndtl hrem).1
                  a har s l hhead hvl
            · rename_i c
              cases hrem : pyRemove c st.tl with
              | error e =>
                rw [hrem] at hok
                simp at hok
              | ok tl2 =>
                rw [hrem] at hok
                simp only [except_bind_ok, except_Bind_ok] at hok
                have h2 := (pyRemove_ok hrem).1
                subst h2
                exact ih _ _ hok hndrest (nodup_pyErase hndtl) a har s l hhead hvl
            · simp at hok

/-- C4 counterexample: the global-greedy `match_comprehensive` also produces a
list-valued match — through its `multiple_match` fallback, not the per-entry
tie branch — so the per-entry tie is not the only list-producing path. -/
theorem comprehensive_also_produces_lists :
    match_comprehensive ["ab"] ["ax", "ay"] none =
      .ok ([("ab", MatchValue.multiple ["ax", "ay"])], []) := by
  decide

/-- C4 (amended): in per-entry greedy matching, a source label whose
highest-similarity candidate group above the floor contains two or more
targets gets the whole tied list recorded as its match value, and every tied
target is consumed from the target pool. (The tie is however not the only
list-producing path across all strategies: `match_comprehensive`'s
`multiple_match` fallback also stores lists.) -/
theorem greedy_tie_consumes_all (lfm ltbm : List String) (minDist floor : ℚ)
    (ans : Nat → Ans) (ww : Nat) (a : String) (s : ℚ) (l : List String)
    (ha : a ∈ (findDirectMatches lfm ltbm).2.1)
    (hhead : (sortedDesc (dkeys (mostSimilarFor floor a
      (findDirectMatches lfm ltbm).2.2))).head? = some s)
    (hvl : dlookup s (mostSimilarFor floor a (findDirectMatches lfm ltbm).2.2)
      = some (.multiple l)) :
    ∀ m nm flF tlF, match_similar lfm ltbm false true false minDist floor ans ww =
      .ok (m, nm, flF, tlF) →
      dlookup a m = some (.multiple l) ∧ ∀ b ∈ l, b ∉ tlF := by
  intro m nm flF tlF hok
  obtain ⟨h1, h2⟩ := match_similar_ok_nodup _ _ _ _ _ _ _ _ _ _ hok
  rw [match_similar_greedy_eq lfm ltbm minDist floor ans ww h1 h2] at hok
  cases hrun : greedyLoop (fun a => mostSimilarFor floor a (findDirectMatches lfm ltbm).2.2)
      (findDirectMatches lfm ltbm).2.1
      ⟨(findDirectMatches lfm ltbm).1, (findDirectMatches lfm ltbm).2.1,
        (findDirectMatches lfm ltbm).2.2⟩ with
  | error e =>
    rw [hrun] at hok
    simp at hok
  | ok st =>
    rw [hrun] at hok
    simp only [except_Bind_ok, except_bind_ok, except_ok_inj, Prod.mk.injEq] at hok
    obtain ⟨hpools1, hpools2⟩ := findDirectMatches_pools_nodup lfm ltbm h1 h2
    obtain ⟨hbind, hrm⟩ := greedyLoop_tie _ _ _ _ hrun hpools1 hpools2 a ha s l hhead hvl
    refine ⟨?_, ?_⟩
    · rw [← hok.1]
      exact hbind
    · intro b hb
      rw [← hok.2.2.2]
      exact hrm b hb

/-- C4 witness: `["ab"]` vs `["ax", "ay"]`, both targets tied at 1/2. -/
theorem greedy_tie_consumes_all_witness :
    dlookup "ab" [("ab", MatchValue.multiple ["ax", "ay"])] =
        some (MatchValue.multiple ["ax", "ay"]) ∧
      ("ax" ∉ ([] : List String)) ∧ ("ay" ∉ ([] : List String)) := by
  have h := greedy_tie_consumes_all ["ab"] ["ax", "ay"] (mkRat 1 10) (mkRat 1 10)
    (fun _ => Ans.other) 200 "ab" (mkRat 1 2) ["ax", "ay"]
    (by decide) (by decide) (by decide)
    [("ab", MatchValue.multiple ["ax", "ay"])] [] [] [] (by decide)
  exact ⟨h.1, h.2 "ax" (by decide), h.2 "ay" (by decide)⟩

/-! ## Claim C5: target consumption in the global-greedy strategies -/

/-- Case analysis for a lookup in an updated dict. -/
theorem dlookup_dinsert_cases {κ α : Type} [DecidableEq κ] {k k2 : κ} {v : α}
    {d : List (κ × α)} {w : α} (h : dlookup k2 (dinsert k v d) = some w) :
    (k2 = k ∧ w = v) ∨ (k2 ≠ k ∧ dlookup k2 d = some w) := by
  by_cases hk : k2 = k
  · subst hk
    rw [dlookup_dinsert_self] at h
    simp only [Option.some.injEq] at h
    exact Or.inl ⟨rfl, h.symm⟩
  · rw [dlookup_dinsert_ne (fun hc => hk hc.symm)] at h
    exact Or.inr ⟨hk, h⟩

/-- Committing a row of the frame as  a scalar match keeps scalar targets
injective, given no frame row repeats an already-committed scalar target. -/
theorem inj_after_single_commit (r : Row) (df : List Row)
    (m : List (String × MatchValue)) (hr : r ∈ df)
    (hinj : ∀ a1 a2 b, dlookup a1 m = some (.single b) →
      dlookup a2 m = some (.single b) → a1 = a2)
    (hfr : ∀ x ∈ df, ∀ a b, dlookup a m = some (.single b) → x.b ≠ b) :
    ∀ a1 a2 b, dlookup a1 (dinsert r.a (.single r.b) m) = some (.single b) →
      dlookup a2 (dinsert r.a (.single r.b) m) = some (.single b) → a1 = a2 := by
  intro a1 a2 b h1 h2
  rcases dlookup_dinsert_cases h1 with ⟨e1, v1⟩ | ⟨n1, h1l⟩
  · rcases dlookup_dinsert_cases h2 with ⟨e2, v2⟩ | ⟨n2, h2l⟩
    · rw [e1, e2]
    · injection v1 with hb
      exact absurd hb.symm (hfr r hr a2 b h2l)
  · rcases dlookup_dinsert_cases h2 with ⟨e2, v2⟩ | ⟨n2, h2l⟩
    · injection v2 with hb
      exact absurd hb.symm (hfr r hr a1 b h1l)
    · exact hinj a1 a2 b h1l h2l

/-- After committing a row and filtering its target out of the frame, no
remaining row repeats a committed scalar target. -/
theorem frame_after_single_commit (r : Row) (df df2 : List Row)
    (m : List (String × MatchValue))
    (hsub : ∀ x ∈ df2, x ∈ df) (hb2 : ∀ x ∈ df2, x.b ≠ r.b)
    (hfr : ∀ x ∈ df, ∀ a b, dlookup a m = some (.single b) → x.b ≠ b) :
    ∀ x ∈ df2, ∀ a b, dlookup a (dinsert r.a (.single r.b) m) = some (.single b) →
      x.b ≠ b := by
  intro x hx a b h
  rcases dlookup_dinsert_cases h with ⟨e, v⟩ | ⟨n, hl⟩
  · injection v with hb
    rw [hb]
    exact hb2 x hx
  · exact hfr x (hsub x hx) a b hl

/-- Overwriting with a list value neither creates a scalar binding nor breaks
the invariants. -/
theorem inv_after_multiple_commit (k : String) (mm : List String) (df df2 : List Row)
    (m : List (String × MatchValue)) (hsub : ∀ x ∈ df2, x ∈ df)
    (hinj : ∀ a1 a2 b, dlookup a1 m = some (.single b) →
      dlookup a2 m = some (.single b) → a1 = a2)
    (hfr : ∀ x ∈ df, ∀ a b, dlookup a m = some (.single b) → x.b ≠ b) :
    (∀ a1 a2 b, dlookup a1 (dinsert k (.multiple mm) m) = some (.single b) →
      dlookup a2 (dinsert k (.multiple mm) m) = some (.single b) → a1 = a2) ∧
    (∀ x ∈ df2, ∀ a b, dlookup a (dinsert k (.multiple mm) m) = some (.single b) →
      x.b ≠ b) := by
  constructor
  · intro a1 a2 b h1 h2
    rcases dlookup_dinsert_cases h1 with ⟨e1, v1⟩ | ⟨n1, h1l⟩
    · cases v1
    · rcases dlookup_dinsert_cases h2 with ⟨e2, v2⟩ | ⟨n2, h2l⟩
      · cases v2
      · exact hinj a1 a2 b h1l h2l
  · intro x hx a b h
    rcases dlookup_dinsert_cases h with ⟨e, v⟩ | ⟨n, hl⟩
    · cases v
    · exact hfr x (hsub x hx) a b hl

/-- The committing loop of the tie branch keeps scalar targets injective. -/
theorem commitIndexes_inj (idxs : List Nat) (df : List Row)
    (m : List (String × MatchValue)) (df2 : List Row) (m2 : List (String × MatchValue))
    (hok : commitIndexes idxs df m = .ok (df2, m2))
    (hinj : ∀ a1 a2 b, dlookup a1 m = some (.single b) →
      dlookup a2 m = some (.single b) → a1 = a2)
    (hfr : ∀ x ∈ df, ∀ a b, dlookup a m = some (.single b) → x.b ≠ b) :
    (∀ a1 a2 b, dlookup a1 m2 = some (.single b) →
      dlookup a2 m2 = some (.single b) → a1 = a2) ∧
    (∀ x ∈ df2, ∀ a b, dlookup a m2 = some (.single b) → x.b ≠ b) := by
  induction idxs generalizing df m with
  | nil =>
    rw [commitIndexes] at hok
    simp only [except_ok_inj, Prod.mk.injEq] at hok
    rw [← hok.1, ← hok.2]
    exact ⟨hinj, hfr⟩
  | cons i rest ih =>
    rw [commitIndexes] at hok
    cases hrow : rowAt df i with
    | error e =>
      rw [hrow] at hok
      simp at hok
    | ok r =>
      rw [hrow] at hok
      simp only [except_bind_ok, except_Bind_ok] at hok
      have hr : r ∈ df := rowAt_mem hrow
      refine ih _ _ hok (inj_after_single_commit r df m hr hinj hfr) ?_
      refine frame_after_single_commit r df _ m ?_ ?_ hfr
      · intro x hx
        exact List.mem_of_mem_filter (List.mem_of_mem_filter hx)
      · intro x hx
        exact of_decide_eq_true (List.mem_filter.mp hx).2

/-- The tie branch keeps scalar targets injective. -/
theorem compTie_inj (useIdx : Bool) (r0 : Row) (rest : List Row)
    (m : List (String × MatchValue)) (df2 : List Row) (m2 : List (String × MatchValue))
    (hok : compTie useIdx r0 rest m = .ok (df2, m2))
    (hinj : ∀ a1 a2 b, dlookup a1 m = some (.single b) →
      dlookup a2 m = some (.single b) → a1 = a2)
    (hfr : ∀ x ∈ r0 :: rest, ∀ a b, dlookup a m = some (.single b) → x.b ≠ b) :
    (∀ a1 a2 b, dlookup a1 m2 = some (.single b) →
      dlookup a2 m2 = some (.single b) → a1 = a2) ∧
    (∀ x ∈ df2, ∀ a b, dlookup a m2 = some (.single b) → x.b ≠ b) := by
  rw [compTie] at hok
  cases hrem : ((removeOnceEach (allEntriesOf ((r0 :: rest).takeWhile fun r => r.sim = r0.sim))).flatMap
      (entryIndexes ((r0 :: rest).takeWhile fun r => r.sim = r0.sim))).foldlM
      (fun acc i => pyRemove i acc)
      (List.range ((r0 :: rest).takeWhile fun r => r.sim = r0.sim).length) with
  | error e =>
    rw [hrem] at hok
    simp at hok
  | ok idxs =>
    rw [hrem] at hok
    simp only [except_bind_ok, except_Bind_ok] at hok
    split at hok
    · exact commitIndexes_inj _ _ _ _ _ hok hinj hfr
    · simp only [except_ok_inj, Prod.mk.injEq] at hok
      obtain ⟨hdf, hm⟩ := hok
      have hsub : ∀ x ∈ df2, x ∈ r0 :: rest := by
        intro x hx
        rw [← hdf] at hx
        exact List.mem_of_mem_filter (List.mem_of_mem_filter hx)
      have hcase : (∃ mm, m2 = dinsert r0.a (.multiple mm) m) ∨ m2 = m := by
        rcases ite_eq_iff.mp hm with ⟨hc, he⟩ | ⟨hc, he⟩
        · exact Or.inl ⟨_, he.symm⟩
        · exact Or.inr he.symm
      rcases hcase with ⟨mm, hmm⟩ | hmm
      · subst hmm
        exact inv_after_multiple_commit r0.a mm (r0 :: rest) df2 m hsub hinj hfr
      · subst hmm
        exact ⟨hinj, fun x hx a b h => hfr x (hsub x hx) a b h⟩

/-- One comprehensive iteration keeps scalar targets injective. -/
theorem compStep_inj (useIdx : Bool) (r0 : Row) (rest : List Row)
    (m : List (String × MatchValue)) (df2 : List Row) (m2 : List (String × MatchValue))
    (hok : compStep useIdx r0 rest m = .ok (df2, m2))
    (hinj : ∀ a1 a2 b, dlookup a1 m = some (.single b) →
      dlookup a2 m = some (.single b) → a1 = a2)
    (hfr : ∀ x ∈ r0 :: rest, ∀ a b, dlookup a m = some (.single b) → x.b ≠ b) :
    (∀ a1 a2 b, dlookup a1 m2 = some (.single b) →
      dlookup a2 m2 = some (.single b) → a1 = a2) ∧
    (∀ x ∈ df2, ∀ a b, dlookup a m2 = some (.single b) → x.b ≠ b) := by
  rw [compStep.eq_def] at hok
  split at hok
  · split at hok
    · simp only [except_ok_inj, Prod.mk.injEq] at hok
      obtain ⟨hdf, hm⟩ := hok
      constructor
      · rw [← hm]
        exact inj_after_single_commit r0 _ m (List.mem_cons_self _ _) hinj hfr
      · rw [← hm, ← hdf]
        refine frame_after_single_commit r0 _ _ m ?_ ?_ hfr
        · intro x hx
          exact List.mem_of_mem_filter (List.mem_of_mem_filter (List.mem_of_mem_filter hx))
        · intro x hx
          exact of_decide_eq_true (List.mem_filter.mp hx).2
    · exact compTie_inj _ _ _ _ _ _ hok hinj hfr
  · exact compTie_inj _ _ _ _ _ _ hok hinj hfr

/-- The comprehensive loop keeps scalar targets injective. -/
theorem compLoop_inj (useIdx : Bool) (fuel : Nat) :
    ∀ (oldLen : Nat) (df : List Row) (m m2 : List (String × MatchValue)),
      compLoop useIdx fuel oldLen df m = .ok m2 →
      (∀ a1 a2 b, dlookup a1 m = some (.single b) →
        dlookup a2 m = some (.single b) → a1 = a2) →
      (∀ x ∈ df, ∀ a b, dlookup a m = some (.single b) → x.b ≠ b) →
      ∀ a1 a2 b, dlookup a1 m2 = some (.single b) →
        dlookup a2 m2 = some (.single b) → a1 = a2 := by
  induction fuel with
  | zero =>
    intro oldLen df m m2 hok hinj _
    replace hok : (Except.ok m : Except PyErr _) = Except.ok m2 := hok
    simp only [except_ok_inj] at hok
    rw [← hok]
    exact hinj
  | succ fuel ih =>
    intro oldLen df m m2 hok hinj hfr
    cases df with
    | nil =>
      replace hok : (Except.ok m : Except PyErr _) = Except.ok m2 := hok
      simp only [except_ok_inj] at hok
      rw [← hok]
      exact hinj
    | cons r0 rest =>
      replace hok :
          (if (r0 :: rest).length = oldLen then (Except.ok m : Except PyErr _)
            else
              (compStep useIdx r0 rest m).bind fun p =>
                compLoop useIdx fuel (r0 :: rest).length p.1 p.2) = Except.ok m2 := hok
      split at hok
      · simp only [except_ok_inj] at hok
        rw [← hok]
        exact hinj
      · cases hstep : compStep useIdx r0 rest m with
        | error e =>
          rw [hstep] at hok
          simp [Except.bind] at hok
        | ok p =>
          rw [hstep] at hok
          replace hok : compLoop useIdx fuel (r0 :: rest).length p.1 p.2 = Except.ok m2 := hok
          obtain ⟨hinj2, hfr2⟩ :=
            compStep_inj useIdx r0 rest m p.1 p.2 (by rw [hstep]) hinj hfr
          exact ih _ _ _ _ hok hinj2 hfr2

/-- A direct-match lookup hit is always the label bound to itself. -/
theorem findDirectMatches_lookup_single (lfm ltbm : List String) (a b : String)
    (h : dlookup a (findDirectMatches lfm ltbm).1 = some (.single b)) : b = a := by
  have hmem := dlookup_mem h
  have hent := findDirectMatches_entries lfm ltbm _ hmem
  replace hent : MatchValue.single b = MatchValue.single a := hent
  injection hent

/-- The direct-match dict never keeps a key in the remaining target pool. -/
theorem findDirectFold_keys_notin_tl (todo : List String)
    (st : List (String × MatchValue) × List String × List String)
    (hnd : st.2.2.Nodup) (hinv : ∀ kv ∈ st.1, kv.1 ∉ st.2.2) :
    ∀ kv ∈ ((todo.foldl
      (fun st a =>
        if a ∈ st.2.2 then
          (dinsert a (.single a) st.1, pyErase a st.2.1, pyErase a st.2.2)
        else st) st)).1,
      kv.1 ∉ ((todo.foldl
        (fun st a =>
          if a ∈ st.2.2 then
            (dinsert a (.single a) st.1, pyErase a st.2.1, pyErase a st.2.2)
          else st) st)).2.2 := by
  induction todo generalizing st with
  | nil => exact hinv
  | cons b rest ih =>
    simp only [List.foldl_cons]
    by_cases hb : b ∈ st.2.2
    · rw [if_pos hb]
      refine ih _ (nodup_pyErase hnd) ?_
      intro kv hkv
      rcases dinsert_mem_inv hkv with h | h
      · rw [h]
        exact not_mem_pyErase hnd
      · exact fun hc => hinv kv h (mem_of_mem_pyErase hc)
    · rw [if_neg hb]
      exact ih _ hnd hinv

theorem findDirectMatches_keys_notin_tl (lfm ltbm : List String) (h2 : ltbm.Nodup) :
    ∀ kv ∈ (findDirectMatches lfm ltbm).1, kv.1 ∉ (findDirectMatches lfm ltbm).2.2 :=
  findDirectFold_keys_notin_tl lfm ([], lfm, ltbm) h2
    (fun kv hkv => absurd hkv (List.not_mem_nil kv))

/-- `buildRowsInner` preserves the invariant that every recorded pair has its
target label in `S`. -/
theorem buildRowsInner_targets_mem (floorOpt : Option ℚ) (x : String) (S : List String)
    (d : List (ℚ × List (String × String))) (b : String) (hb : b ∈ S)
    (hd : ∀ kv ∈ d, ∀ p ∈ kv.2, p.2 ∈ S) :
    ∀ kv ∈ buildRowsInner floorOpt x d b, ∀ p ∈ kv.2, p.2 ∈ S := by
  intro kv hkv p hp
  rw [buildRowsInner.eq_def] at hkv
  simp only at hkv
  split at hkv
  · split at hkv
    · rename_i ps hps
      rcases dinsert_mem_inv hkv with h | h
      · rw [h] at hp
        rcases List.mem_append.mp hp with hp | hp
        · exact hd _ (dlookup_mem hps) p hp
        · simp only [List.mem_singleton] at hp
          rw [hp]
          exact hb
      · exact hd kv h p hp
    · rcases dinsert_mem_inv hkv with h | h
      · rw [h] at hp
        simp only [List.mem_singleton] at hp
        rw [hp]
        exact hb
      · exact hd kv h p hp
  · exact hd kv hkv p hp

/-- The inner fold over targets preserves the target invariant. -/
theorem buildRowsInnerFold_targets_mem (floorOpt : Option ℚ) (x : String) (S : List String)
    (btodo : List String) (hbt : ∀ b ∈ btodo, b ∈ S)
    (d : List (ℚ × List (String × String)))
    (hd : ∀ kv ∈ d, ∀ p ∈ kv.2, p.2 ∈ S) :
    ∀ kv ∈ btodo.foldl (buildRowsInner floorOpt x) d, ∀ p ∈ kv.2, p.2 ∈ S := by
  induction btodo generalizing d with
  | nil => exact hd
  | cons b brest bih =>
    simp only [List.foldl_cons]
    exact bih (fun c hc => hbt c (List.mem_cons_of_mem _ hc)) _
      (buildRowsInner_targets_mem floorOpt x S d b (hbt b (List.mem_cons_self _ _)) hd)

/-- Every pair recorded in the similarity grouping dict has its target label
in the target pool. -/
theorem buildRowsGroups_targets_mem (floorOpt : Option ℚ) (lfm ltbm : List String) :
    ∀ kv ∈ buildRowsGroups floorOpt lfm ltbm, ∀ p ∈ kv.2, p.2 ∈ ltbm := by
  rw [buildRowsGroups]
  have main : ∀ (todo : List String) (d : List (ℚ × List (String × String))),
      (∀ kv ∈ d, ∀ p ∈ kv.2, p.2 ∈ ltbm) →
      ∀ kv ∈ todo.foldl (fun d a => ltbm.foldl (buildRowsInner floorOpt a) d) d,
        ∀ p ∈ kv.2, p.2 ∈ ltbm := by
    intro todo
    induction todo with
    | nil => intro d hd; exact hd
    | cons x rest ih =>
      intro d hd
      simp only [List.foldl_cons]
      exact ih _ (buildRowsInnerFold_targets_mem floorOpt x ltbm ltbm (fun c hc => hc) d hd)
  exact main lfm [] (fun kv hkv => absurd hkv (List.not_mem_nil kv))

/-- Every row of the similarity frame has its target in the target pool. -/
theorem buildRows_b_mem (floorOpt : Option ℚ) (lfm ltbm : List String) :
    ∀ r ∈ buildRows floorOpt lfm ltbm, r.b ∈ ltbm := by
  intro r hr
  rw [buildRows] at hr
  rcases List.mem_flatMap.mp hr with ⟨s, _, hmem⟩
  rcases List.mem_map.mp hmem with ⟨p, hp, heq⟩
  rw [← heq]
  cases hlk : dlookup s (buildRowsGroups floorOpt lfm ltbm) with
  | none =>
    rw [hlk] at hp
    simp at hp
  | some ps =>
    rw [hlk] at hp
    simp only [Option.getD_some] at hp
    exact buildRowsGroups_targets_mem floorOpt lfm ltbm _ (dlookup_mem hlk) p hp

/-- C5 counterexample: `match_comprehensive` on `["ab", "zzy"]` vs
`["ax", "ay"]` records `"ay"` both as a list member for `"ab"` (the
`multiple_match` fallback does not consume its members) and later as the
scalar match of `"zzy"`. -/
theorem comprehensive_target_reused :
    match_comprehensive ["ab", "zzy"] ["ax", "ay"] none =
      .ok ([("ab", MatchValue.multiple ["ax", "ay"]),
            ("zzy", MatchValue.single "ay")], []) ∧
    "ay" ∈ valTargets (MatchValue.multiple ["ax", "ay"]) ∧
    "ay" ∈ valTargets (MatchValue.single "ay") := by
  refine ⟨by decide, by decide, by decide⟩

/-- C5 (amended): in the global-greedy strategies (`match_comprehensive` and
`match_similar` with `enforce_comprehensive_check=True`) a target committed as
a SCALAR match is never the scalar match of a second source label — scalar
commitments filter the target out of the frame. Full monotonic consumption
fails only through the `multiple_match` fallback, whose list members are not
consumed and may reappear (as in the counterexample). -/
theorem global_greedy_scalar_targets_unique (lfm ltbm : List String)
    (minDist floor : ℚ) (ans : Nat → Ans) (ww : Nat) :
    (∀ m nm, match_comprehensive lfm ltbm none = .ok (m, nm) →
      ∀ a1 a2 b, dlookup a1 m = some (.single b) →
        dlookup a2 m = some (.single b) → a1 = a2) ∧
    (∀ m nm flF tlF, match_similar lfm ltbm false true true minDist floor ans ww =
        .ok (m, nm, flF, tlF) →
      ∀ a1 a2 b, dlookup a1 m = some (.single b) →
        dlookup a2 m = some (.single b) → a1 = a2) := by
  have hinj0 : ∀ a1 a2 b, dlookup a1 (findDirectMatches lfm ltbm).1 = some (.single b) →
      dlookup a2 (findDirectMatches lfm ltbm).1 = some (.single b) → a1 = a2 := by
    intro a1 a2 b h1 h2
    rw [← findDirectMatches_lookup_single lfm ltbm a1 b h1,
      ← findDirectMatches_lookup_single lfm ltbm a2 b h2]
  constructor
  · intro m nm hok
    obtain ⟨h1, h2⟩ := match_comprehensive_ok_nodup _ _ _ _ hok
    rw [match_comprehensive_none_eq lfm ltbm h1 h2] at hok
    cases hrun : compLoop true (buildRows none (findDirectMatches lfm ltbm).2.1
          (findDirectMatches lfm ltbm).2.2).length.succ 0
        (buildRows none (findDirectMatches lfm ltbm).2.1
          (findDirectMatches lfm ltbm).2.2)
        (findDirectMatches lfm ltbm).1 with
    | error e =>
      rw [hrun] at hok
      simp at hok
    | ok mres =>
      rw [hrun] at hok
      simp only [except_Bind_ok, except_bind_ok, except_ok_inj, Prod.mk.injEq] at hok
      rw [← hok.1]
      refine compLoop_inj true _ _ _ _ _ hrun hinj0 ?_
      intro x hx a b h heq
      have hb := findDirectMatches_lookup_single lfm ltbm a b h
      have hkey := findDirectMatches_keys_notin_tl lfm ltbm h2 _ (dlookup_mem h)
      have hmem := buildRows_b_mem none (findDirectMatches lfm ltbm).2.1
        (findDirectMatches lfm ltbm).2.2 x hx
      rw [heq, hb] at hmem
      exact hkey hmem
  · intro m nm flF tlF hok
    obtain ⟨h1, h2⟩ := match_similar_ok_nodup _ _ _ _ _ _ _ _ _ _ hok
    rw [match_similar_comp_eq lfm ltbm minDist floor ans ww h1 h2] at hok
    cases hrun : compLoop false (buildRows (some floor) (findDirectMatches lfm ltbm).2.1
          (findDirectMatches lfm ltbm).2.2).length.succ 0
        (buildRows (some floor) (findDirectMatches lfm ltbm).2.1
          (findDirectMatches lfm ltbm).2.2)
        (findDirectMatches lfm ltbm).1 with
    | error e =>
      rw [hrun] at hok
      simp at hok
    | ok mres =>
      rw [hrun] at hok
      simp only [except_Bind_ok, except_bind_ok, except_ok_inj, Prod.mk.injEq] at hok
      rw [← hok.1]
      refine compLoop_inj false _ _ _ _ _ hrun hinj0 ?_
      intro x hx a b h heq
      have hb := findDirectMatches_lookup_single lfm ltbm a b h
      have hkey := findDirectMatches_keys_notin_tl lfm ltbm h2 _ (dlookup_mem h)
      have hmem := buildRows_b_mem (some floor) (findDirectMatches lfm ltbm).2.1
        (findDirectMatches lfm ltbm).2.2 x hx
      rw [heq, hb] at hmem
      exact hkey hmem

/-- C5 witness: the scalar commitments of the counterexample run share no
target. -/
theorem global_greedy_scalar_targets_unique_witness :
    ("ab" : String) = "ab" := by
  have h := (global_greedy_scalar_targets_unique ["ab", "zzy"] ["ax", "ay"]
      (mkRat 1 10) (mkRat 3 5) (fun _ => Ans.other) 200).1
    [("ab", MatchValue.multiple ["ax", "ay"]), ("zzy", MatchValue.single "ay")] []
    (by decide) "zzy" "zzy" "ay" (by decide) (by decide)
  exact rfl

/-! ## Claim C7: translated outputs use original labels -/

/-- Inversion of a successful `Except` bind. -/
theorem except_seq_ok_inv {ε α β : Type} (x : Except ε α) (f : α → Except ε β) (b : β)
    (h : x >>= f = .ok b) : ∃ a, x = .ok a ∧ f a = .ok b := by
  cases x with
  | error e => exact Except.noConfusion h
  | ok a => exact ⟨a, rfl, h⟩

/-- Membership after `setAdd`. -/
theorem setAdd_mem_inv {α : Type} [DecidableEq α] {y x : α} {l : List α}
    (h : y ∈ setAdd l x) : y = x ∨ y ∈ l := by
  rw [setAdd] at h
  split at h
  · exact Or.inr h
  · rcases List.mem_append.mp h with h | h
    · exact Or.inr h
    · simp only [List.mem_singleton] at h
      exact Or.inl h

/-- A successful back-translation step keys the result by a stored original
label. -/
theorem translateMatchEntry_shape (dfm dto : List (String × String))
    (acc : List (String × MatchValue)) (kv : String × MatchValue)
    (r : List (String × MatchValue)) (hok : translateMatchEntry dfm dto acc kv = .ok r) :
    ∃ x v2, dlookup kv.1 dfm = some x ∧ r = dinsert x v2 acc := by
  rw [translateMatchEntry] at hok
  split at hok
  · rename_i x hx
    simp only [except_bind_ok, except_Bind_ok] at hok
    split at hok
    · split at hok
      · simp only [except_bind_ok, except_Bind_ok, except_ok_inj] at hok
        exact ⟨x, _, hx, hok.symm⟩
      · simp at hok
    · simp at hok
    · simp at hok
  · simp at hok

/-- Every key produced by the match back-translation is a stored original
label. -/
theorem translateMatch_fold_keys (dfm dto : List (String × String))
    (m : List (String × MatchValue)) :
    ∀ acc m2, m.foldlM (translateMatchEntry dfm dto) acc = .ok m2 →
      (∀ kv ∈ acc, ∃ kv0, kv0 ∈ dfm ∧ kv.1 = kv0.2) →
      ∀ kv ∈ m2, ∃ kv0, kv0 ∈ dfm ∧ kv.1 = kv0.2 := by
  induction m with
  | nil =>
    intro acc m2 hok hacc
    replace hok : (Except.ok acc : Except PyErr _) = .ok m2 := hok
    simp only [except_ok_inj] at hok
    rw [← hok]
    exact hacc
  | cons kv1 rest ih =>
    intro acc m2 hok hacc
    replace hok : (translateMatchEntry dfm dto acc kv1).bind
        (fun acc2 => rest.foldlM (translateMatchEntry dfm dto) acc2) = .ok m2 := hok
    cases hf : translateMatchEntry dfm dto acc kv1 with
    | error e =>
      rw [hf] at hok
      simp at hok
    | ok acc2 =>
      rw [hf] at hok
      simp only [except_Bind_ok] at hok
      obtain ⟨x, v2, hx, hr⟩ := translateMatchEntry_shape dfm dto acc kv1 acc2 hf
      refine ih acc2 m2 hok ?_
      subst hr
      intro kv hkv
      rcases dinsert_mem_inv hkv with h | h
      · rw [h]
        exact ⟨(kv1.1, x), dlookup_mem hx, rfl⟩
      · exact hacc kv h

theorem translateMatch_keys (dfm dto : List (String × String))
    (m m2 : List (String × MatchValue)) (hok : translateMatch dfm dto m = .ok m2) :
    ∀ kv ∈ m2, ∃ kv0, kv0 ∈ dfm ∧ kv.1 = kv0.2 :=
  translateMatch_fold_keys dfm dto m [] m2 hok
    (fun kv hkv => absurd hkv (List.not_mem_nil kv))

/-- Every element produced by the `no_match` back-translation is a stored
original label. -/
theorem translateNoMatch_fold_mem (dfm : List (String × String)) (nm : List String) :
    ∀ acc nm2, nm.foldlM (fun acc k =>
        match dlookup k dfm with
        | some x => Except.ok (setAdd acc x)
        | none => Except.error PyErr.keyError) acc = .ok nm2 →
      (∀ y ∈ acc, ∃ kv0, kv0 ∈ dfm ∧ y = kv0.2) →
      ∀ y ∈ nm2, ∃ kv0, kv0 ∈ dfm ∧ y = kv0.2 := by
  induction nm with
  | nil =>
    intro acc nm2 hok hacc
    replace hok : (Except.ok acc : Except PyErr _) = .ok nm2 := hok
    simp only [except_ok_inj] at hok
    rw [← hok]
    exact hacc
  | cons k rest ih =>
    intro acc nm2 hok hacc
    replace hok : ((match dlookup k dfm with
        | some x => Except.ok (setAdd acc x)
        | none => Except.error PyErr.keyError) : Except PyErr (List String)).bind
        (fun acc2 => rest.foldlM (fun acc k =>
          match dlookup k dfm with
          | some x => Except.ok (setAdd acc x)
          | none => Except.error PyErr.keyError) acc2) = .ok nm2 := hok
    split at hok
    · rename_i x hx
      simp only [except_Bind_ok] at hok
      refine ih _ _ hok ?_
      intro y hy
      rcases setAdd_mem_inv hy with h | h
      · exact ⟨(k, x), dlookup_mem hx, h⟩
      · exact hacc y h
    · simp at hok

theorem translateNoMatch_mem (dfm : List (String × String)) (nm nm2 : List String)
    (hok : translateNoMatch dfm nm = .ok nm2) :
    ∀ y ∈ nm2, ∃ kv0, kv0 ∈ dfm ∧ y = kv0.2 :=
  translateNoMatch_fold_mem dfm nm [] nm2 hok
    (fun y hy => absurd hy (List.not_mem_nil y))

/-- Reading off the translated return path of `match_similar`. -/
theorem finTranslate_true_from (dfm dto : List (String × String))
    (m1 : List (String × MatchValue)) (nm1 fl tl : List String)
    (m2 : List (String × MatchValue)) (nm2 fl2 tl2 : List String)
    (hok : finTranslate true dfm dto m1 nm1 fl tl = .ok (m2, nm2, fl2, tl2)) :
    (∀ kv ∈ m2, ∃ kv0, kv0 ∈ dfm ∧ kv.1 = kv0.2) ∧
    (∀ y ∈ nm2, ∃ kv0, kv0 ∈ dfm ∧ y = kv0.2) := by
  replace hok : ((translateMatch dfm dto m1) >>= fun mr =>
      (translateNoMatch dfm nm1) >>= fun nmr =>
      (Except.ok (mr, nmr, fl, tl) : Except PyErr _)) = .ok (m2, nm2, fl2, tl2) := hok
  obtain ⟨mr, htm, hok2⟩ := except_seq_ok_inv _ _ _ hok
  obtain ⟨nmr, htn, hok3⟩ := except_seq_ok_inv _ _ _ hok2
  replace hok3 : (Except.ok (mr, nmr, fl, tl) : Except PyErr _) =
      .ok (m2, nm2, fl2, tl2) := hok3
  simp only [except_ok_inj, Prod.mk.injEq] at hok3
  obtain ⟨hm, hnm, _, _⟩ := hok3
  subst hm
  subst hnm
  exact ⟨translateMatch_keys dfm dto m1 mr htm, translateNoMatch_mem dfm nm1 nmr htn⟩

/-- The values of the lower-casing dict are the original labels. -/
theorem buildLowerDict_values (l : List String) :
    ∀ kv ∈ buildLowerDict l, kv.2 ∈ l := by
  rw [buildLowerDict]
  have main : ∀ (todo : List String) (acc : List (String × String)),
      (∀ y ∈ todo, y ∈ l) → (∀ kv ∈ acc, kv.2 ∈ l) →
      ∀ kv ∈ todo.foldl (fun d v => dinsert (pyLower v) v d) acc, kv.2 ∈ l := by
    intro todo
    induction todo with
    | nil => intro acc _ hacc; exact hacc
    | cons v rest ih =>
      intro acc htodo hacc
      simp only [List.foldl_cons]
      refine ih _ (fun y hy => htodo y (List.mem_cons_of_mem _ hy)) ?_
      intro kv hkv
      rcases dinsert_mem_inv hkv with h | h
      · rw [h]
        exact htodo v (List.mem_cons_self _ _)
      · exact hacc kv h
  exact main l [] (fun y hy => hy) (fun kv hkv => absurd hkv (List.not_mem_nil kv))

/-- The values of the simplification dict are the original labels. -/
theorem addToSimplified_fold_values (f : String → String) (S : List String) :
    ∀ (todo : List String) (st : List (String × String) × List String),
      (∀ y ∈ todo, y ∈ S) → (∀ kv ∈ st.1, kv.2 ∈ S) →
      ∀ kv ∈ (todo.foldl (addToSimplified f) st).1, kv.2 ∈ S := by
  intro todo
  induction todo with
  | nil => intro st _ hst; exact hst
  | cons k rest ih =>
    intro st htodo hst
    simp only [List.foldl_cons]
    refine ih _ (fun y hy => htodo y (List.mem_cons_of_mem _ hy)) ?_
    rw [addToSimplified]
    split
    · exact hst
    · intro kv hkv
      rcases dinsert_mem_inv hkv with h | h
      · rw [h]
        exact htodo k (List.mem_cons_self _ _)
      · exact hst kv h

theorem simplify_strings_values (toSimplify : List String) (lowerCase : Bool)
    (simplifier : Option (List Char)) (d : List (String × String))
    (hok : simplify_strings toSimplify lowerCase simplifier = .ok d) :
    ∀ kv ∈ d, kv.2 ∈ toSimplify := by
  rw [simplify_strings] at hok
  split at hok
  · split at hok
    · simp only [except_ok_inj] at hok
      rw [← hok]
      intro kv hkv
      exact absurd hkv (List.not_mem_nil kv)
    · cases hok
  · replace hok : (if (toSimplify.foldl
          (addToSimplified (pySimplifyKey simplifier lowerCase)) ([], [])).2 ≠ [] then
        (Except.error (SimpErr.collision (toSimplify.foldl
          (addToSimplified (pySimplifyKey simplifier lowerCase)) ([], [])).2) :
            Except SimpErr (List (String × String)))
      else .ok (toSimplify.foldl
          (addToSimplified (pySimplifyKey simplifier lowerCase)) ([], [])).1) = .ok d := hok
    split at hok
    · cases hok
    · simp only [except_ok_inj] at hok
      rw [← hok]
      exact addToSimplified_fold_values (pySimplifyKey simplifier lowerCase) toSimplify
        toSimplify ([], []) (fun y hy => hy)
        (fun kv hkv => absurd hkv (List.not_mem_nil kv))

/-- A successful pool simplification wraps a successful `simplify_strings`. -/
theorem simplifyPool_ok (cs : List Char) (pool : List String)
    (d : List (String × String)) (keys : List String)
    (hok : simplifyPool cs pool = .ok (d, keys)) :
    simplify_strings pool true (some cs) = .ok d := by
  rw [simplifyPool] at hok
  split at hok
  · rename_i d2 hd2
    simp only [except_bind_ok, except_Bind_ok] at hok
    split at hok
    · simp at hok
    · replace hok : (Except.ok (d2, dkeys d2) :
          Except PyErr (List (String × String) × List String)) = .ok (d, keys) := hok
      simp only [except_ok_inj, Prod.mk.injEq] at hok
      rw [← hok.1]
      exact hd2
  · simp at hok

/-- C7: with a normalization policy supplied, every key of the returned match
mapping and every member of the returned `no_match` set is one of the
original, pre-normalization `list_for_matching` labels (translated back
through the reverse table), never a normalized form. -/
theorem simplified_outputs_use_original_labels (lfm ltbm : List String)
    (minDist floor : ℚ) (ans : Nat → Ans) (ww : Nat) (cs : List Char) (am ec : Bool) :
    (∀ m nm flF tlF, match_similar lfm ltbm true am ec minDist floor ans ww =
        .ok (m, nm, flF, tlF) →
        (∀ kv ∈ m, kv.1 ∈ lfm) ∧ ∀ y ∈ nm, y ∈ lfm) ∧
    (∀ m nm, match_comprehensive lfm ltbm (some cs) = .ok (m, nm) →
        (∀ kv ∈ m, kv.1 ∈ lfm) ∧ ∀ y ∈ nm, y ∈ lfm) ∧
    (∀ m nm, match_similar_with_manual_selection lfm ltbm (some cs) minDist ww ans =
        .ok (m, nm) → (∀ kv ∈ m, kv.1 ∈ lfm) ∧ ∀ y ∈ nm, y ∈ lfm) := by
  refine ⟨?_, ?_, ?_⟩
  · intro m nm flF tlF hok
    obtain ⟨h1, h2⟩ := match_similar_ok_nodup _ _ _ _ _ _ _ _ _ _ hok
    rw [match_similar] at hok
    have hfin : ∃ m1 nm1 fl tl,
        finTranslate true (buildLowerDict lfm) (buildLowerDict ltbm) m1 nm1 fl tl =
          .ok (m, nm, flF, tlF) := by
      cases am <;> cases ec <;>
        simp only [h1, h2, not_true, if_false, ite_false, ite_true, Bool.false_eq_true,
          not_false_eq_true, reduceIte, pure_bind] at hok <;>
        · obtain ⟨w, _, hf⟩ := except_seq_ok_inv _ _ _ hok
          exact ⟨_, _, _, _, hf⟩
    obtain ⟨m1, nm1, fl, tl, hf⟩ := hfin
    obtain ⟨hkeys, hmem⟩ := finTranslate_true_from _ _ _ _ _ _ _ _ _ _ hf
    constructor
    · intro kv hkv
      obtain ⟨kv0, hkv0, he⟩ := hkeys kv hkv
      rw [he]
      exact buildLowerDict_values lfm kv0 hkv0
    · intro y hy
      obtain ⟨kv0, hkv0, he⟩ := hmem y hy
      rw [he]
      exact buildLowerDict_values lfm kv0 hkv0
  · intro m nm hok
    obtain ⟨h1, h2⟩ := match_comprehensive_ok_nodup _ _ _ _ hok
    rw [match_comprehensive] at hok
    simp only [h1, h2, not_true, if_false, ite_false, ite_true, Bool.false_eq_true,
      not_false_eq_true, reduceIte, pure_bind] at hok
    obtain ⟨p1, hsp1, hok2⟩ := except_seq_ok_inv _ _ _ hok
    obtain ⟨dfm1, lfm1⟩ := p1
    obtain ⟨p2, hsp2, hok3⟩ := except_seq_ok_inv _ _ _ hok2
    obtain ⟨dto1, ltbm1⟩ := p2
    obtain ⟨mres, hrun, hok4⟩ := except_seq_ok_inv _ _ _ hok3
    obtain ⟨mr, htm, hok5⟩ := except_seq_ok_inv _ _ _ hok4
    obtain ⟨nmr, htn, hok6⟩ := except_seq_ok_inv _ _ _ hok5
    replace hok6 : (Except.ok (mr, nmr) :
        Except PyErr (List (String × MatchValue) × List String)) = .ok (m, nm) := hok6
    simp only [except_ok_inj, Prod.mk.injEq] at hok6
    obtain ⟨hm, hnm⟩ := hok6
    subst hm
    subst hnm
    have hvals := simplify_strings_values lfm true (some cs) dfm1
      (simplifyPool_ok cs lfm dfm1 lfm1 hsp1)
    constructor
    · intro kv hkv
      obtain ⟨kv0, hkv0, he⟩ := translateMatch_keys dfm1 dto1 mres mr htm kv hkv
      rw [he]
      exact hvals kv0 hkv0
    · intro y hy
      obtain ⟨kv0, hkv0, he⟩ := translateNoMatch_mem dfm1 _ nmr htn y hy
      rw [he]
      exact hvals kv0 hkv0
  · intro m nm hok
    obtain ⟨h1, h2⟩ := manual_selection_ok_nodup _ _ _ _ _ _ _ hok
    rw [match_similar_with_manual_selection] at hok
    simp only [h1, h2, not_true, if_false, ite_false, ite_true, Bool.false_eq_true,
      not_false_eq_true, reduceIte, pure_bind] at hok
    obtain ⟨p1, hsp1, hok2⟩ := except_seq_ok_inv _ _ _ hok
    obtain ⟨dfm1, lfm1⟩ := p1
    obtain ⟨p2, hsp2, hok3⟩ := except_seq_ok_inv _ _ _ hok2
    obtain ⟨dto1, ltbm1⟩ := p2
    obtain ⟨stI, hrun, hok4⟩ := except_seq_ok_inv _ _ _ hok3
    obtain ⟨mr, htm, hok5⟩ := except_seq_ok_inv _ _ _ hok4
    obtain ⟨nmr, htn, hok6⟩ := except_seq_ok_inv _ _ _ hok5
    replace hok6 : (Except.ok (mr, nmr) :
        Except PyErr (List (String × MatchValue) × List String)) = .ok (m, nm) := hok6
    simp only [except_ok_inj, Prod.mk.injEq] at hok6
    obtain ⟨hm, hnm⟩ := hok6
    subst hm
    subst hnm
    have hvals := simplify_strings_values lfm true (some cs) dfm1
      (simplifyPool_ok cs lfm dfm1 lfm1 hsp1)
    constructor
    · intro kv hkv
      obtain ⟨kv0, hkv0, he⟩ := translateMatch_keys dfm1 dto1 stI.m mr htm kv hkv
      rw [he]
      exact hvals kv0 hkv0
    · intro y hy
      obtain ⟨kv0, hkv0, he⟩ := translateNoMatch_mem dfm1 _ nmr htn y hy
      rw [he]
      exact hvals kv0 hkv0

/-- C7 witness: the lower-casing run on `["Apple"]` vs `["Apple", "Apply"]`. -/
theorem simplified_outputs_use_original_labels_witness :
    ("Apple" ∈ ["Apple"]) := by
  have h := (simplified_outputs_use_original_labels ["Apple"] ["Apple", "Apply"]
      (mkRat 1 10) (mkRat 3 5) (fun _ => Ans.other) 200 [] true false).1
    [("Apple", MatchValue.single "Apple")] [] [] ["apply"] (by decide)
  exact h.1 ("Apple", MatchValue.single "Apple") (by decide)

/-! ## Claim C8: the collision error and its payload -/

theorem setAdd_self {α : Type} [DecidableEq α] (l : List α) (x : α) : x ∈ setAdd l x := by
  rw [setAdd]
  split
  · rename_i h
    exact h
  · exact List.mem_append.mpr (Or.inr (List.mem_singleton.mpr rfl))

theorem setAdd_mono {α : Type} [DecidableEq α] {u : α} {l : List α} (h : u ∈ l) (x : α) :
    u ∈ setAdd l x := by
  rw [setAdd]
  split
  · exact h
  · exact List.mem_append.mpr (Or.inl h)

/-- The `not_unique` set only grows along the simplification fold. -/
theorem addToSimplified_nu_mono (f : String → String)
    (st : List (String × String) × List String) (u : String) {w : String}
    (h : w ∈ st.2) : w ∈ (addToSimplified f st u).2 := by
  rw [addToSimplified]
  split
  · exact setAdd_mono (setAdd_mono h _) _
  · exact h

theorem fold_nu_mono (f : String → String) :
    ∀ (todo : List String) (st : List (String × String) × List String) {w : String},
      w ∈ st.2 → w ∈ (todo.foldl (addToSimplified f) st).2 := by
  intro todo
  induction todo with
  | nil => intro st w h; exact h
  | cons u rest ih =>
    intro st w h
    simp only [List.foldl_cons]
    exact ih _ (addToSimplified_nu_mono f st u h)

/-- A stored simplified-key binding persists along the fold. -/
theorem addToSimplified_dict_persist (f : String → String)
    (st : List (String × String) × List String) (u : String) {k v : String}
    (h : dlookup k st.1 = some v) : dlookup k (addToSimplified f st u).1 = some v := by
  rw [addToSimplified]
  split
  · exact h
  · rename_i hnone
    by_cases hk : f u = k
    · rw [hk] at hnone
      rw [hnone] at h
      cases h
    · show dlookup k (dinsert (f u) u st.1) = some v
      rw [dlookup_dinsert_ne hk]
      exact h

/-- A later label whose simplified key is already stored drags both the stored
original and itself into the `not_unique` payload. -/
theorem stored_collision_payload (f : String → String) :
    ∀ (rest : List String) (st : List (String × String) × List String) (y v : String),
      y ∈ rest → dlookup (f y) st.1 = some v →
      v ∈ (rest.foldl (addToSimplified f) st).2 ∧
      y ∈ (rest.foldl (addToSimplified f) st).2 := by
  intro rest
  induction rest with
  | nil =>
    intro st y v hy
    exact absurd hy (List.not_mem_nil y)
  | cons u rest ih =>
    intro st y v hy hv
    simp only [List.foldl_cons]
    by_cases huy : u = y
    · subst huy
      have hstep : addToSimplified f st u = (st.1, setAdd (setAdd st.2 v) u) := by
        rw [addToSimplified, hv]
      rw [hstep]
      constructor
      · exact fold_nu_mono f rest _ (setAdd_mono (setAdd_self _ _) _)
      · exact fold_nu_mono f rest _ (setAdd_self _ _)
    · rcases List.mem_cons.mp hy with h | h
      · exact absurd h.symm huy
      · exact ih _ y v h (addToSimplified_dict_persist f st u hv)

/-- Two distinct labels with the same simplified key both end up in the
`not_unique` payload. -/
theorem collide_both_in_payload (f : String → String) :
    ∀ (todo : List String) (st : List (String × String) × List String) (x y : String),
      x ∈ todo → y ∈ todo → x ≠ y → f x = f y →
      x ∈ (todo.foldl (addToSimplified f) st).2 ∧
      y ∈ (todo.foldl (addToSimplified f) st).2 := by
  intro todo
  induction todo with
  | nil =>
    intro st x y hx
    exact absurd hx (List.not_mem_nil x)
  | cons u rest ih =>
    intro st x y hx hy hxy hkey
    simp only [List.foldl_cons]
    rcases List.mem_cons.mp hx with hxu | hxr
    · subst hxu
      have hyr : y ∈ rest := by
        rcases List.mem_cons.mp hy with h | h
        · exact absurd h.symm hxy
        · exact h
      cases hlk : dlookup (f x) st.1 with
      | some v =>
        have hstep : addToSimplified f st x = (st.1, setAdd (setAdd st.2 v) x) := by
          rw [addToSimplified, hlk]
        rw [hstep]
        have hy2 := stored_collision_payload f rest (st.1, setAdd (setAdd st.2 v) x) y v
          hyr (by rw [← hkey]; exact hlk)
        exact ⟨fold_nu_mono f rest _ (setAdd_self _ _), hy2.2⟩
      | none =>
        have hstep : addToSimplified f st x = (dinsert (f x) x st.1, st.2) := by
          rw [addToSimplified, hlk]
        rw [hstep]
        have hlk2 : dlookup (f y) (dinsert (f x) x st.1) = some x := by
          rw [← hkey]
          exact dlookup_dinsert_self _ _ _
        exact stored_collision_payload f rest _ y x hyr hlk2
    · rcases List.mem_cons.mp hy with hyu | hyr
      · subst hyu
        cases hlk : dlookup (f y) st.1 with
        | some v =>
          have hstep : addToSimplified f st y = (st.1, setAdd (setAdd st.2 v) y) := by
            rw [addToSimplified, hlk]
          rw [hstep]
          have hx2 := stored_collision_payload f rest (st.1, setAdd (setAdd st.2 v) y) x v
            hxr (by rw [hkey]; exact hlk)
          exact ⟨hx2.2, fold_nu_mono f rest _ (setAdd_self _ _)⟩
        | none =>
          have hstep : addToSimplified f st y = (dinsert (f y) y st.1, st.2) := by
            rw [addToSimplified, hlk]
          rw [hstep]
          have hlk2 : dlookup (f x) (dinsert (f y) y st.1) = some y := by
            rw [hkey]
            exact dlookup_dinsert_self _ _ _
          have h2 := stored_collision_payload f rest (dinsert (f y) y st.1, st.2) x y hxr hlk2
          exact ⟨h2.2, h2.1⟩
      · exact ih _ x y hxr hyr hxy hkey

/-- C8 counterexample: the collision error's payload is the `not_unique` set
of original labels only — the offending normalized key ("ab") is not named. -/
theorem collision_error_lacks_normalized_key :
    simplify_strings ["A-B", "A B"] true (some defaultSimplifier) =
      .error (.collision ["A-B", "A B"]) ∧
    pySimplifyKey (some defaultSimplifier) true "A-B" = "ab" ∧
    pySimplifyKey (some defaultSimplifier) true "A B" = "ab" ∧
    "ab" ∉ ["A-B", "A B"] :=
  ⟨by decide, by decide, by decide, by decide⟩

/-- C8 (amended): when normalization collapses two distinct labels onto one
normalized form (and at least one policy flag is set), `simplify_strings`
raises the collision error, and its payload contains both collapsed original
labels — but only original labels: the normalized key itself is not named. -/
theorem collision_error_contains_both (toSimplify : List String) (lowerCase : Bool)
    (simplifier : Option (List Char)) (x y : String)
    (hx : x ∈ toSimplify) (hy : y ∈ toSimplify) (hxy : x ≠ y)
    (hkey : pySimplifyKey simplifier lowerCase x = pySimplifyKey simplifier lowerCase y)
    (hflags : ¬ (simplifier = none ∧ lowerCase = false)) :
    ∃ labels, simplify_strings toSimplify lowerCase simplifier =
      .error (.collision labels) ∧ x ∈ labels ∧ y ∈ labels := by
  rw [simplify_strings, if_neg hflags]
  obtain ⟨hxp, hyp⟩ := collide_both_in_payload (pySimplifyKey simplifier lowerCase)
    toSimplify ([], []) x y hx hy hxy hkey
  have hne : (toSimplify.foldl
      (addToSimplified (pySimplifyKey simplifier lowerCase)) ([], [])).2 ≠ [] := by
    intro hc
    rw [hc] at hxp
    exact absurd hxp (List.not_mem_nil x)
  refine ⟨(toSimplify.foldl
      (addToSimplified (pySimplifyKey simplifier lowerCase)) ([], [])).2, ?_, hxp, hyp⟩
  show (if (toSimplify.foldl
      (addToSimplified (pySimplifyKey simplifier lowerCase)) ([], [])).2 ≠ [] then
        (Except.error (SimpErr.collision (toSimplify.foldl
          (addToSimplified (pySimplifyKey simplifier lowerCase)) ([], [])).2) :
            Except SimpErr (List (String × String)))
      else .ok (toSimplify.foldl
        (addToSimplified (pySimplifyKey simplifier lowerCase)) ([], [])).1) =
    .error (.collision (toSimplify.foldl
      (addToSimplified (pySimplifyKey simplifier lowerCase)) ([], [])).2)
  rw [if_pos hne]

/-- C8 witness: `"A-B"` and `"A B"` both normalize to `"ab"`. -/
theorem collision_error_contains_both_witness :
    ("A-B" ∈ ["A-B", "A B"]) ∧ ∃ labels,
      simplify_strings ["A-B", "A B"] true (some defaultSimplifier) =
        .error (.collision labels) ∧ "A-B" ∈ labels ∧ "A B" ∈ labels := by
  refine ⟨by decide, ?_⟩
  exact collision_error_contains_both ["A-B", "A B"] true (some defaultSimplifier)
    "A-B" "A B" (by decide) (by decide) (by decide) (by decide) (by decide)

/-! ## Claim C9: manual-selection auto-match -/

/-- A singleton top score-group with a gap above `minDist` is auto-matched to
its (sole) candidate without consuming any prompt answer. -/
theorem manualEntry_auto (minDist : ℚ) (ww : Nat) (tl1 : List String) (ans : Nat → Ans)
    (st : InterSt) (a : String) (st2 : InterSt) (s0 s1 : ℚ) (g : List String) (b : String)
    (hok : manualEntry minDist ww tl1 ans st a = .ok st2)
    (hk0 : (if (dkeys (simsListedForEntry a tl1)).length = 1
        then (1 : ℚ) :: dkeys (simsListedForEntry a tl1)
        else dkeys (simsListedForEntry a tl1))[0]? = some s0)
    (hk1 : (if (dkeys (simsListedForEntry a tl1)).length = 1
        then (1 : ℚ) :: dkeys (simsListedForEntry a tl1)
        else dkeys (simsListedForEntry a tl1))[1]? = some s1)
    (hgap : minDist < qsub s0 s1)
    (hg : dlookup s0 (simsListedForEntry a tl1) = some g)
    (hglen : g.length = 1)
    (hlast : g.getLast? = some b) :
    st2.m = dinsert a (MatchValue.single b) st.m ∧ st2.cnt = st.cnt := by
  rw [manualEntry] at hok
  simp only [hk0, hk1, except_bind_ok, except_Bind_ok] at hok
  rw [if_neg (not_not_intro hgap)] at hok
  simp only [hg, except_bind_ok, except_Bind_ok] at hok
  have hd : decide (g.length ≠ 1) = false := by simp [hglen]
  rw [hd] at hok
  simp only [Bool.false_eq_true, if_false, ite_false, reduceIte] at hok
  simp only [hg, hlast, except_bind_ok, except_Bind_ok] at hok
  simp only [except_ok_inj] at hok
  rw [← hok]
  exact ⟨rfl, rfl⟩

/-- Through the manual-selection loop, a processed label in the auto-match
situation ends bound to its sole top candidate. -/
theorem manualFold_auto (minDist : ℚ) (ww : Nat) (tl1 : List String) (ans : Nat → Ans)
    (s0 s1 : ℚ) (g : List String) (b : String) (a : String)
    (hk0 : (if (dkeys (simsListedForEntry a tl1)).length = 1
        then (1 : ℚ) :: dkeys (simsListedForEntry a tl1)
        else dkeys (simsListedForEntry a tl1))[0]? = some s0)
    (hk1 : (if (dkeys (simsListedForEntry a tl1)).length = 1
        then (1 : ℚ) :: dkeys (simsListedForEntry a tl1)
        else dkeys (simsListedForEntry a tl1))[1]? = some s1)
    (hgap : minDist < qsub s0 s1)
    (hg : dlookup s0 (simsListedForEntry a tl1) = some g)
    (hglen : g.length = 1)
    (hlast : g.getLast? = some b) (todo : List String) :
    ∀ st st2 : InterSt, todo.foldlM (manualEntry minDist ww tl1 ans) st = .ok st2 →
      todo.Nodup → a ∈ todo → dlookup a st2.m = some (.single b) := by
  induction todo with
  | nil =>
    intro st st2 _ _ ha
    exact absurd ha (List.not_mem_nil a)
  | cons u rest ih =>
    intro st st2 hok hnd ha
    rcases List.nodup_cons.mp hnd with ⟨hunotin, hndrest⟩
    replace hok : (manualEntry minDist ww tl1 ans st u).bind
        (fun st1 => rest.foldlM (manualEntry minDist ww tl1 ans) st1) = .ok st2 := hok
    cases hentry : manualEntry minDist ww tl1 ans st u with
    | error e =>
      rw [hentry] at hok
      simp at hok
    | ok st1 =>
      rw [hentry] at hok
      simp only [except_Bind_ok] at hok
      rcases List.mem_cons.mp ha with hau | har
      · subst hau
        obtain ⟨hm, _⟩ := manualEntry_auto minDist ww tl1 ans st a st1 s0 s1 g b hentry
          hk0 hk1 hgap hg hglen hlast
        rw [manualFold_preserve minDist ww tl1 ans rest st1 st2 hok a hunotin, hm]
        exact dlookup_dinsert_self a _ _
      · exact ih _ _ hok hndrest har

/-- C9 counterexample: the auto-match pops the candidate only from that
entry's own (locally re-computed) group — the target is NOT removed from later
source labels' candidates: both sources get `"abcdg"`. -/
theorem manual_auto_target_not_consumed :
    match_similar_with_manual_selection ["abcde", "abcdf"] ["abcdg", "zzzzz"] none
        (mkRat 7 10) 200 (fun _ => Ans.other) =
      .ok ([("abcde", MatchValue.single "abcdg"),
            ("abcdf", MatchValue.single "abcdg")], []) := by
  decide

/-- C9 (amended): a source label whose top score-group is a singleton with a
gap above `minimal_distance_for_automatic_matching` to the second group is
auto-matched to that sole candidate without any prompting, but the chosen
target is NOT removed from consideration for later source labels: the pop only
mutates the entry's own candidate list, so a later label in the same run can
be auto-matched to the same target. -/
theorem manual_singleton_gap_automatch (lfm ltbm : List String) (minDist : ℚ)
    (ww : Nat) (ans : Nat → Ans) (a : String) (s0 s1 : ℚ) (g : List String) (b : String)
    (ha : a ∈ (findDirectMatches lfm ltbm).2.1)
    (hk0 : (if (dkeys (simsListedForEntry a (findDirectMatches lfm ltbm).2.2)).length = 1
        then (1 : ℚ) :: dkeys (simsListedForEntry a (findDirectMatches lfm ltbm).2.2)
        else dkeys (simsListedForEntry a (findDirectMatches lfm ltbm).2.2))[0]? = some s0)
    (hk1 : (if (dkeys (simsListedForEntry a (findDirectMatches lfm ltbm).2.2)).length = 1
        then (1 : ℚ) :: dkeys (simsListedForEntry a (findDirectMatches lfm ltbm).2.2)
        else dkeys (simsListedForEntry a (findDirectMatches lfm ltbm).2.2))[1]? = some s1)
    (hgap : minDist < qsub s0 s1)
    (hg : dlookup s0 (simsListedForEntry a (findDirectMatches lfm ltbm).2.2) = some g)
    (hglen : g.length = 1) (hlast : g.getLast? = some b) :
    ∀ m nm, match_similar_with_manual_selection lfm ltbm none minDist ww ans = .ok (m, nm) →
      dlookup a m = some (.single b) := by
  intro m nm hok
  obtain ⟨h1, h2⟩ := manual_selection_ok_nodup _ _ _ _ _ _ _ hok
  rw [manual_selection_none_eq lfm ltbm minDist ww ans h1 h2] at hok
  obtain ⟨stI, hrun, hfin⟩ := except_seq_ok_inv _ _ _ hok
  replace hfin : (Except.ok (stI.m, (findDirectMatches lfm ltbm).2.1.filter
      fun x => (dlookup x stI.m).isNone) : Except PyErr _) = .ok (m, nm) := hfin
  simp only [except_ok_inj, Prod.mk.injEq] at hfin
  rw [← hfin.1]
  exact manualFold_auto minDist ww (findDirectMatches lfm ltbm).2.2 ans s0 s1 g b a
    hk0 hk1 hgap hg hglen hlast (findDirectMatches lfm ltbm).2.1 _ _ hrun
    (findDirectMatches_pools_nodup lfm ltbm h1 h2).1 ha

/-- C9 witness: `"abcde"` vs `["abcdg", "zzzzz"]`, gap 4/5 − 0 over 7/10. -/
theorem manual_singleton_gap_automatch_witness :
    dlookup "abcde" [("abcde", MatchValue.single "abcdg"),
        ("abcdf", MatchValue.single "abcdg")] = some (MatchValue.single "abcdg") := by
  exact manual_singleton_gap_automatch ["abcde", "abcdf"] ["abcdg", "zzzzz"]
    (mkRat 7 10) 200 (fun _ => Ans.other) "abcde" (mkRat 4 5) 0 ["abcdg"] "abcdg"
    (by decide) (by decide) (by decide) (by decide) (by decide) (by decide) (by decide)
    [("abcde", MatchValue.single "abcdg"), ("abcdf", MatchValue.single "abcdg")] []
    (by decide)

/-! ## Claim C10: in-place consumption of the caller's lists -/

/-- The direct-match dict never keeps a key in the remaining source pool. -/
theorem findDirectFold_keys_notin_fl (todo : List String)
    (st : List (String × MatchValue) × List String × List String)
    (hnd : st.2.1.Nodup) (hinv : ∀ kv ∈ st.1, kv.1 ∉ st.2.1) :
    ∀ kv ∈ ((todo.foldl
      (fun st a =>
        if a ∈ st.2.2 then
          (dinsert a (.single a) st.1, pyErase a st.2.1, pyErase a st.2.2)
        else st) st)).1,
      kv.1 ∉ ((todo.foldl
        (fun st a =>
          if a ∈ st.2.2 then
            (dinsert a (.single a) st.1, pyErase a st.2.1, pyErase a st.2.2)
          else st) st)).2.1 := by
  induction todo generalizing st with
  | nil => exact hinv
  | cons b rest ih =>
    simp only [List.foldl_cons]
    by_cases hb : b ∈ st.2.2
    · rw [if_pos hb]
      refine ih _ (nodup_pyErase hnd) ?_
      intro kv hkv
      rcases dinsert_mem_inv hkv with h | h
      · rw [h]
        exact not_mem_pyErase hnd
      · exact fun hc => hinv kv h (mem_of_mem_pyErase hc)
    · rw [if_neg hb]
      exact ih _ hnd hinv

theorem findDirectMatches_keys_notin_fl (lfm ltbm : List String) (h1 : lfm.Nodup) :
    ∀ kv ∈ (findDirectMatches lfm ltbm).1, kv.1 ∉ (findDirectMatches lfm ltbm).2.1 :=
  findDirectFold_keys_notin_fl lfm ([], lfm, ltbm) h1
    (fun kv hkv => absurd hkv (List.not_mem_nil kv))

/-- Along the greedy loop, every binding's key is consumed from the source
pool and every recorded target from the target pool. -/
theorem greedyLoop_consume (ms : String → List (ℚ × MatchValue)) (todo : List String) :
    ∀ st st2 : GreedySt, greedyLoop ms todo st = .ok st2 →
      st.fl.Nodup → st.tl.Nodup →
      (∀ a v, dlookup a st.m = some v → a ∉ st.fl ∧ ∀ b ∈ valTargets v, b ∉ st.tl) →
      ∀ a v, dlookup a st2.m = some v → a ∉ st2.fl ∧ ∀ b ∈ valTargets v, b ∉ st2.tl := by
  induction todo with
  | nil =>
    intro st st2 hok _ _ hinv
    rw [greedyLoop] at hok
    simp only [except_ok_inj] at hok
    rw [← hok]
    exact hinv
  | cons x rest ih =>
    intro st st2 hok hndfl hndtl hinv
    rw [greedyLoop] at hok
    split at hok
    · exact ih st st2 hok hndfl hndtl hinv
    · rename_i s hhead
      split at hok
      case h_2 => simp at hok
      case h_1 v0 hv0 =>
        simp only [except_bind_ok, except_Bind_ok] at hok
        cases hfl : pyRemove x st.fl with
        | error e =>
          rw [hfl] at hok
          simp at hok
        | ok fl2 =>
          rw [hfl] at hok
          simp only [except_bind_ok, except_Bind_ok] at hok
          obtain ⟨hfleq, hxin⟩ := pyRemove_ok hfl
          subst hfleq
          split at hok
          · rename_i l
            cases hrem : l.foldlM (fun acc b => pyRemove b acc) st.tl with
            | error e =>
              rw [hrem] at hok
              simp at hok
            | ok tl2 =>
              rw [hrem] at hok
              simp only [except_bind_ok, except_Bind_ok] at hok
              obtain ⟨hnd2, hall, hsub⟩ := foldlM_pyRemove_all l st.tl tl2 hndtl hrem
              refine ih _ _ hok (nodup_pyErase hndfl) hnd2 ?_
              intro a v ha
              rcases dlookup_dinsert_cases ha with ⟨hax, hv⟩ | ⟨hax, ha2⟩
              · constructor
                · rw [hax]
                  exact not_mem_pyErase hndfl
                · intro b hb
                  rw [hv] at hb
                  exact hall b hb
              · obtain ⟨hafl, htl⟩ := hinv a v ha2
                exact ⟨fun hc => hafl (mem_of_mem_pyErase hc),
                  fun b hb hc => htl b hb (hsub b hc)⟩
          · rename_i c
            cases hrem : pyRemove c st.tl with
            | error e =>
              rw [hrem] at hok
              simp at hok
            | ok tl2 =>
              rw [hrem] at hok
              simp only [except_bind_ok, except_Bind_ok] at hok
              obtain ⟨htleq, hcin⟩ := pyRemove_ok hrem
              subst htleq
              refine ih _ _ hok (nodup_pyErase hndfl) (nodup_pyErase hndtl) ?_
              intro a v ha
              rcases dlookup_dinsert_cases ha with ⟨hax, hv⟩ | ⟨hax, ha2⟩
              · constructor
                · rw [hax]
                  exact not_mem_pyErase hndfl
                · intro b hb
                  rw [hv] at hb
                  replace hb : b ∈ [c] := hb
                  simp only [List.mem_singleton] at hb
                  subst hb
                  exact not_mem_pyErase hndtl
              · obtain ⟨hafl, htl⟩ := hinv a v ha2
                exact ⟨fun hc => hafl (mem_of_mem_pyErase hc),
                  fun b hb hc => htl b hb (mem_of_mem_pyErase hc)⟩
          · simp at hok

/-- C10: the per-entry greedy `match_similar` consumes its caller's lists in
place — on return, every matched source label (directly or fuzzily matched)
is gone from the final contents of `list_for_matching`, and every recorded
target label is gone from the final contents of `list_to_be_matched_to`. -/
theorem greedy_consumes_pools (lfm ltbm : List String) (minDist floor : ℚ)
    (ans : Nat → Ans) (ww : Nat) :
    ∀ m nm flF tlF, match_similar lfm ltbm false true false minDist floor ans ww =
      .ok (m, nm, flF, tlF) →
      ∀ a v, dlookup a m = some v → a ∉ flF ∧ ∀ b ∈ valTargets v, b ∉ tlF := by
  intro m nm flF tlF hok
  obtain ⟨h1, h2⟩ := match_similar_ok_nodup _ _ _ _ _ _ _ _ _ _ hok
  rw [match_similar_greedy_eq lfm ltbm minDist floor ans ww h1 h2] at hok
  obtain ⟨st, hrun, hfin⟩ := except_seq_ok_inv _ _ _ hok
  replace hfin : (Except.ok (st.m, st.fl.filter fun a => (dlookup a st.m).isNone,
      st.fl, st.tl) : Except PyErr _) = .ok (m, nm, flF, tlF) := hfin
  simp only [except_ok_inj, Prod.mk.injEq] at hfin
  obtain ⟨hm, _, hfl, htl⟩ := hfin
  rw [← hm, ← hfl, ← htl]
  obtain ⟨hpools1, hpools2⟩ := findDirectMatches_pools_nodup lfm ltbm h1 h2
  refine greedyLoop_consume _ _ _ _ hrun hpools1 hpools2 ?_
  intro a v ha
  have hmem := dlookup_mem ha
  have hent := findDirectMatches_entries lfm ltbm _ hmem
  replace hent : v = MatchValue.single a := hent
  subst hent
  refine ⟨findDirectMatches_keys_notin_fl lfm ltbm h1 _ hmem, ?_⟩
  intro b hb
  replace hb : b ∈ [a] := hb
  simp only [List.mem_singleton] at hb
  subst hb
  exact findDirectMatches_keys_notin_tl lfm ltbm h2 _ hmem

/-- C10 witness: `["Apple"]` vs `["Apple", "Apply"]` in greedy mode. -/
theorem greedy_consumes_pools_witness :
    ("Apple" ∉ ([] : List String)) ∧
      ∀ b ∈ valTargets (MatchValue.single "Apple"), b ∉ ["Apply"] := by
  exact greedy_consumes_pools ["Apple"] ["Apple", "Apply"] (mkRat 1 10) (mkRat 3 5)
    (fun _ => Ans.other) 200 [("Apple", MatchValue.single "Apple")] [] [] ["Apply"]
    (by decide) "Apple" (MatchValue.single "Apple") (by decide)

end Datesy
